import Mathlib

/-!
BMath: parser and code generator

A shallow embedding of the recursive-descent parser (`src/parser.cpp`) and of the
NASM code generator (`codegen.hpp`) of the BMath compiler, followed by the
properties proved about them.

Conventions of the embedding.

* `std::vector<Token>` is `List Token`; the parser functions, which mutate
  their `TokenList&` argument, return the remaining list next to their result.
* `std::shared_ptr<AstNode>` is `Option AstNode` (`none` is the null pointer),
  `std::optional<Token>` is `Option Token`.
* The parser functions are mutually recursive and loop over the list that
  their callees leave behind, so they carry a `fuel` argument that decreases
  at every call; `none` is returned only when the fuel is exhausted (or
  `consume` meets an empty vector, which the source never does).  The top
  level `parse_prog` supplies `3 * tks.length + 4` units, which is shown to
  be always enough.
-/

namespace BMath

/-! ## Tokens and nodes (`token.hpp`, `node.hpp`) -/

/-- Kinds of lexical tokens. -/
inductive token_t where
  | IDENTIFIER
  | NUMBERLITERAL
  | CHARLITERAL
  | STRINGLITERAL
  | SYMBOLIC
  | _EOF
  deriving DecidableEq, Repr

/-- A token: its kind and its text. -/
structure Token where
  t_type : token_t
  value : String
  deriving DecidableEq, Repr

/-- Kinds of AST nodes. -/
inductive NodeType where
  | PROG
  | BINOP
  | LITERAL
  | ASSIGN
  deriving DecidableEq, Repr

mutual
/-- An AST node: a kind and a vector of arguments. -/
inductive AstNode where
  | mk (n_type : NodeType) (args : List NodeArg)
/-- An argument slot: an optional token and a nullable child pointer. -/
inductive NodeArg where
  | mk (tk : Option Token) (node : Option AstNode)
end

/-- Field `n_type` of a node. -/
def AstNode.n_type : AstNode → NodeType
  | .mk t _ => t

/-- Field `args` of a node. -/
def AstNode.args : AstNode → List NodeArg
  | .mk _ a => a

/-- Field `tk` of an argument. -/
def NodeArg.tk : NodeArg → Option Token
  | .mk t _ => t

/-- Field `node` of an argument. -/
def NodeArg.node : NodeArg → Option AstNode
  | .mk _ n => n

abbrev TokenList := List Token

abbrev NodeArgs := List NodeArg

/-! ## Parser (`src/parser.cpp`) -/

/-- Removes the first element, if there is one. -/
def pop_front {α : Type} (v : List α) : List α :=
  match v with
  | [] => []
  | _ :: rest => rest

def new_arg_token (t : Token) : NodeArg := NodeArg.mk (some t) none

def new_arg_node (a : AstNode) : NodeArg := NodeArg.mk none (some a)

def new_args (a : NodeArg) : NodeArgs := [a]

def is_symbol (tks : TokenList) (s : String) : Bool :=
  match tks with
  | [] => false
  | t :: _ => t.t_type == token_t.SYMBOLIC && t.value == s

def at_eof (tks : TokenList) : Bool :=
  match tks with
  | [] => true
  | t :: _ => t.t_type == token_t._EOF

/-- Takes the front token off the list; `none` on an empty list, where the
source reads `front()` of an empty vector. -/
def consume (tks : TokenList) : Option (Token × TokenList) :=
  match tks with
  | [] => none
  | t :: rest => some (t, pop_front (t :: rest))

/-- The node `BINOP [left, op, right]` built in the loops of `parse_term`
and `parse_expr`. -/
def mk_binop (left : AstNode) (op : Token) (right : AstNode) : AstNode :=
  AstNode.mk NodeType.BINOP
    ((new_args (new_arg_node left) ++ [new_arg_token op]) ++ [new_arg_node right])

/-- Loop condition of `parse_term`. -/
def is_mul_op (tks : TokenList) : Bool :=
  is_symbol tks "*" || is_symbol tks "/" || is_symbol tks "%"

/-- Loop condition of `parse_expr`. -/
def is_add_op (tks : TokenList) : Bool :=
  is_symbol tks "+" || is_symbol tks "-"

/-- The test `tks.front().t_type` is `NUMBERLITERAL`, `IDENTIFIER`,
`STRINGLITERAL` or `CHARLITERAL` of `parse_value`. -/
def front_is_literal (tks : TokenList) : Bool :=
  match tks with
  | [] => false
  | t :: _ => t.t_type == token_t.NUMBERLITERAL || t.t_type == token_t.IDENTIFIER ||
      t.t_type == token_t.STRINGLITERAL || t.t_type == token_t.CHARLITERAL

mutual
/-- The function `parse_value`: `value := NUMBER | IDENTIFIER | '(' expr ')'`. -/
def parse_value : Nat → TokenList → Option (AstNode × TokenList)
  | 0, _ => none
  | fuel + 1, tks =>
    if at_eof tks then
      some (AstNode.mk NodeType.LITERAL [], tks)
    else if is_symbol tks "(" then
      match consume tks with
      | none => none
      | some (_, tks1) =>
        match parse_expr fuel tks1 with
        | none => none
        | some (inner, tks2) =>
          if is_symbol tks2 ")" then
            match consume tks2 with
            | none => none
            | some (_, tks3) => some (inner, tks3)
          else some (inner, tks2)
    else if front_is_literal tks then
      match consume tks with
      | none => none
      | some (tk, tks1) =>
        some (AstNode.mk NodeType.LITERAL (new_args (new_arg_token tk)), tks1)
    else
      match consume tks with
      | none => none
      | some (tk, tks1) =>
        some (AstNode.mk NodeType.LITERAL (new_args (new_arg_token tk)), tks1)
/-- The `while` loop of `parse_term`, entered with the accumulated `left`. -/
def parse_term_loop : Nat → AstNode → TokenList → Option (AstNode × TokenList)
  | 0, _, _ => none
  | fuel + 1, left, tks =>
    if is_mul_op tks then
      match consume tks with
      | none => none
      | some (op, tks1) =>
        match parse_value fuel tks1 with
        | none => none
        | some (right, tks2) => parse_term_loop fuel (mk_binop left op right) tks2
    else some (left, tks)
/-- The function `parse_term`: `term := value (('*' | '/' | '%') value)*`. -/
def parse_term : Nat → TokenList → Option (AstNode × TokenList)
  | 0, _ => none
  | fuel + 1, tks =>
    match parse_value fuel tks with
    | none => none
    | some (left, tks1) => parse_term_loop fuel left tks1
/-- The `while` loop of `parse_expr`, entered with the accumulated `left`. -/
def parse_expr_loop : Nat → AstNode → TokenList → Option (AstNode × TokenList)
  | 0, _, _ => none
  | fuel + 1, left, tks =>
    if is_add_op tks then
      match consume tks with
      | none => none
      | some (op, tks1) =>
        match parse_term fuel tks1 with
        | none => none
        | some (right, tks2) => parse_expr_loop fuel (mk_binop left op right) tks2
    else some (left, tks)
/-- The function `parse_expr`: `expr := term (('+' | '-') term)*`. -/
def parse_expr : Nat → TokenList → Option (AstNode × TokenList)
  | 0, _ => none
  | fuel + 1, tks =>
    match parse_term fuel tks with
    | none => none
    | some (left, tks1) => parse_expr_loop fuel left tks1
end

/-- The two-token lookahead of `parse_stmt`:
`tks.size() >= 2 && tks[0] is IDENTIFIER && tks[1] is SYMBOLIC "="`. -/
def starts_assign (tks : TokenList) : Bool :=
  match tks with
  | t0 :: t1 :: _ =>
    t0.t_type == token_t.IDENTIFIER && t1.t_type == token_t.SYMBOLIC && t1.value == "="
  | _ => false

/-- The function `parse_stmt`: an assignment `IDENTIFIER '=' expr`, or an
expression. -/
def parse_stmt (fuel : Nat) (tks : TokenList) : Option (AstNode × TokenList) :=
  if starts_assign tks then
    match consume tks with
    | none => none
    | some (id, tks1) =>
      match consume tks1 with
      | none => none
      | some (_, tks2) =>
        match parse_expr fuel tks2 with
        | none => none
        | some (rhs, tks3) =>
          some (AstNode.mk NodeType.ASSIGN (new_args (new_arg_token id) ++ [new_arg_node rhs]),
            tks3)
  else parse_expr fuel tks

/-- The `while` loop of `parse_prog`, with the arguments collected so far. -/
def parse_prog_loop : Nat → TokenList → NodeArgs → Option (AstNode × TokenList)
  | 0, _, _ => none
  | fuel + 1, tks, args =>
    if !at_eof tks then
      match parse_stmt fuel tks with
      | none => none
      | some (s, tks1) => parse_prog_loop fuel tks1 (args ++ [new_arg_node s])
    else some (AstNode.mk NodeType.PROG args, tks)

/-- The function `parse_prog`, run with fuel that always suffices (see
`parse_prog_loop_total`). -/
def parse_prog (tks : TokenList) : Option (AstNode × TokenList) :=
  parse_prog_loop (3 * tks.length + 4) tks []

/-! ## Big-step description of the parser -/

/-- The five mutually recursive parsing routines; the two loops carry their
accumulated left operand. -/
inductive Rule where
  | value
  | term
  | expr
  | termLoop (left : AstNode)
  | exprLoop (left : AstNode)

/-- Dispatch to the routine named by a `Rule`. -/
def parse_rule : Rule → Nat → TokenList → Option (AstNode × TokenList)
  | .value, f, tks => parse_value f tks
  | .term, f, tks => parse_term f tks
  | .expr, f, tks => parse_expr f tks
  | .termLoop left, f, tks => parse_term_loop f left tks
  | .exprLoop left, f, tks => parse_expr_loop f left tks

/-- The empty literal returned at the end marker. -/
def empty_literal : AstNode := AstNode.mk NodeType.LITERAL []

/-- The literal node wrapping one token. -/
def literal_of (tk : Token) : AstNode :=
  AstNode.mk NodeType.LITERAL (new_args (new_arg_token tk))

/-- Big-step description of the five routines: `Parses k tks n rest` says that
routine `k` started on `tks` returns `n` and leaves `rest`. -/
inductive Parses : Rule → TokenList → AstNode → TokenList → Prop
  | value_eof (tks : TokenList) (h : at_eof tks = true) :
      Parses .value tks empty_literal tks
  | value_paren (t : Token) (tks1 : TokenList) (inner : AstNode) (tks2 : TokenList)
      (h1 : at_eof (t :: tks1) = false) (h2 : is_symbol (t :: tks1) "(" = true)
      (he : Parses .expr tks1 inner tks2) :
      Parses .value (t :: tks1) inner (if is_symbol tks2 ")" then pop_front tks2 else tks2)
  | value_token (t : Token) (tks1 : TokenList)
      (h1 : at_eof (t :: tks1) = false) (h2 : is_symbol (t :: tks1) "(" = false) :
      Parses .value (t :: tks1) (literal_of t) tks1
  | term (tks : TokenList) (left : AstNode) (tks1 : TokenList) (n : AstNode) (tks2 : TokenList)
      (hv : Parses .value tks left tks1) (hl : Parses (.termLoop left) tks1 n tks2) :
      Parses .term tks n tks2
  | term_done (left : AstNode) (tks : TokenList) (h : is_mul_op tks = false) :
      Parses (.termLoop left) tks left tks
  | term_step (left : AstNode) (op : Token) (tks1 : TokenList) (right : AstNode)
      (tks2 : TokenList) (n : AstNode) (tks3 : TokenList)
      (h : is_mul_op (op :: tks1) = true) (hv : Parses .value tks1 right tks2)
      (hl : Parses (.termLoop (mk_binop left op right)) tks2 n tks3) :
      Parses (.termLoop left) (op :: tks1) n tks3
  | expr (tks : TokenList) (left : AstNode) (tks1 : TokenList) (n : AstNode) (tks2 : TokenList)
      (hv : Parses .term tks left tks1) (hl : Parses (.exprLoop left) tks1 n tks2) :
      Parses .expr tks n tks2
  | expr_done (left : AstNode) (tks : TokenList) (h : is_add_op tks = false) :
      Parses (.exprLoop left) tks left tks
  | expr_step (left : AstNode) (op : Token) (tks1 : TokenList) (right : AstNode)
      (tks2 : TokenList) (n : AstNode) (tks3 : TokenList)
      (h : is_add_op (op :: tks1) = true) (hv : Parses .term tks1 right tks2)
      (hl : Parses (.exprLoop (mk_binop left op right)) tks2 n tks3) :
      Parses (.exprLoop left) (op :: tks1) n tks3

/-- Fuel needed by each routine on a list of `n` tokens. -/
def Rule.need : Rule → Nat → Nat
  | .value, n => 3 * n + 1
  | .termLoop _, n => 3 * n + 1
  | .term, n => 3 * n + 2
  | .exprLoop _, n => 3 * n + 2
  | .expr, n => 3 * n + 3

/-! ## Statements and programs -/

/-- The node `ASSIGN [id, rhs]` built by `parse_stmt`. -/
def mk_assign (id : Token) (rhs : AstNode) : AstNode :=
  AstNode.mk NodeType.ASSIGN (new_args (new_arg_token id) ++ [new_arg_node rhs])

/-- `Removed tks rest`: `rest` is what is left of `tks` after taking tokens off
its front, none of which is an end marker. -/
def Removed (tks rest : TokenList) : Prop :=
  ∃ pre : TokenList, tks = pre ++ rest ∧ ∀ t ∈ pre, t.t_type ≠ token_t._EOF

/-- The loops may return without reading; the other routines read at least
one token unless they start at an end marker. -/
def Rule.isLoop : Rule → Bool
  | .termLoop _ => true
  | .exprLoop _ => true
  | _ => false

/-- Big-step description of `parse_stmt`. -/
def StmtParses (tks : TokenList) (n : AstNode) (rest : TokenList) : Prop :=
  (starts_assign tks = true ∧ ∃ id eq tks2 rhs, tks = id :: eq :: tks2 ∧
      Parses .expr tks2 rhs rest ∧ n = mk_assign id rhs) ∨
  (starts_assign tks = false ∧ Parses .expr tks n rest)

/-- Big-step description of the loop of `parse_prog`: the statements read
from `tks` until an end marker (or the end of the list) is in front. -/
inductive StmtsParse : TokenList → List AstNode → TokenList → Prop
  | done (tks : TokenList) (h : at_eof tks = true) : StmtsParse tks [] tks
  | step (tks : TokenList) (s : AstNode) (tks1 : TokenList) (ss : List AstNode)
      (rest : TokenList) (h : at_eof tks = false) (hs : StmtParses tks s tks1)
      (hl : StmtsParse tks1 ss rest) : StmtsParse tks (s :: ss) rest

/-! ## Operator chains -/

/-- An operand token: a number or an identifier. -/
def is_operand_token (t : Token) : Bool :=
  t.t_type == token_t.NUMBERLITERAL || t.t_type == token_t.IDENTIFIER

/-- A literal token: one of the four kinds that `parse_value` names. -/
def is_literal_token (t : Token) : Bool :=
  t.t_type == token_t.NUMBERLITERAL || t.t_type == token_t.IDENTIFIER ||
    t.t_type == token_t.STRINGLITERAL || t.t_type == token_t.CHARLITERAL

/-- An additive operator token, `+` or `-`. -/
def is_add_token (t : Token) : Bool :=
  t.t_type == token_t.SYMBOLIC && (t.value == "+" || t.value == "-")

/-- A multiplicative operator token, `*`, `/` or `%`. -/
def is_mul_token (t : Token) : Bool :=
  t.t_type == token_t.SYMBOLIC && (t.value == "*" || t.value == "/" || t.value == "%")

/-- The tokens `o1 v1 ... on vn` of a list of (operator, operand) pairs. -/
def chain_tokens : List (Token × Token) → TokenList
  | [] => []
  | p :: ps => p.1 :: p.2 :: chain_tokens ps

/-- The left fold `BINOP(...BINOP(left, o1, LIT v1)..., on, LIT vn)`. -/
def left_fold (left : AstNode) (pairs : List (Token × Token)) : AstNode :=
  pairs.foldl (fun acc p => mk_binop acc p.1 (literal_of p.2)) left

/-! ## Tokens as the lexer produces them (`lexer.hpp`) -/

/-- The token of a run of digits. -/
def num (s : String) : Token := Token.mk token_t.NUMBERLITERAL s

/-- The token of a run of letters. -/
def ident (s : String) : Token := Token.mk token_t.IDENTIFIER s

/-- The token of any other single character. -/
def sym (s : String) : Token := Token.mk token_t.SYMBOLIC s

/-- The end marker that `tokenize` appends. -/
def eof_token : Token := Token.mk token_t._EOF "EOF"

/-! ## Occurrences of `ASSIGN` -/

mutual
/-- Whether an `ASSIGN` node occurs in a tree, the root included. -/
def has_assign : AstNode → Bool
  | .mk t args => t == NodeType.ASSIGN || has_assign_args args
/-- Whether an `ASSIGN` node occurs below one of the arguments. -/
def has_assign_args : List NodeArg → Bool
  | [] => false
  | (.mk _ none) :: rest => has_assign_args rest
  | (.mk _ (some n)) :: rest => has_assign n || has_assign_args rest
end

/-- The nodes a routine is entered with: the accumulated left operand of a loop. -/
def Rule.acc : Rule → List AstNode
  | .termLoop left => [left]
  | .exprLoop left => [left]
  | _ => []

/-! ## Code generator (`codegen.hpp`)

The emitter appends lines of NASM text to two string streams.  Here a line of
the instruction stream is kept as a structured `Instr` whose `render` is the
text that the source appends, so that the emitted code can also be executed;
the data stream is kept as the list of the lines appended to it.  The
`unordered_set` of variable names and the keys of the `declared` map are
lists without repetition, in insertion order.  The iteration order of the
real `unordered_set` is unspecified: the loop of `generate_asm` over it is
`declare_all`, which `run_emitter` runs in insertion order and
`run_emitter_in` in any given order, and `generate_lines_in_any_order` shows
that the order decides nothing but the order of the slot lines.
-/

inductive TargetArch where
  | X86_32
  | X86_64
  deriving DecidableEq, Repr

inductive TargetOS where
  | Linux
  | Windows
  deriving DecidableEq, Repr

structure CodegenOptions where
  arch : TargetArch := TargetArch.X86_64
  os : TargetOS := TargetOS.Linux
  deriving DecidableEq, Repr

def is_number_token (tk : Token) : Bool := tk.t_type == token_t.NUMBERLITERAL

def is_identifier_token (tk : Token) : Bool := tk.t_type == token_t.IDENTIFIER

/-- A set of names, kept as the list of its elements in insertion order; the
order in which the source iterates over it is unspecified. -/
abbrev VarSet := List String

/-- The operation `vars.insert(name)`. -/
def VarSet.insert (vars : VarSet) (name : String) : VarSet :=
  if name ∈ vars then vars else vars ++ [name]

/-- First loop of the `ASSIGN` case of `collect_vars`: insert the value of the
first identifier token among the arguments, then `break`. -/
def collect_first_ident : List NodeArg → VarSet → VarSet
  | [], vars => vars
  | (.mk (some t) _) :: rest, vars =>
    if t.t_type == token_t.IDENTIFIER then vars.insert t.value
    else collect_first_ident rest vars
  | (.mk none _) :: rest, vars => collect_first_ident rest vars

/-- The step `if (a.tk && a.tk->t_type == IDENTIFIER) vars.insert(a.tk->value)`. -/
def collect_tk (tk : Option Token) (vars : VarSet) : VarSet :=
  match tk with
  | some t => if t.t_type == token_t.IDENTIFIER then vars.insert t.value else vars
  | none => vars

/-- The loop of the `LITERAL` case of `collect_vars`. -/
def collect_literal : List NodeArg → VarSet → VarSet
  | [], vars => vars
  | (.mk tk _) :: rest, vars => collect_literal rest (collect_tk tk vars)

mutual
/-- The function `collect_vars`: the identifiers of the tree are inserted into `vars`. -/
def collect_vars : AstNode → VarSet → VarSet
  | .mk NodeType.ASSIGN args, vars => collect_nodes args (collect_first_ident args vars)
  | .mk NodeType.BINOP args, vars => collect_binop args vars
  | .mk NodeType.LITERAL args, vars => collect_literal args vars
  | .mk NodeType.PROG args, vars => collect_nodes args vars
/-- The loop `for a in args: if (a.node) collect_vars(*a.node, vars)` of the
`ASSIGN` and `PROG` cases. -/
def collect_nodes : List NodeArg → VarSet → VarSet
  | [], vars => vars
  | (.mk _ none) :: rest, vars => collect_nodes rest vars
  | (.mk _ (some n)) :: rest, vars => collect_nodes rest (collect_vars n vars)
/-- The loop of the `BINOP` case: first the child, then the token, of each argument. -/
def collect_binop : List NodeArg → VarSet → VarSet
  | [], vars => vars
  | (.mk tk none) :: rest, vars => collect_binop rest (collect_tk tk vars)
  | (.mk tk (some n)) :: rest, vars => collect_binop rest (collect_tk tk (collect_vars n vars))
end

/-- Register names that occur in the emitted text. -/
inductive Reg where
  | rax | rbx | rcx | rdx | rbp | rsp
  | eax | ebx | ecx | edx | ebp | esp
  deriving DecidableEq, Repr

/-- An instruction operand: a register, an immediate written as in the token,
or the storage slot of a variable, `[name]`. -/
inductive Operand where
  | reg (r : Reg)
  | imm (v : String)
  | mem (name : String)
  deriving DecidableEq, Repr

/-- The instructions that the generator writes. -/
inductive Instr where
  | mov (dst src : Operand)
  | xor (dst src : Operand)
  | add (dst src : Operand)
  | sub (dst src : Operand)
  | imul (dst src : Operand)
  | push (src : Operand)
  | pop (dst : Operand)
  | idiv (src : Operand)
  | cqo
  | cdq
  | ret
  deriving DecidableEq, Repr

def Reg.render : Reg → String
  | .rax => "rax" | .rbx => "rbx" | .rcx => "rcx" | .rdx => "rdx" | .rbp => "rbp" | .rsp => "rsp"
  | .eax => "eax" | .ebx => "ebx" | .ecx => "ecx" | .edx => "edx" | .ebp => "ebp" | .esp => "esp"

def Operand.render : Operand → String
  | .reg r => r.render
  | .imm v => v
  | .mem name => "[" ++ name ++ "]"

/-- The line of text of an instruction, with its newline. -/
def Instr.render : Instr → String
  | .mov d s => "mov " ++ d.render ++ ", " ++ s.render ++ "\n"
  | .xor d s => "xor " ++ d.render ++ ", " ++ s.render ++ "\n"
  | .add d s => "add " ++ d.render ++ ", " ++ s.render ++ "\n"
  | .sub d s => "sub " ++ d.render ++ ", " ++ s.render ++ "\n"
  | .imul d s => "imul " ++ d.render ++ ", " ++ s.render ++ "\n"
  | .push s => "push " ++ s.render ++ "\n"
  | .pop d => "pop " ++ d.render ++ "\n"
  | .idiv s => "idiv " ++ s.render ++ "\n"
  | .cqo => "cqo\n"
  | .cdq => "cdq\n"
  | .ret => "ret\n"

/-- The state of `codegen_detail::Emitter`: the instruction stream `text`, the
data stream `bss` and the keys of the map `declared`. -/
structure Emitter where
  text : List Instr
  bss : List String
  declared : List String

/-- A freshly constructed emitter. -/
def Emitter.init : Emitter := { text := [], bss := [], declared := [] }

/-- Appends one instruction line to `text`. -/
def Emitter.put (E : Emitter) (i : Instr) : Emitter := { E with text := E.text ++ [i] }

def is64 (opts : CodegenOptions) : Bool := opts.arch == TargetArch.X86_64

def declare_var (opts : CodegenOptions) (name : String) (E : Emitter) : Emitter :=
  if name ∈ E.declared then E
  else
    { E with
      declared := E.declared ++ [name]
      bss := E.bss ++ [if is64 opts then name ++ ": resq 1\n" else name ++ ": resd 1\n"] }

/-- The zeroing instruction, `xor rax, rax` or `xor eax, eax`. -/
def zero_acc (opts : CodegenOptions) : Instr :=
  if is64 opts then Instr.xor (.reg .rax) (.reg .rax) else Instr.xor (.reg .eax) (.reg .eax)

/-- The loop `for a in args: if (a.tk) { tk = &*a.tk; break; }` of the `LITERAL` case. -/
def first_token : List NodeArg → Option Token
  | [] => none
  | (.mk (some t) _) :: _ => some t
  | (.mk none _) :: rest => first_token rest

/-- The `LITERAL` case of `emit_expr`. -/
def emit_literal (opts : CodegenOptions) (args : List NodeArg) (E : Emitter) : Emitter :=
  match first_token args with
  | none => E.put (zero_acc opts)
  | some tk =>
    if tk.t_type == token_t.NUMBERLITERAL then
      if is64 opts then E.put (.mov (.reg .rax) (.imm tk.value))
      else E.put (.mov (.reg .eax) (.imm tk.value))
    else if tk.t_type == token_t.IDENTIFIER then
      if is64 opts then E.put (.mov (.reg .rax) (.mem tk.value))
      else E.put (.mov (.reg .eax) (.mem tk.value))
    else E.put (zero_acc opts)

/-- The operator part of the `BINOP` case of `emit_expr`, entered with the
right operand in the accumulator and the left one in `rbx`/`ebx`. -/
def emit_operator (opts : CodegenOptions) (o : String) (E : Emitter) : Emitter :=
  if o == "+" then
    if is64 opts then E.put (.add (.reg .rax) (.reg .rbx)) else E.put (.add (.reg .eax) (.reg .ebx))
  else if o == "-" then
    if is64 opts then
      ((E.put (.mov (.reg .rcx) (.reg .rax))).put (.mov (.reg .rax) (.reg .rbx))).put
        (.sub (.reg .rax) (.reg .rcx))
    else
      ((E.put (.mov (.reg .ecx) (.reg .eax))).put (.mov (.reg .eax) (.reg .ebx))).put
        (.sub (.reg .eax) (.reg .ecx))
  else if o == "*" then
    if is64 opts then E.put (.imul (.reg .rax) (.reg .rbx))
    else E.put (.imul (.reg .eax) (.reg .ebx))
  else if o == "/" || o == "%" then
    if is64 opts then
      let E4 := (((E.put (.mov (.reg .rcx) (.reg .rax))).put (.mov (.reg .rax) (.reg .rbx))).put
        .cqo).put (.idiv (.reg .rcx))
      if o == "%" then E4.put (.mov (.reg .rax) (.reg .rdx)) else E4
    else
      let E4 := (((E.put (.mov (.reg .ecx) (.reg .eax))).put (.mov (.reg .eax) (.reg .ebx))).put
        .cdq).put (.idiv (.reg .ecx))
      if o == "%" then E4.put (.mov (.reg .eax) (.reg .edx)) else E4
  else E.put (zero_acc opts)

mutual
/-- The function `Emitter::emit_expr`: appends code that leaves the value of
the node in `rax`/`eax`. -/
def emit_expr (opts : CodegenOptions) : AstNode → Emitter → Emitter
  | .mk NodeType.LITERAL args, E => emit_literal opts args E
  | .mk NodeType.BINOP args, E =>
    match args with
    | (.mk _ (some left)) :: (.mk (some op) _) :: (.mk _ (some right)) :: _ =>
      let E1 := emit_expr opts left E
      let E2 := E1.put (if is64 opts then .push (.reg .rax) else .push (.reg .eax))
      let E3 := emit_expr opts right E2
      let E4 := E3.put (if is64 opts then .pop (.reg .rbx) else .pop (.reg .ebx))
      emit_operator opts op.value E4
    | _ => E.put (zero_acc opts)
  | .mk NodeType.ASSIGN args, E =>
    match args with
    | (.mk (some id) _) :: (.mk _ (some rhs)) :: _ =>
      let E1 := declare_var opts id.value E
      let E2 := emit_expr opts rhs E1
      E2.put (if is64 opts then .mov (.mem id.value) (.reg .rax)
        else .mov (.mem id.value) (.reg .eax))
    | _ => E.put (zero_acc opts)
  | .mk NodeType.PROG args, E => emit_stmts opts args E
/-- The loop `for a in args: if (a.node) emit_expr(*a.node)` of the `PROG` case. -/
def emit_stmts (opts : CodegenOptions) : List NodeArg → Emitter → Emitter
  | [], E => E
  | (.mk _ none) :: rest, E => emit_stmts opts rest E
  | (.mk _ (some n)) :: rest, E => emit_stmts opts rest (emit_expr opts n E)
end

/-- The loop `for v in vars: E.declare_var(v)` of `generate_asm`, over the
names in the order given. -/
def declare_all (opts : CodegenOptions) : List String → Emitter → Emitter
  | [], E => E
  | v :: rest, E => declare_all opts rest (declare_var opts v E)

/-- The emitter of `generate_asm` after the eager declarations and `emit_expr`.
The eager declarations are made in the order of the list of `collect_vars`;
the source makes them in the unspecified iteration order of its set, which
`run_emitter_in` takes as an argument.  The instructions, the declared names
and the slot lines as a collection are the same for every order. -/
def run_emitter (ast : AstNode) (options : CodegenOptions) : Emitter :=
  emit_expr options ast (declare_all options (collect_vars ast []) Emitter.init)

/-- A line of the output: text written directly, or an instruction after an
indentation. -/
inductive AsmLine where
  | raw (s : String)
  | ins (indent : String) (i : Instr)

def AsmLine.render : AsmLine → String
  | .raw s => s
  | .ins indent i => indent ++ i.render

/-- The lines that `generate_asm` writes to `out`, in order. -/
def generate_lines (ast : AstNode) (options : CodegenOptions) : List AsmLine :=
  let E := run_emitter ast options
  [AsmLine.raw "section .text\n"] ++
  (if options.arch == TargetArch.X86_64 then [AsmLine.raw "default rel\n"] else []) ++
  [AsmLine.raw "global main\n", AsmLine.raw "main:\n"] ++
  (if options.arch == TargetArch.X86_64 then
    [AsmLine.ins "  " (.push (.reg .rbp)), AsmLine.ins "  " (.mov (.reg .rbp) (.reg .rsp))]
  else
    [AsmLine.ins "  " (.push (.reg .ebp)), AsmLine.ins "  " (.mov (.reg .ebp) (.reg .esp))]) ++
  E.text.map (AsmLine.ins "") ++
  (if options.arch == TargetArch.X86_64 then
    [AsmLine.raw "  ; function epilogue\n", AsmLine.ins "  " (.mov (.reg .eax) (.reg .eax)),
      AsmLine.ins "  " (.mov (.reg .rsp) (.reg .rbp)), AsmLine.ins "  " (.pop (.reg .rbp)),
      AsmLine.ins "  " .ret]
  else
    [AsmLine.raw "  ; function epilogue\n", AsmLine.ins "  " (.mov (.reg .eax) (.reg .eax)),
      AsmLine.ins "  " (.mov (.reg .esp) (.reg .ebp)), AsmLine.ins "  " (.pop (.reg .ebp)),
      AsmLine.ins "  " .ret]) ++
  (if String.join E.bss != "" then AsmLine.raw "section .bss\n" :: E.bss.map AsmLine.raw
  else [])

/-- The function `generate_asm`: the text of the translation unit. -/
def generate_asm (ast : AstNode) (options : CodegenOptions) : String :=
  String.join ((generate_lines ast options).map AsmLine.render)

/-- The instructions among the lines of a translation unit. -/
def code_of : List AsmLine → List Instr
  | [] => []
  | .raw _ :: rest => code_of rest
  | .ins _ i :: rest => i :: code_of rest

/-- The instructions that `emit_expr` appends for a node. -/
def code (opts : CodegenOptions) (node : AstNode) : List Instr :=
  (emit_expr opts node Emitter.init).text

/-! ## Execution of the emitted instructions

The usual semantics of the instructions on a machine whose word has
`w` bits (`64` or `32`).  A register holds a natural number below `2 ^ w`;
a 32-bit register of the 64-bit machine is the low half of its 64-bit
register, and writing it clears the upper half.  The stack is the list of
pushed words, top first, and the stack pointer is abstracted to the height
of that list.  The storage slots of the assembled unit are addressed by their
labels: `mem name` is the content of the slot labelled `name`, and is `none`
when the unit has no slot of that label.  A memory operand `[name]` addresses
the slot labelled `name` only if `name` is not the name of a register (then
the operand is the memory that the register points to, which is outside the
model) and is not `main` (the label of the routine).
`none` is a fault (or an instruction outside the modelled subset). -/

/-- The general registers. -/
inductive Slot where
  | a | b | c | d | bp
  deriving DecidableEq, Repr

structure Machine where
  rax : Nat
  rbx : Nat
  rcx : Nat
  rdx : Nat
  rbp : Nat
  stack : List Nat
  mem : String → Option Nat

/-- Number of bits of a register name. -/
def Reg.bits : Reg → Nat
  | .rax | .rbx | .rcx | .rdx | .rbp | .rsp => 64
  | .eax | .ebx | .ecx | .edx | .ebp | .esp => 32

/-- The general register behind a name; `none` for the stack pointer. -/
def Reg.slot : Reg → Option Slot
  | .rax | .eax => some .a
  | .rbx | .ebx => some .b
  | .rcx | .ecx => some .c
  | .rdx | .edx => some .d
  | .rbp | .ebp => some .bp
  | .rsp | .esp => none

def Machine.get (m : Machine) : Slot → Nat
  | .a => m.rax
  | .b => m.rbx
  | .c => m.rcx
  | .d => m.rdx
  | .bp => m.rbp

def Machine.set (m : Machine) : Slot → Nat → Machine
  | .a, v => { m with rax := v }
  | .b, v => { m with rbx := v }
  | .c, v => { m with rcx := v }
  | .d, v => { m with rdx := v }
  | .bp, v => { m with rbp := v }

/-- Value of a general register seen through a name. -/
def Machine.read (m : Machine) (r : Reg) : Option Nat :=
  match r.slot with
  | some s => some (m.get s % 2 ^ r.bits)
  | none => none

/-- Writing through a name: the value is cut to the width of the name and the
rest of the register is cleared. -/
def Machine.write (m : Machine) (r : Reg) (v : Nat) : Option Machine :=
  match r.slot with
  | some s => some (m.set s (v % 2 ^ r.bits))
  | none => none

/-- Value of a run of decimal digits, most significant first. -/
def digits_value : List Char → Nat → Option Nat
  | [], acc => some acc
  | c :: rest, acc =>
    if c.isDigit then digits_value rest (10 * acc + (c.toNat - '0'.toNat)) else none

/-- The number that a decimal immediate denotes; `none` when the text is not
a non-empty run of digits. -/
def parse_decimal (s : String) : Option Nat :=
  match s.data with
  | [] => none
  | c :: rest => digits_value (c :: rest) 0

/-- Two's-complement reading of a `k`-bit pattern. -/
def to_signed (k : Nat) (n : Nat) : Int :=
  if n < 2 ^ (k - 1) then (n : Int) else (n : Int) - 2 ^ k

/-- The `k`-bit pattern of an integer. -/
def wrap (k : Nat) (i : Int) : Nat := (i % 2 ^ k).toNat

/-- The names that the assembler reads as registers. -/
def register_names : List String :=
  ["rax", "rbx", "rcx", "rdx", "rsi", "rdi", "rbp", "rsp", "rip",
    "eax", "ebx", "ecx", "edx", "esi", "edi", "ebp", "esp", "eip",
    "ax", "bx", "cx", "dx", "si", "di", "bp", "sp", "ip",
    "al", "bl", "cl", "dl", "ah", "bh", "ch", "dh", "sil", "dil", "bpl", "spl",
    "cs", "ds", "es", "fs", "gs", "ss",
    "r8", "r9", "r10", "r11", "r12", "r13", "r14", "r15",
    "r8d", "r9d", "r10d", "r11d", "r12d", "r13d", "r14d", "r15d",
    "r8w", "r9w", "r10w", "r11w", "r12w", "r13w", "r14w", "r15w",
    "r8b", "r9b", "r10b", "r11b", "r12b", "r13b", "r14b", "r15b"]

/-- A name that cannot be the label of a storage slot of its own in the
emitted unit: the name of a register, in any mix of upper and lower case (the
operand `[name]` then addresses the memory that the register points to), or
`main` (which the unit defines as the label of its routine).  Other words that
the assembler reserves are not labels either; no unit has a slot for them,
which the memory of a machine expresses by `none`. -/
def is_reserved_name (name : String) : Bool :=
  register_names.contains (String.mk (name.data.map Char.toLower)) || name == "main"

def exec_mov (w : Nat) (d s : Operand) (m : Machine) : Option Machine :=
  match d, s with
  | .reg rd, .reg rs =>
    if rd.bits = rs.bits ∧ rd.bits ≤ w then
      if rs.slot = none then
        if rd.slot = some Slot.bp ∧ rd.bits = w then some { m with rbp := m.stack.length }
        else none
      else if rd.slot = none then
        if rs.slot = some Slot.bp ∧ rs.bits = w ∧ m.rbp ≤ m.stack.length then
          some { m with stack := m.stack.drop (m.stack.length - m.rbp) }
        else none
      else
        match m.read rs with
        | some v => m.write rd v
        | none => none
    else none
  | .reg rd, .imm v =>
    if rd.bits ≤ w then
      match parse_decimal v with
      | some n => m.write rd n
      | none => none
    else none
  | .reg rd, .mem x =>
    if rd.bits = w ∧ is_reserved_name x = false then
      match m.mem x with
      | some v => m.write rd v
      | none => none
    else none
  | .mem x, .reg rs =>
    if rs.bits = w ∧ is_reserved_name x = false then
      match m.mem x, m.read rs with
      | some _, some v => some { m with mem := fun y => if y = x then some v else m.mem y }
      | _, _ => none
    else none
  | _, _ => none

/-- A two-operand arithmetic instruction on registers of equal width. -/
def exec_alu (w : Nat) (f : Nat → Nat → Nat → Nat) (d s : Operand) (m : Machine) :
    Option Machine :=
  match d, s with
  | .reg rd, .reg rs =>
    if rd.bits = rs.bits ∧ rd.bits ≤ w then
      match m.read rd, m.read rs with
      | some a, some b => m.write rd (f rd.bits a b)
      | _, _ => none
    else none
  | _, _ => none

def exec_push (w : Nat) (s : Operand) (m : Machine) : Option Machine :=
  match s with
  | .reg rs =>
    if rs.bits = w then
      match m.read rs with
      | some v => some { m with stack := v :: m.stack }
      | none => none
    else none
  | _ => none

def exec_pop (w : Nat) (d : Operand) (m : Machine) : Option Machine :=
  match d with
  | .reg rd =>
    if rd.bits = w then
      match m.stack with
      | [] => none
      | v :: rest => ({ m with stack := rest }).write rd v
    else none
  | _ => none

/-- Signed division of the double-width `rdx:rax` (or `edx:eax`) by a register:
quotient truncated toward zero to the accumulator, remainder to `rdx`; a
fault when the divisor is zero or the quotient does not fit. -/
def exec_idiv (w : Nat) (s : Operand) (m : Machine) : Option Machine :=
  match s with
  | .reg rs =>
    match m.read rs with
    | some v =>
      let k := rs.bits
      let dividend := to_signed (2 * k) ((m.rdx % 2 ^ k) * 2 ^ k + m.rax % 2 ^ k)
      let divisor := to_signed k v
      if k ≤ w ∧ divisor ≠ 0 ∧ -(2 ^ (k - 1) : Int) ≤ Int.tdiv dividend divisor ∧
          Int.tdiv dividend divisor < 2 ^ (k - 1) then
        some { m with
          rax := wrap k (Int.tdiv dividend divisor)
          rdx := wrap k (Int.tmod dividend divisor) }
      else none
    | none => none
  | _ => none

/-- One instruction. -/
def exec_instr (w : Nat) : Instr → Machine → Option Machine
  | .mov d s, m => exec_mov w d s m
  | .xor d s, m => exec_alu w (fun _ a b => Nat.xor a b) d s m
  | .add d s, m => exec_alu w (fun k a b => (a + b) % 2 ^ k) d s m
  | .sub d s, m => exec_alu w (fun k a b => (a + 2 ^ k - b) % 2 ^ k) d s m
  | .imul d s, m => exec_alu w (fun k a b => (a * b) % 2 ^ k) d s m
  | .push s, m => exec_push w s m
  | .pop d, m => exec_pop w d m
  | .idiv s, m => exec_idiv w s m
  | .cqo, m =>
    if w = 64 then some { m with rdx := if 2 ^ 63 ≤ m.rax % 2 ^ 64 then 2 ^ 64 - 1 else 0 }
    else none
  | .cdq, m => some { m with rdx := if 2 ^ 31 ≤ m.rax % 2 ^ 32 then 2 ^ 32 - 1 else 0 }
  | .ret, m =>
    match m.stack with
    | [] => none
    | _ :: rest => some { m with stack := rest }

/-- A sequence of instructions, in order. -/
def exec_list (w : Nat) : List Instr → Machine → Option Machine
  | [], m => some m
  | i :: rest, m =>
    match exec_instr w i m with
    | some m1 => exec_list w rest m1
    | none => none

/-- Word width of an architecture option. -/
def word_bits (opts : CodegenOptions) : Nat := if is64 opts then 64 else 32

/-- The `int` that `main` returns: the low 32 bits of the accumulator, signed. -/
def Machine.result (m : Machine) : Int := to_signed 32 (m.rax % 2 ^ 32)

/-- Runs the whole routine that `generate_asm` writes for `ast`, entered with
the return address and the caller's words on the stack, and reads the `int`
it returns. -/
def program_result (ast : AstNode) (options : CodegenOptions) (m : Machine) : Option Int :=
  match exec_list (word_bits options) (code_of (generate_lines ast options)) m with
  | some m1 => some m1.result
  | none => none

/-- A machine at the call of `main` of a unit without storage slots: cleared
registers, only the return address on the stack. -/
def Machine.start : Machine :=
  { rax := 0, rbx := 0, rcx := 0, rdx := 0, rbp := 0, stack := [0], mem := fun _ => none }

/-- The operands and the operator that the `BINOP` case of `emit_expr` finds:
`args.size() >= 3`, `args[0].node`, `args[1].tk` and `args[2].node` all present. -/
def binop_parts : List NodeArg → Option (AstNode × Token × AstNode)
  | (.mk _ (some left)) :: (.mk (some op) _) :: (.mk _ (some right)) :: _ => some (left, op, right)
  | _ => none

/-- The target and the value that the `ASSIGN` case of `emit_expr` finds:
`args.size() >= 2`, `args[0].tk` and `args[1].node` both present. -/
def assign_parts : List NodeArg → Option (Token × AstNode)
  | (.mk (some id) _) :: (.mk _ (some rhs)) :: _ => some (id, rhs)
  | _ => none

/-- The instruction `push rax` or `push eax`. -/
def push_acc (opts : CodegenOptions) : Instr :=
  if is64 opts then .push (.reg .rax) else .push (.reg .eax)

/-- The instruction `pop rbx` or `pop ebx`. -/
def pop_left (opts : CodegenOptions) : Instr :=
  if is64 opts then .pop (.reg .rbx) else .pop (.reg .ebx)

/-- The instruction `mov [name], rax` or `mov [name], eax`. -/
def store_acc (opts : CodegenOptions) (name : String) : Instr :=
  if is64 opts then .mov (.mem name) (.reg .rax) else .mov (.mem name) (.reg .eax)

/-! ## Reference semantics of well-formed trees

The value of a well-formed tree as the specification describes it: integers
in two's complement of `w` bits, the left operand evaluated first, an
assignment storing its value and having that value.  It is defined on the
shapes that the parser builds (`LITERAL [token]`, `BINOP [left, op, right]`,
`ASSIGN [id, rhs]`) and is `none` elsewhere, where a division faults, and
where a variable has no storage slot: its name is reserved, or the
environment has no slot of that label. -/

/-- Contents of the storage slots, by label; `none` where there is no slot. -/
abbrev Env := String → Option Nat

/-- The value of `l o r` on `w`-bit patterns; `none` for a division by zero,
for the overflowing quotient and for an unknown operator. -/
def spec_eval_operator (w : Nat) (o : String) (l r : Nat) : Option Nat :=
  if o = "+" then some (wrap w (to_signed w l + to_signed w r))
  else if o = "-" then some (wrap w (to_signed w l - to_signed w r))
  else if o = "*" then some (wrap w (to_signed w l * to_signed w r))
  else if o = "/" ∨ o = "%" then
    if to_signed w r = 0 then none
    else if to_signed w l = -(2 ^ (w - 1) : Int) ∧ to_signed w r = -1 then none
    else if o = "/" then some (wrap w (Int.tdiv (to_signed w l) (to_signed w r)))
    else some (wrap w (to_signed w l - to_signed w r * Int.tdiv (to_signed w l) (to_signed w r)))
  else none

/-- Value and effect of a well-formed tree. -/
def spec_eval_node (w : Nat) : AstNode → Env → Option (Nat × Env)
  | .mk NodeType.LITERAL [.mk (some tk) none], env =>
    if tk.t_type == token_t.NUMBERLITERAL then
      match parse_decimal tk.value with
      | some n => some (n % 2 ^ w, env)
      | none => none
    else if tk.t_type == token_t.IDENTIFIER then
      if is_reserved_name tk.value then none
      else
        match env tk.value with
        | some n => some (n % 2 ^ w, env)
        | none => none
    else none
  | .mk NodeType.BINOP [.mk none (some left), .mk (some op) none, .mk none (some right)], env =>
    match spec_eval_node w left env with
    | none => none
    | some (l, env1) =>
      match spec_eval_node w right env1 with
      | none => none
      | some (r, env2) =>
        match spec_eval_operator w op.value l r with
        | some v => some (v, env2)
        | none => none
  | .mk NodeType.ASSIGN [.mk (some id) none, .mk none (some rhs)], env =>
    if id.t_type == token_t.IDENTIFIER && !is_reserved_name id.value then
      match spec_eval_node w rhs env with
      | none => none
      | some (v, env1) =>
        match env1 id.value with
        | some _ => some (v, fun y => if y = id.value then some v else env1 y)
        | none => none
    else none
  | _, _ => none

/-- The instructions of the operator part of a `BINOP`. -/
def operator_code (opts : CodegenOptions) (o : String) : List Instr :=
  (emit_operator opts o Emitter.init).text

/-- The 32-bit name of a register. -/
def Reg.narrow : Reg → Reg
  | .rax | .eax => .eax
  | .rbx | .ebx => .ebx
  | .rcx | .ecx => .ecx
  | .rdx | .edx => .edx
  | .rbp | .ebp => .ebp
  | .rsp | .esp => .esp

/-- The name under which an architecture uses a register. -/
def areg (opts : CodegenOptions) (r : Reg) : Reg := if is64 opts then r else r.narrow

/-- The sign extension of the accumulator into `rdx`/`edx`: `cqo` or `cdq`. -/
def sext (opts : CodegenOptions) : Instr := if is64 opts then .cqo else .cdq

/-! ## Classes of well-formed trees -/

/-- A well-formed expression tree built from numeric literals and `BINOP`
nodes with the operators `+`, `-` and `*`. -/
def is_arith_tree : AstNode → Bool
  | .mk NodeType.LITERAL [.mk (some tk) none] =>
    tk.t_type == token_t.NUMBERLITERAL && (parse_decimal tk.value).isSome
  | .mk NodeType.BINOP [.mk none (some left), .mk (some op) none, .mk none (some right)] =>
    (op.value == "+" || op.value == "-" || op.value == "*") &&
      is_arith_tree left && is_arith_tree right
  | _ => false

/-- The integer that an arithmetic tree denotes, computed without any bound:
a literal is its decimal value, `+`, `-` and `*` are those of the integers,
with the left subtree as left operand. -/
def spec_int_value : AstNode → Int
  | .mk NodeType.LITERAL [.mk (some tk) none] =>
    match parse_decimal tk.value with
    | some n => (n : Int)
    | none => 0
  | .mk NodeType.BINOP [.mk none (some left), .mk (some op) none, .mk none (some right)] =>
    if op.value = "+" then spec_int_value left + spec_int_value right
    else if op.value = "-" then spec_int_value left - spec_int_value right
    else if op.value = "*" then spec_int_value left * spec_int_value right
    else 0
  | _ => 0

/-- The program node of a list of statements. -/
def mk_prog (stmts : List AstNode) : AstNode :=
  AstNode.mk NodeType.PROG (stmts.map new_arg_node)

/-- The 64-bit configuration. -/
def opts64 : CodegenOptions := { arch := TargetArch.X86_64, os := TargetOS.Linux }

/-- The 32-bit configuration. -/
def opts32 : CodegenOptions := { arch := TargetArch.X86_32, os := TargetOS.Linux }

/-- The statement that `2+3*4` parses to. -/
def tree_2_plus_3_times_4 : AstNode :=
  mk_binop (literal_of (num "2")) (sym "+")
    (mk_binop (literal_of (num "3")) (sym "*") (literal_of (num "4")))

/-- The statement that `(2+3)*4` parses to. -/
def tree_2_plus_3_all_times_4 : AstNode :=
  mk_binop (mk_binop (literal_of (num "2")) (sym "+") (literal_of (num "3"))) (sym "*")
    (literal_of (num "4"))

/-- The statement that `1-2-3` parses to. -/
def tree_1_minus_2_minus_3 : AstNode :=
  mk_binop (mk_binop (literal_of (num "1")) (sym "-") (literal_of (num "2"))) (sym "-")
    (literal_of (num "3"))

/-- The tokens of `-7/2`. -/
def tokens_minus_7_div_2 : TokenList := [sym "-", num "7", sym "/", num "2", eof_token]

/-- The program that `-7/2` parses to: the literal statement `-`, then `7/2`. -/
def prog_minus_7_div_2 : AstNode :=
  mk_prog [literal_of (sym "-"), mk_binop (literal_of (num "7")) (sym "/") (literal_of (num "2"))]

/-! ## Storage declarations -/

/-- The line that `declare_var` appends to the data stream. -/
def bss_line (opts : CodegenOptions) (name : String) : String :=
  if is64 opts then name ++ ": resq 1\n" else name ++ ": resd 1\n"

/-- The data stream holds one line per declared name, in order, and no name is
declared twice. -/
def DeclInv (opts : CodegenOptions) (E : Emitter) : Prop :=
  E.bss = E.declared.map (bss_line opts) ∧ E.declared.Nodup

/-- The program of the two statements `a=1` and `a=2`. -/
def prog_a1_a2 : AstNode :=
  mk_prog [mk_assign (ident "a") (literal_of (num "1")),
    mk_assign (ident "a") (literal_of (num "2"))]

/-- The program of the two statements `a=5` and `a+1`. -/
def prog_a5_a_plus_1 : AstNode :=
  mk_prog [mk_assign (ident "a") (literal_of (num "5")),
    mk_binop (literal_of (ident "a")) (sym "+") (literal_of (num "1"))]

/-! ## Identifiers of a token list -/

/-- The values of the `IDENTIFIER` tokens of a list, in order. -/
def ident_values : TokenList → List String
  | [] => []
  | t :: rest =>
    if t.t_type == token_t.IDENTIFIER then t.value :: ident_values rest else ident_values rest

/-- The set a routine starts from: a loop has already collected its left operand. -/
def Rule.start : Rule → VarSet → VarSet
  | .termLoop left, vars => collect_vars left vars
  | .exprLoop left, vars => collect_vars left vars
  | _, vars => vars

/-- The program that `a=b+1` parses to. -/
def prog_a_eq_b_plus_1 : AstNode :=
  mk_prog [mk_assign (ident "a")
    (mk_binop (literal_of (ident "b")) (sym "+") (literal_of (num "1")))]

/-! ## Argument positions -/

/-- The child pointer `args[i].node`; null also when there is no argument `i`. -/
def arg_node (args : List NodeArg) (i : Nat) : Option AstNode :=
  match args[i]? with
  | some a => a.node
  | none => none

/-- The token `args[i].tk`; absent also when there is no argument `i`. -/
def arg_tk (args : List NodeArg) (i : Nat) : Option Token :=
  match args[i]? with
  | some a => a.tk
  | none => none

/-- A `BINOP` with two arguments only: a left child and an operator. -/
def binop_two_args : AstNode :=
  AstNode.mk NodeType.BINOP [new_arg_node (literal_of (num "1")), new_arg_token (sym "+")]

/-- An `ASSIGN` whose value pointer is null. -/
def assign_no_value : AstNode :=
  AstNode.mk NodeType.ASSIGN [new_arg_token (ident "a"), new_arg_token (num "1")]

/-! ## Sections of the translation unit -/

/-- The instruction section: the header lines, the frame set-up, the body
that `emit_expr` emits, the narrowing `mov eax, eax`, the frame tear-down and
`ret`. -/
def instruction_section (ast : AstNode) (options : CodegenOptions) : List AsmLine :=
  [AsmLine.raw "section .text\n"] ++
  (if options.arch = TargetArch.X86_64 then [AsmLine.raw "default rel\n"] else []) ++
  [AsmLine.raw "global main\n", AsmLine.raw "main:\n",
    AsmLine.ins "  " (.push (.reg (areg options .rbp))),
    AsmLine.ins "  " (.mov (.reg (areg options .rbp)) (.reg (areg options .rsp)))] ++
  (code options ast).map (AsmLine.ins "") ++
  [AsmLine.raw "  ; function epilogue\n", AsmLine.ins "  " (.mov (.reg .eax) (.reg .eax)),
    AsmLine.ins "  " (.mov (.reg (areg options .rsp)) (.reg (areg options .rbp))),
    AsmLine.ins "  " (.pop (.reg (areg options .rbp))), AsmLine.ins "  " .ret]

/-- The data section: its header and the slot line of each declared name. -/
def data_section (ast : AstNode) (options : CodegenOptions) : List AsmLine :=
  AsmLine.raw "section .bss\n" ::
    (run_emitter ast options).declared.map (fun name => AsmLine.raw (bss_line options name))

/-- The text of a list of lines. -/
def render_lines (lines : List AsmLine) : String := String.join (lines.map AsmLine.render)

/-- The program of the single statement `7`. -/
def prog_seven : AstNode := mk_prog [literal_of (num "7")]

/-- The text contains the pattern: the characters of the pattern occur in
it, in order and without gap. -/
def contains_text (text pattern : String) : Prop := pattern.data <:+: text.data

/-! ## The nodes of a tree -/

mutual
/-- All the nodes of a tree: the root and the nodes below the child pointers
of its arguments. -/
def subnodes : AstNode → List AstNode
  | .mk t args => AstNode.mk t args :: subnodes_args args
/-- The nodes below the child pointers of a list of arguments. -/
def subnodes_args : List NodeArg → List AstNode
  | [] => []
  | (.mk _ none) :: rest => subnodes_args rest
  | (.mk _ (some n)) :: rest => subnodes n ++ subnodes_args rest
end

/-- The shapes of the nodes that the expression routines build: a literal
without a token, a literal of one token, or a `BINOP` of a child, an operator
token among `+ - * / %` and a child. -/
def expr_node_shape (m : AstNode) : Prop :=
  m = empty_literal ∨ (∃ t, m = literal_of t) ∨
    ∃ l op r, m = mk_binop l op r ∧ (is_add_token op = true ∨ is_mul_token op = true)

/-! ## Identifier tokens of a tree -/

/-- The value of an optional token, when it is an `IDENTIFIER`. -/
def tk_idents (tk : Option Token) : List String :=
  match tk with
  | some t => if t.t_type == token_t.IDENTIFIER then [t.value] else []
  | none => []

mutual
/-- The values of all the `IDENTIFIER` tokens that occur anywhere in a tree:
in the arguments of any node, at any depth. -/
def all_idents : AstNode → List String
  | .mk _ args => all_idents_args args
/-- The identifier tokens of a list of arguments and of the trees below them. -/
def all_idents_args : List NodeArg → List String
  | [] => []
  | (.mk tk none) :: rest => tk_idents tk ++ all_idents_args rest
  | (.mk tk (some n)) :: rest => tk_idents tk ++ (all_idents n ++ all_idents_args rest)
end

/-- The value of the first `IDENTIFIER` token among the arguments. -/
def first_ident : List NodeArg → List String
  | [] => []
  | (.mk (some t) _) :: rest =>
    if t.t_type == token_t.IDENTIFIER then [t.value] else first_ident rest
  | (.mk none _) :: rest => first_ident rest

/-- The values of the `IDENTIFIER` tokens among the arguments themselves. -/
def args_idents : List NodeArg → List String
  | [] => []
  | (.mk tk _) :: rest => tk_idents tk ++ args_idents rest

mutual
/-- The identifier tokens that the traversal reaches: the first identifier
token of an `ASSIGN`, every identifier token of a `BINOP` or `LITERAL`, none
of a `PROG`; and those reached in the children of `ASSIGN`, `BINOP` and `PROG`
nodes (the children of a `LITERAL` are not visited). -/
def reached_idents : AstNode → List String
  | .mk NodeType.ASSIGN args => first_ident args ++ reached_args args
  | .mk NodeType.BINOP args => args_idents args ++ reached_args args
  | .mk NodeType.LITERAL args => args_idents args
  | .mk NodeType.PROG args => reached_args args
/-- The identifier tokens reached in the children of a list of arguments. -/
def reached_args : List NodeArg → List String
  | [] => []
  | (.mk _ none) :: rest => reached_args rest
  | (.mk _ (some n)) :: rest => reached_idents n ++ reached_args rest
end

/-- A `PROG` node with an identifier token in its argument. -/
def prog_with_token : AstNode :=
  AstNode.mk NodeType.PROG [NodeArg.mk (some (ident "x")) none]

/-- An `ASSIGN` node with two identifier tokens among its arguments. -/
def assign_two_idents : AstNode :=
  AstNode.mk NodeType.ASSIGN
    [NodeArg.mk (some (ident "a")) none, NodeArg.mk (some (ident "b")) (some (literal_of (num "1")))]

/-- A `LITERAL` node with a child that holds an identifier. -/
def literal_with_child : AstNode :=
  AstNode.mk NodeType.LITERAL [NodeArg.mk none (some (literal_of (ident "y")))]

/-! ## Memory operands -/

/-- The variable named by an operand, if it is a storage slot. -/
def Operand.mem_names : Operand → List String
  | .mem name => [name]
  | _ => []

/-- The variables named by the memory operands of an instruction. -/
def Instr.mem_names : Instr → List String
  | .mov d s => d.mem_names ++ s.mem_names
  | .xor d s => d.mem_names ++ s.mem_names
  | .add d s => d.mem_names ++ s.mem_names
  | .sub d s => d.mem_names ++ s.mem_names
  | .imul d s => d.mem_names ++ s.mem_names
  | .push s => s.mem_names
  | .pop d => d.mem_names
  | .idiv s => s.mem_names
  | .cqo => []
  | .cdq => []
  | .ret => []

/-- The variables named by the memory operands of a sequence of instructions. -/
def mem_names : List Instr → List String
  | [] => []
  | i :: rest => i.mem_names ++ mem_names rest

/-- The instruction `mov rax, [name]` or `mov eax, [name]`. -/
def load_acc (opts : CodegenOptions) (name : String) : Instr :=
  if is64 opts then .mov (.reg .rax) (.mem name) else .mov (.reg .eax) (.mem name)

/-- A malformed program: an `ASSIGN` whose target is a number token, then a
`BINOP` without operator whose arguments hold an identifier. -/
def prog_malformed : AstNode :=
  AstNode.mk NodeType.PROG
    [new_arg_node (AstNode.mk NodeType.ASSIGN
        [NodeArg.mk (some (num "9")) none, NodeArg.mk none (some (literal_of (ident "b")))]),
      new_arg_node (AstNode.mk NodeType.BINOP [NodeArg.mk (some (ident "c")) none])]

/-! ## The grammar of expressions -/

/-- The phrases of the grammar: `value`, `term`, `expr`, and the starred
parts `(('*'|'/'|'%') value)*` and `(('+'|'-') term)*`. -/
inductive Phrase where
  | value
  | term
  | expr
  | termTail
  | exprTail

/-- The token lists that the grammar derives:
`expr := term (('+'|'-') term)*`, `term := value (('*'|'/'|'%') value)*`,
`value := literal | '(' expr ')'`. -/
inductive Derives : Phrase → TokenList → Prop
  | literal (t : Token) (h : is_literal_token t = true) : Derives .value [t]
  | paren (e : TokenList) (h : Derives .expr e) : Derives .value (sym "(" :: (e ++ [sym ")"]))
  | term (v tail : TokenList) (hv : Derives .value v) (ht : Derives .termTail tail) :
      Derives .term (v ++ tail)
  | term_nil : Derives .termTail []
  | term_cons (op : Token) (v rest : TokenList) (hop : is_mul_token op = true)
      (hv : Derives .value v) (hr : Derives .termTail rest) :
      Derives .termTail (op :: (v ++ rest))
  | expr (t tail : TokenList) (ht : Derives .term t) (hl : Derives .exprTail tail) :
      Derives .expr (t ++ tail)
  | expr_nil : Derives .exprTail []
  | expr_cons (op : Token) (t rest : TokenList) (hop : is_add_token op = true)
      (ht : Derives .term t) (hr : Derives .exprTail rest) :
      Derives .exprTail (op :: (t ++ rest))

/-- What the parser does on a derived phrase followed by `rest`: it reads
exactly the phrase, into a tree that does not depend on `rest`, provided
`rest` does not start with an operator that would continue the phrase. -/
def parses_phrase : Phrase → TokenList → Prop
  | .value, ts => ∃ T, ∀ rest, Parses .value (ts ++ rest) T rest
  | .term, ts => ∃ T, ∀ rest, is_mul_op rest = false → Parses .term (ts ++ rest) T rest
  | .expr, ts => ∃ T, ∀ rest, is_add_op rest = false → is_mul_op rest = false →
      Parses .expr (ts ++ rest) T rest
  | .termTail, ts => ∀ left, ∃ T, ∀ rest, is_mul_op rest = false →
      Parses (.termLoop left) (ts ++ rest) T rest
  | .exprTail, ts => ∀ left, ∃ T, ∀ rest, is_add_op rest = false → is_mul_op rest = false →
      Parses (.exprLoop left) (ts ++ rest) T rest

/-- The statement that `2+3` parses to. -/
def tree_2_plus_3 : AstNode := mk_binop (literal_of (num "2")) (sym "+") (literal_of (num "3"))

/-! ## The two architectures -/

/-- An operand with its register replaced by the 32-bit name; immediates and
variable names are kept. -/
def Operand.narrow : Operand → Operand
  | .reg r => .reg r.narrow
  | .imm v => .imm v
  | .mem name => .mem name

/-- An instruction with every register replaced by its 32-bit name and `cqo`
replaced by `cdq`. -/
def Instr.narrow : Instr → Instr
  | .mov d s => .mov d.narrow s.narrow
  | .xor d s => .xor d.narrow s.narrow
  | .add d s => .add d.narrow s.narrow
  | .sub d s => .sub d.narrow s.narrow
  | .imul d s => .imul d.narrow s.narrow
  | .push s => .push s.narrow
  | .pop d => .pop d.narrow
  | .idiv s => .idiv s.narrow
  | .cqo => .cdq
  | .cdq => .cdq
  | .ret => .ret

/-- The statement `a = b % 2`. -/
def tree_a_eq_b_mod_2 : AstNode :=
  mk_assign (ident "a") (mk_binop (literal_of (ident "b")) (sym "%") (literal_of (num "2")))

/-- The immediate written in an operand. -/
def Operand.imm_values : Operand → List String
  | .imm v => [v]
  | _ => []

/-- The immediates written in an instruction. -/
def Instr.imm_values : Instr → List String
  | .mov d s => d.imm_values ++ s.imm_values
  | .xor d s => d.imm_values ++ s.imm_values
  | .add d s => d.imm_values ++ s.imm_values
  | .sub d s => d.imm_values ++ s.imm_values
  | .imul d s => d.imm_values ++ s.imm_values
  | .push s => s.imm_values
  | .pop d => d.imm_values
  | .idiv s => s.imm_values
  | .cqo => []
  | .cdq => []
  | .ret => []

/-- The immediates written in a sequence of instructions, in order. -/
def imm_values : List Instr → List String
  | [] => []
  | i :: rest => i.imm_values ++ imm_values rest

/-! ## Pushes and pops -/

def Instr.is_push : Instr → Bool
  | .push _ => true
  | _ => false

def Instr.is_pop : Instr → Bool
  | .pop _ => true
  | _ => false

/-- Number of `push` instructions of a sequence. -/
def count_push : List Instr → Nat
  | [] => 0
  | i :: rest => (if i.is_push then 1 else 0) + count_push rest

/-- Number of `pop` instructions of a sequence. -/
def count_pop : List Instr → Nat
  | [] => 0
  | i :: rest => (if i.is_pop then 1 else 0) + count_pop rest

/-- In every initial segment of the sequence, the pops are at most `base`
more than the pushes: run on a stack that holds `base` words above some
frame, the sequence never pops a word of that frame. -/
def PrefixOK (base : Nat) (l : List Instr) : Prop :=
  ∀ k : Nat, count_pop (l.take k) ≤ base + count_push (l.take k)

/-- The registers that hold the frame: the frame pointer and the stack pointer. -/
def Reg.is_frame : Reg → Bool
  | .rbp | .rsp | .ebp | .esp => true
  | _ => false

def Operand.is_frame : Operand → Bool
  | .reg r => r.is_frame
  | _ => false

/-- An instruction that names neither the frame pointer nor the stack
pointer and is not `ret`. -/
def Instr.frame_safe : Instr → Bool
  | .mov d s => !d.is_frame && !s.is_frame
  | .xor d s => !d.is_frame && !s.is_frame
  | .add d s => !d.is_frame && !s.is_frame
  | .sub d s => !d.is_frame && !s.is_frame
  | .imul d s => !d.is_frame && !s.is_frame
  | .push s => !s.is_frame
  | .pop d => !d.is_frame
  | .idiv s => !s.is_frame
  | .cqo => true
  | .cdq => true
  | .ret => false

/-! ## Variables and storage slots -/

/-- The emitter of `generate_asm` when the loop over the collected names visits
them in the order `order`. -/
def run_emitter_in (order : List String) (ast : AstNode) (options : CodegenOptions) : Emitter :=
  emit_expr options ast (declare_all options order Emitter.init)

/-- The lines that `generate_asm` writes to `out` around the streams of an
emitter. -/
def lines_of (E : Emitter) (options : CodegenOptions) : List AsmLine :=
  [AsmLine.raw "section .text\n"] ++
  (if options.arch == TargetArch.X86_64 then [AsmLine.raw "default rel\n"] else []) ++
  [AsmLine.raw "global main\n", AsmLine.raw "main:\n"] ++
  (if options.arch == TargetArch.X86_64 then
    [AsmLine.ins "  " (.push (.reg .rbp)), AsmLine.ins "  " (.mov (.reg .rbp) (.reg .rsp))]
  else
    [AsmLine.ins "  " (.push (.reg .ebp)), AsmLine.ins "  " (.mov (.reg .ebp) (.reg .esp))]) ++
  E.text.map (AsmLine.ins "") ++
  (if options.arch == TargetArch.X86_64 then
    [AsmLine.raw "  ; function epilogue\n", AsmLine.ins "  " (.mov (.reg .eax) (.reg .eax)),
      AsmLine.ins "  " (.mov (.reg .rsp) (.reg .rbp)), AsmLine.ins "  " (.pop (.reg .rbp)),
      AsmLine.ins "  " .ret]
  else
    [AsmLine.raw "  ; function epilogue\n", AsmLine.ins "  " (.mov (.reg .eax) (.reg .eax)),
      AsmLine.ins "  " (.mov (.reg .esp) (.reg .ebp)), AsmLine.ins "  " (.pop (.reg .ebp)),
      AsmLine.ins "  " .ret]) ++
  (if String.join E.bss != "" then AsmLine.raw "section .bss\n" :: E.bss.map AsmLine.raw
  else [])

/-- The lines of `generate_asm` when the collected names are visited in the
order `order`. -/
def generate_lines_in (order : List String) (ast : AstNode) (options : CodegenOptions) :
    List AsmLine :=
  lines_of (run_emitter_in order ast options) options

/-- The text of `generate_asm` when the collected names are visited in the order
`order`. -/
def generate_asm_in (order : List String) (ast : AstNode) (options : CodegenOptions) : String :=
  String.join ((generate_lines_in order ast options).map AsmLine.render)

/-! ## Fuel: monotonicity and sufficiency -/

theorem parse_rule_zero (k : Rule) (tks : TokenList) : parse_rule k 0 tks = none := by
  cases k <;> simp [parse_rule, parse_value, parse_term, parse_expr, parse_term_loop,
    parse_expr_loop]

theorem parse_rule_succ : ∀ (f : Nat) (k : Rule) (tks : TokenList) (r : AstNode × TokenList),
    parse_rule k f tks = some r → parse_rule k (f + 1) tks = some r := by
  intro f
  induction f with
  | zero => intro k tks r h; rw [parse_rule_zero] at h; cases h
  | succ f ih =>
    intro k tks r h
    have ihV := ih .value
    have ihT := ih .term
    have ihE := ih .expr
    have ihTL := fun l => ih (.termLoop l)
    have ihEL := fun l => ih (.exprLoop l)
    simp only [parse_rule] at ihV ihT ihE ihTL ihEL
    cases k with
    | value =>
      simp only [parse_rule] at h ⊢
      rw [parse_value] at h ⊢
      split at h
      · simp_all
      · rename_i h1
        simp only [h1]
        split at h
        · rename_i h2
          simp only [h2]
          cases hc : consume tks with
          | none => simp [hc] at h
          | some p =>
            obtain ⟨t, tks1⟩ := p
            simp only [hc] at h ⊢
            cases hE : parse_expr f tks1 with
            | none => simp [hE] at h
            | some q =>
              obtain ⟨inner, tks2⟩ := q
              rw [ihE _ _ hE]
              simp only [hE] at h
              exact h
        · rename_i h2
          simp only [h2]
          exact h
    | term =>
      simp only [parse_rule] at h ⊢
      rw [parse_term] at h ⊢
      cases hV : parse_value f tks with
      | none => simp [hV] at h
      | some q =>
        obtain ⟨left, tks1⟩ := q
        simp only [hV] at h
        rw [ihV _ _ hV]
        exact ihTL _ _ _ h
    | expr =>
      simp only [parse_rule] at h ⊢
      rw [parse_expr] at h ⊢
      cases hV : parse_term f tks with
      | none => simp [hV] at h
      | some q =>
        obtain ⟨left, tks1⟩ := q
        simp only [hV] at h
        rw [ihT _ _ hV]
        exact ihEL _ _ _ h
    | termLoop left =>
      simp only [parse_rule] at h ⊢
      rw [parse_term_loop] at h ⊢
      split at h
      · rename_i h1
        simp only [h1, if_true]
        cases hc : consume tks with
        | none => simp [hc] at h
        | some p =>
          obtain ⟨op, tks1⟩ := p
          simp only [hc] at h ⊢
          cases hV : parse_value f tks1 with
          | none => simp [hV] at h
          | some q =>
            obtain ⟨right, tks2⟩ := q
            simp only [hV] at h
            rw [ihV _ _ hV]
            exact ihTL _ _ _ h
      · rename_i h1
        simp only [h1]
        exact h
    | exprLoop left =>
      simp only [parse_rule] at h ⊢
      rw [parse_expr_loop] at h ⊢
      split at h
      · rename_i h1
        simp only [h1, if_true]
        cases hc : consume tks with
        | none => simp [hc] at h
        | some p =>
          obtain ⟨op, tks1⟩ := p
          simp only [hc] at h ⊢
          cases hV : parse_term f tks1 with
          | none => simp [hV] at h
          | some q =>
            obtain ⟨right, tks2⟩ := q
            simp only [hV] at h
            rw [ihT _ _ hV]
            exact ihEL _ _ _ h
      · rename_i h1
        simp only [h1]
        exact h

theorem parse_rule_mono {k : Rule} {tks : TokenList} {r : AstNode × TokenList} {f g : Nat}
    (h : parse_rule k f tks = some r) (hfg : f ≤ g) : parse_rule k g tks = some r := by
  induction hfg with
  | refl => exact h
  | step _ ih => exact parse_rule_succ _ _ _ _ ih

/-- Every result of the fuelled routines is derivable in the big-step relation. -/
theorem parse_rule_sound : ∀ (f : Nat) (k : Rule) (tks : TokenList) (n : AstNode)
    (rest : TokenList), parse_rule k f tks = some (n, rest) → Parses k tks n rest := by
  intro f
  induction f with
  | zero => intro k tks n rest h; rw [parse_rule_zero] at h; cases h
  | succ f ih =>
    intro k tks n rest h
    have ihV := ih .value
    have ihT := ih .term
    have ihE := ih .expr
    have ihTL := fun l => ih (.termLoop l)
    have ihEL := fun l => ih (.exprLoop l)
    simp only [parse_rule] at ihV ihT ihE ihTL ihEL
    cases k with
    | value =>
      simp only [parse_rule] at h
      rw [parse_value] at h
      cases tks with
      | nil =>
        simp [at_eof] at h
        obtain ⟨h1, h2⟩ := h
        subst h1; subst h2
        exact Parses.value_eof [] rfl
      | cons t tks1 =>
        by_cases h1 : at_eof (t :: tks1) = true
        · simp [h1] at h
          obtain ⟨h3, h4⟩ := h
          subst h3; subst h4
          exact Parses.value_eof _ h1
        · simp only [h1] at h
          have h1f : at_eof (t :: tks1) = false := by simpa using h1
          by_cases h2 : is_symbol (t :: tks1) "(" = true
          · simp only [h2, consume, pop_front, if_true, Bool.false_eq_true, if_false] at h
            cases hE : parse_expr f tks1 with
            | none => simp [hE] at h
            | some q =>
              obtain ⟨inner, tks2⟩ := q
              simp only [hE] at h
              have hp := Parses.value_paren t tks1 inner tks2 h1f h2 (ihE _ _ _ hE)
              by_cases h3 : is_symbol tks2 ")" = true
              · cases tks2 with
                | nil => simp [is_symbol] at h3
                | cons t2 r2 =>
                  simp only [h3, if_true, pop_front] at h hp
                  simp only [Option.some.injEq, Prod.mk.injEq] at h
                  obtain ⟨h4, h5⟩ := h
                  subst h4; subst h5
                  exact hp
              · simp only [h3, if_false] at h hp
                simp only [Bool.false_eq_true, if_false, Option.some.injEq, Prod.mk.injEq] at h
                obtain ⟨h4, h5⟩ := h
                subst h4; subst h5
                exact hp
          · have h2f : is_symbol (t :: tks1) "(" = false := by simpa using h2
            simp only [h2f, consume, pop_front, Bool.false_eq_true, if_false, ite_self,
              Option.some.injEq, Prod.mk.injEq] at h
            obtain ⟨h4, h5⟩ := h
            subst h4; subst h5
            exact Parses.value_token t tks1 h1f h2f
    | term =>
      simp only [parse_rule] at h
      rw [parse_term] at h
      cases hV : parse_value f tks with
      | none => simp [hV] at h
      | some q =>
        obtain ⟨left, tks1⟩ := q
        simp only [hV] at h
        exact Parses.term _ _ _ _ _ (ihV _ _ _ hV) (ihTL _ _ _ _ h)
    | expr =>
      simp only [parse_rule] at h
      rw [parse_expr] at h
      cases hV : parse_term f tks with
      | none => simp [hV] at h
      | some q =>
        obtain ⟨left, tks1⟩ := q
        simp only [hV] at h
        exact Parses.expr _ _ _ _ _ (ihT _ _ _ hV) (ihEL _ _ _ _ h)
    | termLoop left =>
      simp only [parse_rule] at h
      rw [parse_term_loop] at h
      by_cases h1 : is_mul_op tks = true
      · cases tks with
        | nil => simp [is_mul_op, is_symbol] at h1
        | cons op tks1 =>
          simp only [h1, if_true, consume, pop_front] at h
          cases hV : parse_value f tks1 with
          | none => simp [hV] at h
          | some q =>
            obtain ⟨right, tks2⟩ := q
            simp only [hV] at h
            exact Parses.term_step _ _ _ _ _ _ _ h1 (ihV _ _ _ hV) (ihTL _ _ _ _ h)
      · simp only [h1, if_false, Bool.false_eq_true, Option.some.injEq, Prod.mk.injEq] at h
        obtain ⟨h4, h5⟩ := h
        subst h4; subst h5
        exact Parses.term_done _ _ (by simpa using h1)
    | exprLoop left =>
      simp only [parse_rule] at h
      rw [parse_expr_loop] at h
      by_cases h1 : is_add_op tks = true
      · cases tks with
        | nil => simp [is_add_op, is_symbol] at h1
        | cons op tks1 =>
          simp only [h1, if_true, consume, pop_front] at h
          cases hV : parse_term f tks1 with
          | none => simp [hV] at h
          | some q =>
            obtain ⟨right, tks2⟩ := q
            simp only [hV] at h
            exact Parses.expr_step _ _ _ _ _ _ _ h1 (ihT _ _ _ hV) (ihEL _ _ _ _ h)
      · simp only [h1, if_false, Bool.false_eq_true, Option.some.injEq, Prod.mk.injEq] at h
        obtain ⟨h4, h5⟩ := h
        subst h4; subst h5
        exact Parses.expr_done _ _ (by simpa using h1)

/-- Every big-step derivation is realised by the fuelled routines. -/
theorem parse_rule_complete {k : Rule} {tks : TokenList} {n : AstNode} {rest : TokenList}
    (h : Parses k tks n rest) : ∃ f, parse_rule k f tks = some (n, rest) := by
  induction h with
  | value_eof tks h =>
    exact ⟨1, by simp [parse_rule, parse_value, h, empty_literal]⟩
  | value_paren t tks1 inner tks2 h1 h2 he ih =>
    obtain ⟨f, hf⟩ := ih
    refine ⟨f + 1, ?_⟩
    simp only [parse_rule] at hf ⊢
    rw [parse_value]
    simp only [h1, h2, consume, pop_front, hf, if_true, Bool.false_eq_true, if_false]
    by_cases h3 : is_symbol tks2 ")" = true
    · cases tks2 with
      | nil => simp [is_symbol] at h3
      | cons t2 r2 => simp [h3, pop_front]
    · simp [h3]
  | value_token t tks1 h1 h2 =>
    exact ⟨1, by simp [parse_rule, parse_value, h1, h2, consume, pop_front, literal_of]⟩
  | term tks left tks1 n tks2 hv hl ihv ihl =>
    obtain ⟨f1, hf1⟩ := ihv
    obtain ⟨f2, hf2⟩ := ihl
    refine ⟨max f1 f2 + 1, ?_⟩
    have g1 := parse_rule_mono hf1 (le_max_left f1 f2)
    have g2 := parse_rule_mono hf2 (le_max_right f1 f2)
    simp only [parse_rule] at g1 g2 ⊢
    rw [parse_term, g1]
    exact g2
  | term_done left tks h =>
    exact ⟨1, by simp [parse_rule, parse_term_loop, h]⟩
  | term_step left op tks1 right tks2 n tks3 h hv hl ihv ihl =>
    obtain ⟨f1, hf1⟩ := ihv
    obtain ⟨f2, hf2⟩ := ihl
    refine ⟨max f1 f2 + 1, ?_⟩
    have g1 := parse_rule_mono hf1 (le_max_left f1 f2)
    have g2 := parse_rule_mono hf2 (le_max_right f1 f2)
    simp only [parse_rule] at g1 g2 ⊢
    rw [parse_term_loop]
    simp only [h, if_true, consume, pop_front, g1]
    exact g2
  | expr tks left tks1 n tks2 hv hl ihv ihl =>
    obtain ⟨f1, hf1⟩ := ihv
    obtain ⟨f2, hf2⟩ := ihl
    refine ⟨max f1 f2 + 1, ?_⟩
    have g1 := parse_rule_mono hf1 (le_max_left f1 f2)
    have g2 := parse_rule_mono hf2 (le_max_right f1 f2)
    simp only [parse_rule] at g1 g2 ⊢
    rw [parse_expr, g1]
    exact g2
  | expr_done left tks h =>
    exact ⟨1, by simp [parse_rule, parse_expr_loop, h]⟩
  | expr_step left op tks1 right tks2 n tks3 h hv hl ihv ihl =>
    obtain ⟨f1, hf1⟩ := ihv
    obtain ⟨f2, hf2⟩ := ihl
    refine ⟨max f1 f2 + 1, ?_⟩
    have g1 := parse_rule_mono hf1 (le_max_left f1 f2)
    have g2 := parse_rule_mono hf2 (le_max_right f1 f2)
    simp only [parse_rule] at g1 g2 ⊢
    rw [parse_expr_loop]
    simp only [h, if_true, consume, pop_front, g1]
    exact g2

/-- The results of a routine do not depend on the fuel that produced them. -/
theorem parse_rule_det {k : Rule} {tks : TokenList} {r1 r2 : AstNode × TokenList} {f g : Nat}
    (h1 : parse_rule k f tks = some r1) (h2 : parse_rule k g tks = some r2) : r1 = r2 := by
  have a := parse_rule_mono h1 (le_max_left f g)
  have b := parse_rule_mono h2 (le_max_right f g)
  rw [a] at b
  exact Option.some.inj b

/-- With `Rule.need` units of fuel every routine returns, and it returns a
list no longer than the one it was given. -/
theorem parse_rule_total : ∀ (f : Nat) (k : Rule) (tks : TokenList),
    k.need tks.length ≤ f →
    ∃ n rest, parse_rule k f tks = some (n, rest) ∧ rest.length ≤ tks.length := by
  intro f
  induction f with
  | zero => intro k tks h; cases k <;> simp [Rule.need] at h
  | succ f ih =>
    intro k tks h
    have ihV := ih .value
    have ihT := ih .term
    have ihE := ih .expr
    have ihTL := fun l => ih (.termLoop l)
    have ihEL := fun l => ih (.exprLoop l)
    simp only [parse_rule, Rule.need] at ihV ihT ihE ihTL ihEL
    cases k with
    | value =>
      simp only [parse_rule, Rule.need] at h ⊢
      rw [parse_value]
      cases tks with
      | nil => exact ⟨empty_literal, [], by simp [at_eof, empty_literal], le_refl _⟩
      | cons t tks1 =>
        by_cases h1 : at_eof (t :: tks1) = true
        · exact ⟨empty_literal, t :: tks1, by simp [h1, empty_literal], le_refl _⟩
        · by_cases h2 : is_symbol (t :: tks1) "(" = true
          · simp only [List.length_cons] at h
            obtain ⟨inner, tks2, hE, hlen⟩ := ihE tks1 (by omega)
            simp only [h1, h2, consume, pop_front, hE, if_true, Bool.false_eq_true, if_false]
            by_cases h3 : is_symbol tks2 ")" = true
            · cases tks2 with
              | nil => simp [is_symbol] at h3
              | cons t2 r2 =>
                refine ⟨inner, r2, by simp only [h3, if_true], ?_⟩
                simp only [List.length_cons] at hlen ⊢
                omega
            · refine ⟨inner, tks2, by simp only [h3, if_false, Bool.false_eq_true], ?_⟩
              simp only [List.length_cons]
              omega
          · refine ⟨literal_of t, tks1, by simp only [h1, h2, consume, pop_front,
              Bool.false_eq_true, if_false, ite_self, literal_of], ?_⟩
            simp
    | term =>
      simp only [parse_rule, Rule.need] at h ⊢
      rw [parse_term]
      obtain ⟨left, tks1, hV, hlen⟩ := ihV tks (by omega)
      obtain ⟨n, tks2, hL, hlen2⟩ := ihTL left tks1 (by omega)
      exact ⟨n, tks2, by simp only [hV]; exact hL, by omega⟩
    | expr =>
      simp only [parse_rule, Rule.need] at h ⊢
      rw [parse_expr]
      obtain ⟨left, tks1, hV, hlen⟩ := ihT tks (by omega)
      obtain ⟨n, tks2, hL, hlen2⟩ := ihEL left tks1 (by omega)
      exact ⟨n, tks2, by simp only [hV]; exact hL, by omega⟩
    | termLoop left =>
      simp only [parse_rule, Rule.need] at h ⊢
      rw [parse_term_loop]
      by_cases h1 : is_mul_op tks = true
      · cases tks with
        | nil => simp [is_mul_op, is_symbol] at h1
        | cons op tks1 =>
          simp only [List.length_cons] at h
          obtain ⟨right, tks2, hV, hlen⟩ := ihV tks1 (by omega)
          obtain ⟨n, tks3, hL, hlen2⟩ := ihTL (mk_binop left op right) tks2 (by omega)
          refine ⟨n, tks3, by simp only [h1, if_true, consume, pop_front, hV]; exact hL, ?_⟩
          simp only [List.length_cons]
          omega
      · exact ⟨left, tks, by simp only [h1, if_false, Bool.false_eq_true], le_refl _⟩
    | exprLoop left =>
      simp only [parse_rule, Rule.need] at h ⊢
      rw [parse_expr_loop]
      by_cases h1 : is_add_op tks = true
      · cases tks with
        | nil => simp [is_add_op, is_symbol] at h1
        | cons op tks1 =>
          simp only [List.length_cons] at h
          obtain ⟨right, tks2, hV, hlen⟩ := ihT tks1 (by omega)
          obtain ⟨n, tks3, hL, hlen2⟩ := ihEL (mk_binop left op right) tks2 (by omega)
          refine ⟨n, tks3, by simp only [h1, if_true, consume, pop_front, hV]; exact hL, ?_⟩
          simp only [List.length_cons]
          omega
      · exact ⟨left, tks, by simp only [h1, if_false, Bool.false_eq_true], le_refl _⟩

/-! ## Statements: the lookahead, fuel, and the tokens removed -/

/-- The two ways in which `parse_stmt` returns. -/
theorem parse_stmt_eq_some (f : Nat) (tks : TokenList) (n : AstNode) (rest : TokenList) :
    parse_stmt f tks = some (n, rest) ↔
      (starts_assign tks = true ∧ ∃ id eq tks2 rhs, tks = id :: eq :: tks2 ∧
          parse_expr f tks2 = some (rhs, rest) ∧ n = mk_assign id rhs) ∨
      (starts_assign tks = false ∧ parse_expr f tks = some (n, rest)) := by
  unfold parse_stmt
  by_cases h : starts_assign tks = true
  · simp only [h, if_true, true_and, Bool.true_eq_false, false_and, or_false]
    match tks, h with
    | id :: eq :: tks2, _ =>
      simp only [consume, pop_front]
      constructor
      · intro h1
        cases hE : parse_expr f tks2 with
        | none => simp [hE] at h1
        | some q =>
          obtain ⟨rhs, tks3⟩ := q
          simp only [hE, Option.some.injEq, Prod.mk.injEq] at h1
          obtain ⟨h2, h3⟩ := h1
          subst h3
          exact ⟨id, eq, tks2, rhs, rfl, hE, h2.symm⟩
      · rintro ⟨id', eq', tks2', rhs', h1, h4, h5⟩
        simp only [List.cons.injEq] at h1
        obtain ⟨h1, h2, h3⟩ := h1
        subst h1; subst h2; subst h3
        simp only [h4, h5, mk_assign]
  · have hf : starts_assign tks = false := by simpa using h
    simp [hf]

theorem parse_stmt_mono {tks : TokenList} {r : AstNode × TokenList} {f g : Nat}
    (h : parse_stmt f tks = some r) (hfg : f ≤ g) : parse_stmt g tks = some r := by
  obtain ⟨n, rest⟩ := r
  rw [parse_stmt_eq_some] at h ⊢
  have mono : ∀ {tks n rest}, parse_expr f tks = some (n, rest) →
      parse_expr g tks = some (n, rest) := fun h => parse_rule_mono (k := Rule.expr) h hfg
  rcases h with ⟨h1, id, eq, tks2, rhs, h2, h3, h4⟩ | ⟨h1, h2⟩
  · exact Or.inl ⟨h1, id, eq, tks2, rhs, h2, mono h3, h4⟩
  · exact Or.inr ⟨h1, mono h2⟩

theorem parse_stmt_total (f : Nat) (tks : TokenList) (h : 3 * tks.length + 3 ≤ f) :
    ∃ n rest, parse_stmt f tks = some (n, rest) := by
  by_cases hs : starts_assign tks = true
  · match tks, hs with
    | id :: eq :: tks2, hs =>
      simp only [List.length_cons] at h
      obtain ⟨rhs, rest, hE, _⟩ := parse_rule_total f .expr tks2 (by simp only [Rule.need]; omega)
      exact ⟨mk_assign id rhs, rest, (parse_stmt_eq_some _ _ _ _).2
        (Or.inl ⟨hs, id, eq, tks2, rhs, rfl, hE, rfl⟩)⟩
  · obtain ⟨n, rest, hE, _⟩ := parse_rule_total f .expr tks (by simp only [Rule.need]; omega)
    exact ⟨n, rest, (parse_stmt_eq_some _ _ _ _).2 (Or.inr ⟨by simpa using hs, hE⟩)⟩

theorem Removed_refl (tks : TokenList) : Removed tks tks := ⟨[], rfl, by simp⟩

theorem Removed_trans {a b c : TokenList} (h1 : Removed a b) (h2 : Removed b c) :
    Removed a c := by
  obtain ⟨p, hp, hp2⟩ := h1
  obtain ⟨q, hq, hq2⟩ := h2
  refine ⟨p ++ q, by rw [hp, hq, List.append_assoc], ?_⟩
  intro t ht
  rcases List.mem_append.1 ht with h | h
  · exact hp2 t h
  · exact hq2 t h

theorem Removed_cons {t : Token} {a b : TokenList} (ht : t.t_type ≠ token_t._EOF)
    (h : Removed a b) : Removed (t :: a) b := by
  obtain ⟨p, hp, hp2⟩ := h
  refine ⟨t :: p, by rw [hp]; rfl, ?_⟩
  intro u hu
  rcases List.mem_cons.1 hu with h | h
  · rw [h]; exact ht
  · exact hp2 u h

theorem Removed_length_le {a b : TokenList} (h : Removed a b) : b.length ≤ a.length := by
  obtain ⟨p, hp, _⟩ := h
  rw [hp, List.length_append]
  omega

theorem is_symbol_not_eof {t : Token} {r : TokenList} {s : String}
    (h : is_symbol (t :: r) s = true) : t.t_type ≠ token_t._EOF := by
  simp only [is_symbol, Bool.and_eq_true, beq_iff_eq] at h
  rw [h.1]
  decide

theorem is_mul_op_not_eof {t : Token} {r : TokenList}
    (h : is_mul_op (t :: r) = true) : t.t_type ≠ token_t._EOF := by
  simp only [is_mul_op, Bool.or_eq_true] at h
  rcases h with (h | h) | h <;> exact is_symbol_not_eof h

theorem is_add_op_not_eof {t : Token} {r : TokenList}
    (h : is_add_op (t :: r) = true) : t.t_type ≠ token_t._EOF := by
  simp only [is_add_op, Bool.or_eq_true] at h
  rcases h with h | h <;> exact is_symbol_not_eof h

theorem at_eof_cons_false {t : Token} {r : TokenList} (h : at_eof (t :: r) = false) :
    t.t_type ≠ token_t._EOF := by
  simpa [at_eof] using h

/-- Every routine only takes tokens off the front, never an end marker, and
`parse_value`, `parse_term` and `parse_expr` take at least one when the list
does not start with an end marker. -/
theorem Parses_removed {k : Rule} {tks : TokenList} {n : AstNode} {rest : TokenList}
    (h : Parses k tks n rest) :
    Removed tks rest ∧ (k.isLoop = false → at_eof tks = false → rest.length < tks.length) := by
  induction h with
  | value_eof tks h => exact ⟨Removed_refl _, fun _ h' => by rw [h] at h'; cases h'⟩
  | value_paren t tks1 inner tks2 h1 h2 he ih =>
    have hr : Removed tks1 (if is_symbol tks2 ")" = true then pop_front tks2 else tks2) := by
      by_cases h3 : is_symbol tks2 ")" = true
      · cases tks2 with
        | nil => simp [is_symbol] at h3
        | cons t2 r2 =>
          simp only [h3, if_true, pop_front]
          exact Removed_trans ih.1 (Removed_cons (is_symbol_not_eof h3) (Removed_refl _))
      · simp only [h3, if_false, Bool.false_eq_true]
        exact ih.1
    refine ⟨Removed_cons (at_eof_cons_false h1) hr, fun _ _ => ?_⟩
    have := Removed_length_le hr
    simp only [List.length_cons]
    omega
  | value_token t tks1 h1 h2 =>
    exact ⟨Removed_cons (at_eof_cons_false h1) (Removed_refl _), fun _ _ => by simp⟩
  | term tks left tks1 n tks2 hv hl ihv ihl =>
    refine ⟨Removed_trans ihv.1 ihl.1, fun _ h => ?_⟩
    have h1 := ihv.2 rfl h
    have h2 := Removed_length_le ihl.1
    omega
  | term_done left tks h => exact ⟨Removed_refl _, fun h' => by cases h'⟩
  | term_step left op tks1 right tks2 n tks3 h hv hl ihv ihl =>
    exact ⟨Removed_cons (is_mul_op_not_eof h) (Removed_trans ihv.1 ihl.1), fun h' => by cases h'⟩
  | expr tks left tks1 n tks2 hv hl ihv ihl =>
    refine ⟨Removed_trans ihv.1 ihl.1, fun _ h => ?_⟩
    have h1 := ihv.2 rfl h
    have h2 := Removed_length_le ihl.1
    omega
  | expr_done left tks h => exact ⟨Removed_refl _, fun h' => by cases h'⟩
  | expr_step left op tks1 right tks2 n tks3 h hv hl ihv ihl =>
    exact ⟨Removed_cons (is_add_op_not_eof h) (Removed_trans ihv.1 ihl.1), fun h' => by cases h'⟩

theorem starts_assign_not_eof {id eq : Token} {r : TokenList}
    (h : starts_assign (id :: eq :: r) = true) :
    id.t_type ≠ token_t._EOF ∧ eq.t_type ≠ token_t._EOF := by
  simp only [starts_assign, Bool.and_eq_true, beq_iff_eq] at h
  rw [h.1.1, h.1.2]
  exact ⟨by decide, by decide⟩

/-- The function `parse_stmt` only takes tokens off the front, never an end marker,
and at least one when the list does not start with an end marker. -/
theorem parse_stmt_removed {f : Nat} {tks : TokenList} {n : AstNode} {rest : TokenList}
    (h : parse_stmt f tks = some (n, rest)) :
    Removed tks rest ∧ (at_eof tks = false → rest.length < tks.length) := by
  rw [parse_stmt_eq_some] at h
  rcases h with ⟨h1, id, eq, tks2, rhs, h2, h3, _⟩ | ⟨_, h2⟩
  · subst h2
    have hp := Parses_removed (parse_rule_sound f .expr _ _ _ h3)
    have hne := starts_assign_not_eof h1
    refine ⟨Removed_cons hne.1 (Removed_cons hne.2 hp.1), fun _ => ?_⟩
    have := Removed_length_le hp.1
    simp only [List.length_cons]
    omega
  · have hp := Parses_removed (parse_rule_sound f .expr _ _ _ h2)
    exact ⟨hp.1, hp.2 rfl⟩

/-! ## Programs: the loop of `parse_prog` -/

theorem parse_stmt_sound {f : Nat} {tks : TokenList} {n : AstNode} {rest : TokenList}
    (h : parse_stmt f tks = some (n, rest)) : StmtParses tks n rest := by
  rw [parse_stmt_eq_some] at h
  rcases h with ⟨h1, id, eq, tks2, rhs, h2, h3, h4⟩ | ⟨h1, h2⟩
  · exact Or.inl ⟨h1, id, eq, tks2, rhs, h2, parse_rule_sound f .expr _ _ _ h3, h4⟩
  · exact Or.inr ⟨h1, parse_rule_sound f .expr _ _ _ h2⟩

theorem parse_stmt_complete {tks : TokenList} {n : AstNode} {rest : TokenList}
    (h : StmtParses tks n rest) : ∃ f, parse_stmt f tks = some (n, rest) := by
  rcases h with ⟨h1, id, eq, tks2, rhs, h2, h3, h4⟩ | ⟨h1, h2⟩
  · obtain ⟨f, hf⟩ := parse_rule_complete h3
    exact ⟨f, (parse_stmt_eq_some _ _ _ _).2 (Or.inl ⟨h1, id, eq, tks2, rhs, h2, hf, h4⟩)⟩
  · obtain ⟨f, hf⟩ := parse_rule_complete h2
    exact ⟨f, (parse_stmt_eq_some _ _ _ _).2 (Or.inr ⟨h1, hf⟩)⟩

theorem parse_prog_loop_zero (tks : TokenList) (args : NodeArgs) :
    parse_prog_loop 0 tks args = none := rfl

theorem parse_prog_loop_succ (f : Nat) (tks : TokenList) (args : NodeArgs) :
    parse_prog_loop (f + 1) tks args =
      if (!at_eof tks) = true then
        match parse_stmt f tks with
        | none => none
        | some (s, tks1) => parse_prog_loop f tks1 (args ++ [new_arg_node s])
      else some (AstNode.mk NodeType.PROG args, tks) := rfl

theorem parse_prog_loop_mono : ∀ (f g : Nat) (tks : TokenList) (args : NodeArgs)
    (r : AstNode × TokenList), parse_prog_loop f tks args = some r → f ≤ g →
    parse_prog_loop g tks args = some r := by
  intro f
  induction f with
  | zero => intro g tks args r h; cases h
  | succ f ih =>
    intro g tks args r h hfg
    obtain ⟨g, rfl⟩ : ∃ g', g = g' + 1 := ⟨g - 1, by omega⟩
    rw [parse_prog_loop_succ] at h ⊢
    by_cases h1 : at_eof tks = true
    · simpa [h1] using h
    · have h1f : at_eof tks = false := by simpa using h1
      simp only [h1f, Bool.not_false, if_true] at h ⊢
      cases hS : parse_stmt f tks with
      | none => simp [hS] at h
      | some q =>
        obtain ⟨s, tks1⟩ := q
        simp only [hS] at h
        rw [parse_stmt_mono hS (by omega : f ≤ g)]
        exact ih g _ _ _ h (by omega)

theorem parse_prog_loop_sound : ∀ (f : Nat) (tks : TokenList) (args : NodeArgs)
    (n : AstNode) (rest : TokenList), parse_prog_loop f tks args = some (n, rest) →
    ∃ stmts, n = AstNode.mk NodeType.PROG (args ++ stmts.map new_arg_node) ∧
      StmtsParse tks stmts rest := by
  intro f
  induction f with
  | zero => intro tks args n rest h; cases h
  | succ f ih =>
    intro tks args n rest h
    rw [parse_prog_loop_succ] at h
    by_cases h1 : at_eof tks = true
    · simp only [h1, Bool.not_true, Bool.false_eq_true, if_false, Option.some.injEq,
        Prod.mk.injEq] at h
      obtain ⟨h2, h3⟩ := h
      subst h2; subst h3
      exact ⟨[], by simp, StmtsParse.done _ h1⟩
    · have h1f : at_eof tks = false := by simpa using h1
      simp only [h1f, Bool.not_false, if_true] at h
      cases hS : parse_stmt f tks with
      | none => simp [hS] at h
      | some q =>
        obtain ⟨s, tks1⟩ := q
        simp only [hS] at h
        obtain ⟨ss, h2, h3⟩ := ih _ _ _ _ h
        exact ⟨s :: ss, by simp [h2], StmtsParse.step _ _ _ _ _ h1f (parse_stmt_sound hS) h3⟩

theorem parse_prog_loop_complete {tks : TokenList} {stmts : List AstNode} {rest : TokenList}
    (h : StmtsParse tks stmts rest) : ∀ args : NodeArgs, ∃ f,
      parse_prog_loop f tks args =
        some (AstNode.mk NodeType.PROG (args ++ stmts.map new_arg_node), rest) := by
  induction h with
  | done tks h => intro args; exact ⟨1, by simp [parse_prog_loop_succ, h]⟩
  | step tks s tks1 ss rest h hs hl ih =>
    intro args
    obtain ⟨f1, hf1⟩ := parse_stmt_complete hs
    obtain ⟨f2, hf2⟩ := ih (args ++ [new_arg_node s])
    refine ⟨max f1 f2 + 1, ?_⟩
    rw [parse_prog_loop_succ]
    simp only [h, Bool.not_false, if_true, parse_stmt_mono hf1 (le_max_left f1 f2)]
    rw [parse_prog_loop_mono _ _ _ _ _ hf2 (le_max_right f1 f2)]
    simp

/-- With `3 * tks.length + 4` units of fuel the loop of `parse_prog` returns. -/
theorem parse_prog_loop_total : ∀ (f : Nat) (tks : TokenList) (args : NodeArgs),
    3 * tks.length + 4 ≤ f → ∃ r, parse_prog_loop f tks args = some r := by
  intro f
  induction f with
  | zero => intro tks args h; omega
  | succ f ih =>
    intro tks args h
    rw [parse_prog_loop_succ]
    by_cases h1 : at_eof tks = true
    · exact ⟨(AstNode.mk NodeType.PROG args, tks),
        by simp only [h1, Bool.not_true, Bool.false_eq_true, if_false]⟩
    · have h1f : at_eof tks = false := by simpa using h1
      obtain ⟨s, tks1, hS⟩ := parse_stmt_total f tks (by omega)
      have hlen := (parse_stmt_removed hS).2 h1f
      obtain ⟨r, hr⟩ := ih tks1 (args ++ [new_arg_node s]) (by omega)
      exact ⟨r, by simp only [h1f, Bool.not_false, if_true, hS]; exact hr⟩

/-- The function `parse_prog` always returns. -/
theorem parse_prog_total (tks : TokenList) : ∃ r, parse_prog tks = some r :=
  parse_prog_loop_total _ tks [] (le_refl _)

/-- More fuel than `parse_prog` supplies does not change its result. -/
theorem parse_prog_loop_eq_parse_prog (tks : TokenList) (f : Nat)
    (h : 3 * tks.length + 4 ≤ f) : parse_prog_loop f tks [] = parse_prog tks := by
  obtain ⟨r, hr⟩ := parse_prog_total tks
  rw [hr]
  exact parse_prog_loop_mono _ _ _ _ _ hr h

/-- The function `parse_prog` returns the statements that the big-step
description reads. -/
theorem parse_prog_iff (tks : TokenList) (n : AstNode) (rest : TokenList) :
    parse_prog tks = some (n, rest) ↔
      ∃ stmts, n = AstNode.mk NodeType.PROG (stmts.map new_arg_node) ∧
        StmtsParse tks stmts rest := by
  constructor
  · intro h
    simpa using parse_prog_loop_sound _ _ _ _ _ h
  · rintro ⟨stmts, h1, h2⟩
    obtain ⟨f, hf⟩ := parse_prog_loop_complete h2 []
    obtain ⟨r, hr⟩ := parse_prog_total tks
    have a := parse_prog_loop_mono _ (max f (3 * tks.length + 4)) _ _ _ hf (le_max_left _ _)
    have b := parse_prog_loop_mono _ (max f (3 * tks.length + 4)) _ _ _ hr (le_max_right _ _)
    rw [a] at b
    rw [hr, ← b, h1]
    simp

theorem StmtParses_removed {tks : TokenList} {n : AstNode} {rest : TokenList}
    (h : StmtParses tks n rest) :
    Removed tks rest ∧ (at_eof tks = false → rest.length < tks.length) := by
  obtain ⟨f, hf⟩ := parse_stmt_complete h
  exact parse_stmt_removed hf

theorem StmtsParse_removed {tks : TokenList} {ss : List AstNode} {rest : TokenList}
    (h : StmtsParse tks ss rest) : Removed tks rest ∧ at_eof rest = true := by
  induction h with
  | done tks h => exact ⟨Removed_refl _, h⟩
  | step tks s tks1 ss rest h hs hl ih => exact ⟨Removed_trans (StmtParses_removed hs).1 ih.1, ih.2⟩

/-- When the only end marker of a list is its last token, removing non-markers
from the front until a marker is in front leaves exactly that marker. -/
theorem Removed_eq_eof {pre rest : TokenList} {eof : Token}
    (hpre : ∀ t ∈ pre, t.t_type ≠ token_t._EOF) (heof : eof.t_type = token_t._EOF)
    (h : Removed (pre ++ [eof]) rest) (hr : at_eof rest = true) : rest = [eof] := by
  obtain ⟨p, hp, hp2⟩ := h
  cases rest with
  | nil =>
    exfalso
    rw [List.append_nil] at hp
    exact hp2 eof (by rw [← hp]; simp) heof
  | cons e r =>
    have he : e.t_type = token_t._EOF := by simpa [at_eof] using hr
    rcases List.append_eq_append_iff.1 hp with ⟨a, h1, h2⟩ | ⟨c, h1, h2⟩
    · cases a with
      | nil => simpa using h2.symm
      | cons x a' => simp at h2
    · cases c with
      | nil => simpa using h2
      | cons x c' =>
        exfalso
        simp only [List.cons_append, List.cons.injEq] at h2
        exact hpre e (by rw [h1, h2.1]; simp) he

/-! ## Parsing operator chains -/

theorem is_add_op_cons (t : Token) (r : TokenList) : is_add_op (t :: r) = is_add_token t := by
  simp only [is_add_op, is_symbol, is_add_token, Bool.and_or_distrib_left]

theorem is_mul_op_cons (t : Token) (r : TokenList) : is_mul_op (t :: r) = is_mul_token t := by
  simp only [is_mul_op, is_symbol, is_mul_token, Bool.and_or_distrib_left]

theorem is_add_op_nil : is_add_op [] = false := rfl

theorem is_mul_op_nil : is_mul_op [] = false := rfl

theorem is_mul_token_of_add {t : Token} (h : is_add_token t = true) : is_mul_token t = false := by
  simp only [is_add_token, Bool.and_eq_true, Bool.or_eq_true, beq_iff_eq] at h
  rcases h with ⟨_, h | h⟩ <;> simp [is_mul_token, h]

theorem is_add_token_of_mul {t : Token} (h : is_mul_token t = true) : is_add_token t = false := by
  simp only [is_mul_token, Bool.and_eq_true, Bool.or_eq_true, beq_iff_eq] at h
  rcases h with ⟨_, (h | h) | h⟩ <;> simp [is_add_token, h]

theorem is_add_token_eof {t : Token} (h : t.t_type = token_t._EOF) : is_add_token t = false := by
  simp [is_add_token, h]

theorem is_mul_token_eof {t : Token} (h : t.t_type = token_t._EOF) : is_mul_token t = false := by
  simp [is_mul_token, h]

theorem is_literal_of_operand {t : Token} (h : is_operand_token t = true) :
    is_literal_token t = true := by
  simp only [is_operand_token, Bool.or_eq_true] at h
  simp only [is_literal_token, Bool.or_eq_true]
  exact Or.inl (Or.inl h)

/-- A literal token in front is read by `parse_value` as a one-token literal. -/
theorem Parses_value_literal {t : Token} (rest : TokenList) (h : is_literal_token t = true) :
    Parses .value (t :: rest) (literal_of t) rest := by
  simp only [is_literal_token, Bool.or_eq_true, beq_iff_eq] at h
  apply Parses.value_token
  · rcases h with ((h | h) | h) | h <;> simp [at_eof, h]
  · rcases h with ((h | h) | h) | h <;> simp [is_symbol, h]

/-- A literal token not followed by a multiplicative operator is a whole term. -/
theorem Parses_term_literal {t : Token} {rest : TokenList} (h : is_literal_token t = true)
    (hr : is_mul_op rest = false) : Parses .term (t :: rest) (literal_of t) rest :=
  Parses.term _ _ _ _ _ (Parses_value_literal rest h) (Parses.term_done _ _ hr)

theorem is_mul_op_chain_add {pairs : List (Token × Token)} {eof : Token}
    (hops : ∀ p ∈ pairs, is_add_token p.1 = true) (heof : eof.t_type = token_t._EOF) :
    is_mul_op (chain_tokens pairs ++ [eof]) = false := by
  cases pairs with
  | nil => simp [chain_tokens, is_mul_op_cons, is_mul_token_eof heof]
  | cons p ps =>
    simp only [chain_tokens, List.cons_append, is_mul_op_cons]
    exact is_mul_token_of_add (hops p (List.mem_cons_self _ _))

/-- The loop of `parse_expr` folds a chain of additive operators to the left. -/
theorem Parses_exprLoop_chain {eof : Token} (heof : eof.t_type = token_t._EOF) :
    ∀ (pairs : List (Token × Token)) (left : AstNode),
      (∀ p ∈ pairs, is_add_token p.1 = true) → (∀ p ∈ pairs, is_literal_token p.2 = true) →
      Parses (.exprLoop left) (chain_tokens pairs ++ [eof]) (left_fold left pairs) [eof] := by
  intro pairs
  induction pairs with
  | nil =>
    intro left _ _
    exact Parses.expr_done _ _ (by simp [chain_tokens, is_add_op_cons, is_add_token_eof heof])
  | cons p ps ih =>
    intro left hops hvals
    have hops' : ∀ q ∈ ps, is_add_token q.1 = true := fun q hq => hops q (List.mem_cons_of_mem _ hq)
    have hvals' : ∀ q ∈ ps, is_literal_token q.2 = true :=
      fun q hq => hvals q (List.mem_cons_of_mem _ hq)
    have h1 : is_add_op (p.1 :: (p.2 :: (chain_tokens ps ++ [eof]))) = true := by
      rw [is_add_op_cons]; exact hops p (List.mem_cons_self _ _)
    have h2 := Parses_term_literal (hvals p (List.mem_cons_self _ _))
      (is_mul_op_chain_add hops' heof)
    exact Parses.expr_step left p.1 _ (literal_of p.2) _ _ _ h1 h2 (ih _ hops' hvals')

/-- The loop of `parse_term` folds a chain of multiplicative operators to the left. -/
theorem Parses_termLoop_chain {eof : Token} (heof : eof.t_type = token_t._EOF) :
    ∀ (pairs : List (Token × Token)) (left : AstNode),
      (∀ p ∈ pairs, is_mul_token p.1 = true) → (∀ p ∈ pairs, is_literal_token p.2 = true) →
      Parses (.termLoop left) (chain_tokens pairs ++ [eof]) (left_fold left pairs) [eof] := by
  intro pairs
  induction pairs with
  | nil =>
    intro left _ _
    exact Parses.term_done _ _ (by simp [chain_tokens, is_mul_op_cons, is_mul_token_eof heof])
  | cons p ps ih =>
    intro left hops hvals
    have hops' : ∀ q ∈ ps, is_mul_token q.1 = true := fun q hq => hops q (List.mem_cons_of_mem _ hq)
    have hvals' : ∀ q ∈ ps, is_literal_token q.2 = true :=
      fun q hq => hvals q (List.mem_cons_of_mem _ hq)
    have h1 : is_mul_op (p.1 :: (p.2 :: (chain_tokens ps ++ [eof]))) = true := by
      rw [is_mul_op_cons]; exact hops p (List.mem_cons_self _ _)
    exact Parses.term_step left p.1 _ (literal_of p.2) _ _ _ h1
      (Parses_value_literal _ (hvals p (List.mem_cons_self _ _))) (ih _ hops' hvals')

/-- A statement that is one expression, followed by the end marker, parses to
a program with that single statement. -/
theorem parse_prog_single {tks : TokenList} {n : AstNode} {eof : Token}
    (heof : eof.t_type = token_t._EOF) (h0 : at_eof tks = false)
    (hs : starts_assign tks = false) (h : Parses .expr tks n [eof]) :
    parse_prog tks = some (AstNode.mk NodeType.PROG [new_arg_node n], [eof]) := by
  rw [parse_prog_iff]
  refine ⟨[n], rfl, StmtsParse.step _ _ _ _ _ h0 (Or.inr ⟨hs, h⟩) (StmtsParse.done _ ?_)⟩
  simp [at_eof, heof]

theorem starts_assign_chain {v0 : Token} {pairs : List (Token × Token)} {eof : Token}
    (heof : eof.t_type = token_t._EOF)
    (hops : ∀ p ∈ pairs, is_add_token p.1 = true ∨ is_mul_token p.1 = true) :
    starts_assign (v0 :: (chain_tokens pairs ++ [eof])) = false := by
  cases pairs with
  | nil => simp [chain_tokens, starts_assign, heof]
  | cons p ps =>
    simp only [chain_tokens, List.cons_append, starts_assign]
    have := hops p (List.mem_cons_self _ _)
    simp only [is_add_token, is_mul_token, Bool.and_eq_true, Bool.or_eq_true, beq_iff_eq] at this
    rcases this with ⟨_, h | h⟩ | ⟨_, (h | h) | h⟩ <;> simp [h]

/-- A parenthesised expression with its closing parenthesis present. -/
theorem Parses_value_paren_closed {tks1 : TokenList} {inner : AstNode} {rest : TokenList}
    (h : Parses .expr tks1 inner (sym ")" :: rest)) :
    Parses .value (sym "(" :: tks1) inner rest := by
  have h1 := Parses.value_paren (sym "(") tks1 inner (sym ")" :: rest) rfl rfl h
  have h2 : is_symbol (sym ")" :: rest) ")" = true := rfl
  simpa only [h2, if_true, pop_front] using h1

theorem is_add_op_rparen (rest : TokenList) : is_add_op (sym ")" :: rest) = false := rfl

theorem is_mul_op_rparen (rest : TokenList) : is_mul_op (sym ")" :: rest) = false := rfl

theorem at_eof_literal {t : Token} (rest : TokenList) (h : is_literal_token t = true) :
    at_eof (t :: rest) = false := by
  simp only [is_literal_token, Bool.or_eq_true, beq_iff_eq] at h
  rcases h with ((h | h) | h) | h <;> simp [at_eof, h]

theorem starts_assign_add {a op : Token} (rest : TokenList)
    (h : is_add_token op = true ∨ is_mul_token op = true) :
    starts_assign (a :: op :: rest) = false := by
  simp only [is_add_token, is_mul_token, Bool.and_eq_true, Bool.or_eq_true, beq_iff_eq] at h
  rcases h with ⟨_, h | h⟩ | ⟨_, (h | h) | h⟩ <;> simp [starts_assign, h]

/-! ## `ASSIGN` nodes in parser output -/

theorem has_assign_empty_literal : has_assign empty_literal = false := by
  simp [empty_literal, has_assign, has_assign_args]

theorem has_assign_literal_of (t : Token) : has_assign (literal_of t) = false := by
  simp [literal_of, new_args, new_arg_token, has_assign, has_assign_args]

theorem has_assign_mk_binop (l : AstNode) (op : Token) (r : AstNode) :
    has_assign (mk_binop l op r) = (has_assign l || has_assign r) := by
  simp [mk_binop, new_args, new_arg_token, new_arg_node, has_assign, has_assign_args]

theorem has_assign_mk_assign (id : Token) (rhs : AstNode) :
    has_assign (mk_assign id rhs) = true := by
  simp [mk_assign, has_assign]

/-- The expression routines never build an `ASSIGN` node. -/
theorem Parses_no_assign {k : Rule} {tks : TokenList} {n : AstNode} {rest : TokenList}
    (h : Parses k tks n rest) : (∀ l ∈ k.acc, has_assign l = false) → has_assign n = false := by
  induction h with
  | value_eof tks h => intro _; exact has_assign_empty_literal
  | value_paren t tks1 inner tks2 h1 h2 he ih => intro _; exact ih (by simp [Rule.acc])
  | value_token t tks1 h1 h2 => intro _; exact has_assign_literal_of t
  | term tks left tks1 n tks2 hv hl ihv ihl =>
    intro _
    have := ihv (by simp [Rule.acc])
    exact ihl (by simpa [Rule.acc] using this)
  | term_done left tks h => intro hl; exact hl left (by simp [Rule.acc])
  | term_step left op tks1 right tks2 n tks3 h hv hl ihv ihl =>
    intro hacc
    have h1 := hacc left (by simp [Rule.acc])
    have h2 := ihv (by simp [Rule.acc])
    exact ihl (by simp [Rule.acc, has_assign_mk_binop, h1, h2])
  | expr tks left tks1 n tks2 hv hl ihv ihl =>
    intro _
    have := ihv (by simp [Rule.acc])
    exact ihl (by simpa [Rule.acc] using this)
  | expr_done left tks h => intro hl; exact hl left (by simp [Rule.acc])
  | expr_step left op tks1 right tks2 n tks3 h hv hl ihv ihl =>
    intro hacc
    have h1 := hacc left (by simp [Rule.acc])
    have h2 := ihv (by simp [Rule.acc])
    exact ihl (by simp [Rule.acc, has_assign_mk_binop, h1, h2])

theorem starts_assign_iff (tks : TokenList) :
    starts_assign tks = true ↔ ∃ id eq rest, tks = id :: eq :: rest ∧
      id.t_type = token_t.IDENTIFIER ∧ eq.t_type = token_t.SYMBOLIC ∧ eq.value = "=" := by
  constructor
  · intro h
    match tks, h with
    | id :: eq :: rest, h =>
      simp only [starts_assign, Bool.and_eq_true, beq_iff_eq] at h
      exact ⟨id, eq, rest, rfl, h.1.1, h.1.2, h.2⟩
  · rintro ⟨id, eq, rest, rfl, h1, h2, h3⟩
    simp [starts_assign, h1, h2, h3]

/-- Shape of the statements of a parsed program: an expression without any
`ASSIGN` node, or an `ASSIGN` of an identifier token to such an expression. -/
theorem StmtParses_shape {tks : TokenList} {s : AstNode} {rest : TokenList}
    (h : StmtParses tks s rest) :
    has_assign s = false ∨ ∃ id rhs, s = mk_assign id rhs ∧
      id.t_type = token_t.IDENTIFIER ∧ has_assign rhs = false := by
  rcases h with ⟨h1, id, eq, tks2, rhs, h2, h3, h4⟩ | ⟨_, h2⟩
  · right
    subst h2
    obtain ⟨id', eq', rest', h5, h6, _, _⟩ := (starts_assign_iff _).1 h1
    simp only [List.cons.injEq] at h5
    exact ⟨id, rhs, h4, by rw [h5.1]; exact h6, Parses_no_assign h3 (by simp [Rule.acc])⟩
  · left
    exact Parses_no_assign h2 (by simp [Rule.acc])

theorem StmtsParse_shape {tks : TokenList} {ss : List AstNode} {rest : TokenList}
    (h : StmtsParse tks ss rest) :
    ∀ s ∈ ss, has_assign s = false ∨ ∃ id rhs, s = mk_assign id rhs ∧
      id.t_type = token_t.IDENTIFIER ∧ has_assign rhs = false := by
  induction h with
  | done tks h => intro s hs; cases hs
  | step tks s tks1 ss rest h hs hl ih =>
    intro s' hs'
    rcases List.mem_cons.1 hs' with h1 | h1
    · rw [h1]; exact StmtParses_shape hs
    · exact ih s' h1

/-! ## Claims about the parser -/

/-- C1: on every token list whose last element is its only end marker,
`parse_prog` returns (with the fuel it supplies, and with any larger amount)
one `PROG` node and leaves exactly that trailing end marker; and every call of
`parse_stmt` on a list that does not start with an end marker returns, having
removed a non-empty run of front tokens none of which is an end marker. -/
theorem C1_parse_prog_consumes_all (pre : TokenList) (eof : Token)
    (hpre : ∀ t ∈ pre, t.t_type ≠ token_t._EOF) (heof : eof.t_type = token_t._EOF) :
    (∃ args, parse_prog (pre ++ [eof]) = some (AstNode.mk NodeType.PROG args, [eof])) ∧
    (∀ fuel, 3 * (pre ++ [eof]).length + 4 ≤ fuel →
      parse_prog_loop fuel (pre ++ [eof]) [] = parse_prog (pre ++ [eof])) ∧
    (∀ tks : TokenList, at_eof tks = false → ∀ fuel, 3 * tks.length + 3 ≤ fuel →
      ∃ s rest removed, parse_stmt fuel tks = some (s, rest) ∧ tks = removed ++ rest ∧
        removed ≠ [] ∧ ∀ t ∈ removed, t.t_type ≠ token_t._EOF) := by
  refine ⟨?_, fun fuel h => parse_prog_loop_eq_parse_prog _ _ h, ?_⟩
  · obtain ⟨⟨n, rest⟩, hr⟩ := parse_prog_total (pre ++ [eof])
    obtain ⟨stmts, h1, h2⟩ := (parse_prog_iff _ _ _).1 hr
    have h3 := StmtsParse_removed h2
    have h4 := Removed_eq_eof hpre heof h3.1 h3.2
    exact ⟨stmts.map new_arg_node, by rw [hr, h1, h4]⟩
  · intro tks hne fuel hf
    obtain ⟨s, rest, hs⟩ := parse_stmt_total fuel tks hf
    obtain ⟨⟨removed, h1, h2⟩, h3⟩ := parse_stmt_removed hs
    refine ⟨s, rest, removed, hs, h1, ?_, h2⟩
    intro h
    have := h3 hne
    rw [h1, h] at this
    simp at this

/-- C1 at the tokens of `1+2`. -/
theorem C1_parse_prog_consumes_all_witness :
    (∀ t ∈ [Token.mk token_t.NUMBERLITERAL "1", Token.mk token_t.SYMBOLIC "+",
        Token.mk token_t.NUMBERLITERAL "2"], t.t_type ≠ token_t._EOF) ∧
    (Token.mk token_t._EOF "EOF").t_type = token_t._EOF ∧
    ((∃ args, parse_prog ([Token.mk token_t.NUMBERLITERAL "1", Token.mk token_t.SYMBOLIC "+",
        Token.mk token_t.NUMBERLITERAL "2"] ++ [Token.mk token_t._EOF "EOF"]) =
        some (AstNode.mk NodeType.PROG args, [Token.mk token_t._EOF "EOF"])) ∧
    (∀ fuel, 3 * ([Token.mk token_t.NUMBERLITERAL "1", Token.mk token_t.SYMBOLIC "+",
        Token.mk token_t.NUMBERLITERAL "2"] ++ [Token.mk token_t._EOF "EOF"]).length + 4 ≤ fuel →
      parse_prog_loop fuel ([Token.mk token_t.NUMBERLITERAL "1", Token.mk token_t.SYMBOLIC "+",
        Token.mk token_t.NUMBERLITERAL "2"] ++ [Token.mk token_t._EOF "EOF"]) [] =
      parse_prog ([Token.mk token_t.NUMBERLITERAL "1", Token.mk token_t.SYMBOLIC "+",
        Token.mk token_t.NUMBERLITERAL "2"] ++ [Token.mk token_t._EOF "EOF"])) ∧
    (∀ tks : TokenList, at_eof tks = false → ∀ fuel, 3 * tks.length + 3 ≤ fuel →
      ∃ s rest removed, parse_stmt fuel tks = some (s, rest) ∧ tks = removed ++ rest ∧
        removed ≠ [] ∧ ∀ t ∈ removed, t.t_type ≠ token_t._EOF)) :=
  ⟨by decide, by decide, C1_parse_prog_consumes_all _ _ (by decide) (by decide)⟩

/-- C2: binary operators parse left-associatively.  For every `n` (so for
every `n >= 1`), operand tokens `v0`, `v1`, ..., `vn` (numbers or identifiers)
and operator tokens `o1`, ..., `on` taken from one precedence level (all `+`/`-`, or all `*`/`/`/`%`), `parse_prog`
on `v0 o1 v1 ... on vn EOF` returns the program whose single statement is the
left fold `BINOP(...BINOP(LIT v0, o1, LIT v1)..., on, LIT vn)`, leaving the end
marker. -/
theorem C2_left_associative (v0 : Token) (pairs : List (Token × Token)) (eof : Token)
    (hv0 : is_operand_token v0 = true)
    (hvals : ∀ p ∈ pairs, is_operand_token p.2 = true)
    (hops : (∀ p ∈ pairs, is_add_token p.1 = true) ∨ (∀ p ∈ pairs, is_mul_token p.1 = true))
    (heof : eof.t_type = token_t._EOF) :
    parse_prog (v0 :: (chain_tokens pairs ++ [eof])) =
      some (AstNode.mk NodeType.PROG [new_arg_node (left_fold (literal_of v0) pairs)], [eof]) := by
  have hlit : ∀ p ∈ pairs, is_literal_token p.2 = true :=
    fun p hp => is_literal_of_operand (hvals p hp)
  have h0 : at_eof (v0 :: (chain_tokens pairs ++ [eof])) = false := by
    simp only [is_operand_token, Bool.or_eq_true, beq_iff_eq] at hv0
    rcases hv0 with h | h <;> simp [at_eof, h]
  rcases hops with hops | hops
  · refine parse_prog_single heof h0 (starts_assign_chain heof fun p hp => Or.inl (hops p hp)) ?_
    exact Parses.expr _ _ _ _ _
      (Parses_term_literal (is_literal_of_operand hv0) (is_mul_op_chain_add hops heof))
      (Parses_exprLoop_chain heof pairs _ hops hlit)
  · refine parse_prog_single heof h0 (starts_assign_chain heof fun p hp => Or.inr (hops p hp)) ?_
    exact Parses.expr _ _ _ _ _
      (Parses.term _ _ _ _ _ (Parses_value_literal _ (is_literal_of_operand hv0))
        (Parses_termLoop_chain heof pairs _ hops hlit))
      (Parses.expr_done _ _ (by simp [is_add_op_cons, is_add_token_eof heof]))

/-- C2 at the tokens of `1-2-3`: they parse as `(1-2)-3` and not as `1-(2-3)`. -/
theorem C2_left_associative_witness :
    is_operand_token (num "1") = true ∧
    (∀ p ∈ [(sym "-", num "2"), (sym "-", num "3")], is_operand_token p.2 = true) ∧
    (∀ p ∈ [(sym "-", num "2"), (sym "-", num "3")], is_add_token p.1 = true) ∧
    eof_token.t_type = token_t._EOF ∧
    parse_prog [num "1", sym "-", num "2", sym "-", num "3", eof_token] =
      some (AstNode.mk NodeType.PROG [new_arg_node
        (mk_binop (mk_binop (literal_of (num "1")) (sym "-") (literal_of (num "2")))
          (sym "-") (literal_of (num "3")))], [eof_token]) ∧
    parse_prog [num "1", sym "-", num "2", sym "-", num "3", eof_token] ≠
      some (AstNode.mk NodeType.PROG [new_arg_node
        (mk_binop (literal_of (num "1")) (sym "-")
          (mk_binop (literal_of (num "2")) (sym "-") (literal_of (num "3"))))], [eof_token]) := by
  have h := C2_left_associative (num "1") [(sym "-", num "2"), (sym "-", num "3")] eof_token
    (by decide) (by decide) (Or.inl (by decide)) (by decide)
  refine ⟨by decide, by decide, by decide, by decide, h, ?_⟩
  intro h2
  have h3 := h.symm.trans h2
  simp [left_fold, mk_binop, literal_of, new_args, new_arg_node, new_arg_token] at h3

/-- C3: multiplicative operators bind tighter than additive ones and
parentheses override precedence.  For literal tokens `a`, `b`, `c`, an additive
operator `op1` and a multiplicative operator `op2`, `parse_prog` on
`a op1 b op2 c EOF` yields the single statement
`BINOP(LIT a, op1, BINOP(LIT b, op2, LIT c))`, and on `( a op1 b ) op2 c EOF`
the single statement `BINOP(BINOP(LIT a, op1, LIT b), op2, LIT c)`, in which no
node stands for the parentheses. -/
theorem C3_precedence (a b c op1 op2 eof : Token)
    (ha : is_literal_token a = true) (hb : is_literal_token b = true)
    (hc : is_literal_token c = true) (h1 : is_add_token op1 = true)
    (h2 : is_mul_token op2 = true) (heof : eof.t_type = token_t._EOF) :
    parse_prog [a, op1, b, op2, c, eof] =
      some (AstNode.mk NodeType.PROG [new_arg_node
        (mk_binop (literal_of a) op1 (mk_binop (literal_of b) op2 (literal_of c)))], [eof]) ∧
    parse_prog [sym "(", a, op1, b, sym ")", op2, c, eof] =
      some (AstNode.mk NodeType.PROG [new_arg_node
        (mk_binop (mk_binop (literal_of a) op1 (literal_of b)) op2 (literal_of c))], [eof]) := by
  have eadd : is_add_op [eof] = false := by simp [is_add_op_cons, is_add_token_eof heof]
  have emul : is_mul_op [eof] = false := by simp [is_mul_op_cons, is_mul_token_eof heof]
  have m1 : is_mul_op (op1 :: b :: op2 :: c :: [eof]) = false := by
    rw [is_mul_op_cons]; exact is_mul_token_of_add h1
  have a1 : is_add_op (op1 :: b :: op2 :: c :: [eof]) = true := by rw [is_add_op_cons]; exact h1
  have m2 : is_mul_op (op2 :: c :: [eof]) = true := by rw [is_mul_op_cons]; exact h2
  have a2 : is_add_op (op2 :: c :: [eof]) = false := by
    rw [is_add_op_cons]; exact is_add_token_of_mul h2
  constructor
  · refine parse_prog_single heof (at_eof_literal _ ha) (starts_assign_add _ (Or.inl h1)) ?_
    refine Parses.expr _ _ _ _ _ (Parses_term_literal ha m1) ?_
    refine Parses.expr_step _ op1 _ (mk_binop (literal_of b) op2 (literal_of c)) [eof] _ _ a1 ?_
      (Parses.expr_done _ _ eadd)
    exact Parses.term _ _ _ _ _ (Parses_value_literal _ hb)
      (Parses.term_step _ op2 _ _ _ _ _ m2 (Parses_value_literal _ hc) (Parses.term_done _ _ emul))
  · refine parse_prog_single heof rfl rfl ?_
    have m3 : is_mul_op (op1 :: b :: sym ")" :: op2 :: c :: [eof]) = false := by
      rw [is_mul_op_cons]; exact is_mul_token_of_add h1
    have a3 : is_add_op (op1 :: b :: sym ")" :: op2 :: c :: [eof]) = true := by
      rw [is_add_op_cons]; exact h1
    have inner : Parses .expr (a :: op1 :: b :: sym ")" :: op2 :: c :: [eof])
        (mk_binop (literal_of a) op1 (literal_of b)) (sym ")" :: op2 :: c :: [eof]) :=
      Parses.expr _ _ _ _ _ (Parses_term_literal ha m3)
        (Parses.expr_step _ op1 _ (literal_of b) _ _ _ a3
          (Parses_term_literal hb (is_mul_op_rparen _))
          (Parses.expr_done _ _ (is_add_op_rparen _)))
    exact Parses.expr _ _ _ _ _
      (Parses.term _ _ _ _ _ (Parses_value_paren_closed inner)
        (Parses.term_step _ op2 _ _ _ _ _ m2 (Parses_value_literal _ hc)
          (Parses.term_done _ _ emul)))
      (Parses.expr_done _ _ eadd)

/-- C3 at the tokens of `2+3*4` and of `(2+3)*4`. -/
theorem C3_precedence_witness :
    is_literal_token (num "2") = true ∧ is_literal_token (num "3") = true ∧
    is_literal_token (num "4") = true ∧ is_add_token (sym "+") = true ∧
    is_mul_token (sym "*") = true ∧ eof_token.t_type = token_t._EOF ∧
    parse_prog [num "2", sym "+", num "3", sym "*", num "4", eof_token] =
      some (AstNode.mk NodeType.PROG [new_arg_node
        (mk_binop (literal_of (num "2")) (sym "+")
          (mk_binop (literal_of (num "3")) (sym "*") (literal_of (num "4"))))], [eof_token]) ∧
    parse_prog [sym "(", num "2", sym "+", num "3", sym ")", sym "*", num "4", eof_token] =
      some (AstNode.mk NodeType.PROG [new_arg_node
        (mk_binop (mk_binop (literal_of (num "2")) (sym "+") (literal_of (num "3")))
          (sym "*") (literal_of (num "4")))], [eof_token]) :=
  ⟨by decide, by decide, by decide, by decide, by decide, by decide,
    C3_precedence (num "2") (num "3") (num "4") (sym "+") (sym "*") eof_token
      (by decide) (by decide) (by decide) (by decide) (by decide) (by decide)⟩

/-- C4: `parse_stmt` recognises an assignment exactly when the token list
starts with an `IDENTIFIER` token followed by the `SYMBOLIC` token `=`.  Then
its result is `ASSIGN [that identifier, the node of the following expr]`;
otherwise it is the result of `parse_expr` on the same tokens.  The expression
routines build no `ASSIGN` node, so the root of a statement is an `ASSIGN`
only in the first case, and in a parsed program `ASSIGN` nodes occur only as
direct children of `PROG`. -/
theorem C4_assignment_recognition (fuel : Nat) (tks : TokenList) :
    (starts_assign tks = true ↔ ∃ id eq rest, tks = id :: eq :: rest ∧
      id.t_type = token_t.IDENTIFIER ∧ eq.t_type = token_t.SYMBOLIC ∧ eq.value = "=") ∧
    (∀ id eq rest, tks = id :: eq :: rest → starts_assign tks = true →
      parse_stmt fuel tks =
        (parse_expr fuel rest).map (fun r => (mk_assign id r.1, r.2))) ∧
    (starts_assign tks = false → parse_stmt fuel tks = parse_expr fuel tks) ∧
    (∀ n rest, parse_expr fuel tks = some (n, rest) → has_assign n = false) ∧
    (∀ n rest, parse_stmt fuel tks = some (n, rest) →
      (n.n_type = NodeType.ASSIGN ↔ starts_assign tks = true)) ∧
    (∀ n rest, parse_prog tks = some (n, rest) →
      ∃ stmts : List AstNode, n = AstNode.mk NodeType.PROG (stmts.map new_arg_node) ∧
        ∀ s ∈ stmts, has_assign s = false ∨ ∃ id rhs, s = mk_assign id rhs ∧
          id.t_type = token_t.IDENTIFIER ∧ has_assign rhs = false) := by
  refine ⟨starts_assign_iff tks, ?_, ?_, ?_, ?_, ?_⟩
  · rintro id eq rest rfl h
    simp only [parse_stmt, h, if_true, consume, pop_front]
    cases parse_expr fuel rest with
    | none => rfl
    | some q => rfl
  · intro h
    simp [parse_stmt, h]
  · intro n rest h
    exact Parses_no_assign (parse_rule_sound fuel .expr _ _ _ h) (by simp [Rule.acc])
  · intro n rest h
    rw [parse_stmt_eq_some] at h
    rcases h with ⟨h1, id, eq, tks2, rhs, _, _, h4⟩ | ⟨h1, h2⟩
    · simp [h1, h4, mk_assign, AstNode.n_type]
    · have h3 := Parses_no_assign (parse_rule_sound fuel .expr _ _ _ h2) (by simp [Rule.acc])
      cases n with
      | mk t args =>
        simp only [has_assign, Bool.or_eq_false_iff, beq_eq_false_iff_ne] at h3
        simp [h1, AstNode.n_type, h3.1]
  · intro n rest h
    obtain ⟨stmts, h1, h2⟩ := (parse_prog_iff _ _ _).1 h
    exact ⟨stmts, h1, StmtsParse_shape h2⟩

/-- C4 at the tokens of `a=5` and of `5=a`: the first is an assignment, the
second, whose `=` is not the second token after an identifier, is not. -/
theorem C4_assignment_recognition_witness :
    parse_stmt 9 [ident "a", sym "=", num "5", eof_token] =
      some (mk_assign (ident "a") (literal_of (num "5")), [eof_token]) ∧
    parse_stmt 9 [num "5", sym "=", ident "a", eof_token] =
      parse_expr 9 [num "5", sym "=", ident "a", eof_token] ∧
    has_assign (literal_of (num "5")) = false :=
  ⟨(C4_assignment_recognition 9 [ident "a", sym "=", num "5", eof_token]).2.1
      (ident "a") (sym "=") [num "5", eof_token] rfl rfl,
    (C4_assignment_recognition 9 [num "5", sym "=", ident "a", eof_token]).2.2.1 rfl,
    (C4_assignment_recognition 9 [num "5", eof_token]).2.2.2.1 _ _ rfl⟩

/-! ## Structure of the emitted code -/

/-- Induction over trees: a property holds of every node if it holds of a
node whenever it holds of all the child nodes in its arguments. -/
theorem AstNode_induct {P : AstNode → Prop}
    (h : ∀ t args, (∀ a ∈ args, ∀ n, a.node = some n → P n) → P (AstNode.mk t args))
    (n : AstNode) : P n :=
  AstNode.rec (motive_1 := P) (motive_2 := fun a => ∀ n, a.node = some n → P n)
    (motive_3 := fun args => ∀ a ∈ args, ∀ n, a.node = some n → P n)
    (motive_4 := fun o => ∀ n, o = some n → P n)
    (fun t args ih => h t args ih)
    (fun _ _ ih n hn => ih n hn)
    (fun a ha => by cases ha)
    (fun head tail ih1 ih2 a ha n hn => by
      rcases List.mem_cons.1 ha with h1 | h1
      · rw [h1] at hn; exact ih1 n hn
      · exact ih2 a h1 n hn)
    (fun n hn => by cases hn)
    (fun val ih n hn => by cases hn; exact ih)
    n

theorem binop_parts_mem {args : List NodeArg} {l r : AstNode} {op : Token}
    (h : binop_parts args = some (l, op, r)) :
    (∃ a ∈ args, a.node = some l) ∧ (∃ a ∈ args, a.node = some r) := by
  match args, h with
  | (.mk t0 (some left)) :: (.mk (some o) n1) :: (.mk t2 (some right)) :: tail, h =>
    simp only [binop_parts, Option.some.injEq, Prod.mk.injEq] at h
    obtain ⟨h1, _, h3⟩ := h
    subst h1; subst h3
    exact ⟨⟨_, List.mem_cons_self _ _, rfl⟩,
      ⟨_, List.mem_cons_of_mem _ (List.mem_cons_of_mem _ (List.mem_cons_self _ _)), rfl⟩⟩

theorem assign_parts_mem {args : List NodeArg} {id : Token} {rhs : AstNode}
    (h : assign_parts args = some (id, rhs)) : ∃ a ∈ args, a.node = some rhs := by
  match args, h with
  | (.mk (some i) n0) :: (.mk t1 (some r)) :: tail, h =>
    simp only [assign_parts, Option.some.injEq, Prod.mk.injEq] at h
    obtain ⟨_, h2⟩ := h
    subst h2
    exact ⟨_, List.mem_cons_of_mem _ (List.mem_cons_self _ _), rfl⟩

/-- The `BINOP` case of `emit_expr`, by the operands that it finds. -/
theorem emit_expr_binop (opts : CodegenOptions) (args : List NodeArg) (E : Emitter) :
    emit_expr opts (AstNode.mk NodeType.BINOP args) E =
      match binop_parts args with
      | some (left, op, right) =>
        emit_operator opts op.value
          ((emit_expr opts right ((emit_expr opts left E).put (push_acc opts))).put
            (pop_left opts))
      | none => E.put (zero_acc opts) := by
  rcases args with _ | ⟨⟨t0, _ | l⟩, _ | ⟨⟨_ | op, n1⟩, _ | ⟨⟨t2, _ | r⟩, tail⟩⟩⟩ <;> rfl

/-- The `ASSIGN` case of `emit_expr`, by the parts that it finds. -/
theorem emit_expr_assign (opts : CodegenOptions) (args : List NodeArg) (E : Emitter) :
    emit_expr opts (AstNode.mk NodeType.ASSIGN args) E =
      match assign_parts args with
      | some (id, rhs) =>
        (emit_expr opts rhs (declare_var opts id.value E)).put (store_acc opts id.value)
      | none => E.put (zero_acc opts) := by
  rcases args with _ | ⟨⟨_ | id, n0⟩, _ | ⟨⟨t1, _ | rhs⟩, tail⟩⟩ <;> rfl

theorem emit_expr_literal (opts : CodegenOptions) (args : List NodeArg) (E : Emitter) :
    emit_expr opts (AstNode.mk NodeType.LITERAL args) E = emit_literal opts args E := rfl

theorem emit_expr_prog (opts : CodegenOptions) (args : List NodeArg) (E : Emitter) :
    emit_expr opts (AstNode.mk NodeType.PROG args) E = emit_stmts opts args E := rfl

theorem put_text (E : Emitter) (i : Instr) : (E.put i).text = E.text ++ [i] := rfl

theorem declare_var_text (opts : CodegenOptions) (name : String) (E : Emitter) :
    (declare_var opts name E).text = E.text := by
  unfold declare_var
  split <;> rfl

/-- The instructions of the operator part. -/
theorem emit_operator_text (opts : CodegenOptions) (o : String) (E : Emitter) :
    (emit_operator opts o E).text = E.text ++ (emit_operator opts o Emitter.init).text := by
  unfold emit_operator
  simp only [Emitter.init]
  repeat' split
  all_goals simp [put_text]

theorem emit_literal_text (opts : CodegenOptions) (args : List NodeArg) (E : Emitter) :
    (emit_literal opts args E).text = E.text ++ (emit_literal opts args Emitter.init).text := by
  unfold emit_literal
  simp only [Emitter.init]
  repeat' split
  all_goals simp [put_text]

/-- The loop of the `PROG` case appends the code of the children in order. -/
theorem emit_stmts_text (opts : CodegenOptions) (args : List NodeArg)
    (ih : ∀ a ∈ args, ∀ n, a.node = some n →
      ∀ E, (emit_expr opts n E).text = E.text ++ code opts n) :
    ∀ E, (emit_stmts opts args E).text = E.text ++ (emit_stmts opts args Emitter.init).text := by
  induction args with
  | nil => intro E; simp [emit_stmts, Emitter.init]
  | cons a rest ihr =>
    intro E
    have ih' := ihr (fun b hb => ih b (List.mem_cons_of_mem _ hb))
    match a with
    | .mk _ none => simpa [emit_stmts] using ih' E
    | .mk _ (some n) =>
      have hn := ih _ (List.mem_cons_self _ _) n rfl
      simp only [emit_stmts]
      rw [ih' (emit_expr opts n E), ih' (emit_expr opts n Emitter.init), hn E, hn Emitter.init]
      simp [Emitter.init]

/-- What `emit_expr` appends to the instruction stream does not depend on the
emitter it is run in: it is `code opts node`. -/
theorem emit_expr_text (opts : CodegenOptions) (node : AstNode) :
    ∀ E, (emit_expr opts node E).text = E.text ++ code opts node := by
  induction node using AstNode_induct with
  | h t args ih =>
    intro E
    cases t with
    | LITERAL =>
      simp only [code, emit_expr_literal]
      exact emit_literal_text opts args E
    | PROG =>
      simp only [code, emit_expr_prog]
      exact emit_stmts_text opts args ih E
    | BINOP =>
      simp only [code, emit_expr_binop]
      cases hp : binop_parts args with
      | none => simp [put_text, Emitter.init]
      | some p =>
        obtain ⟨l, op, r⟩ := p
        obtain ⟨⟨a, ha, hl⟩, ⟨b, hb, hr⟩⟩ := binop_parts_mem hp
        have h1 := ih a ha l hl
        have h2 := ih b hb r hr
        simp only []
        rw [emit_operator_text, put_text, h2, put_text, h1]
        rw [emit_operator_text opts op.value (Emitter.put _ _), put_text, h2 (Emitter.put _ _),
          put_text, h1 Emitter.init]
        simp [Emitter.init]
    | ASSIGN =>
      simp only [code, emit_expr_assign]
      cases hp : assign_parts args with
      | none => simp [put_text, Emitter.init]
      | some p =>
        obtain ⟨id, rhs⟩ := p
        obtain ⟨a, ha, hr⟩ := assign_parts_mem hp
        have h1 := ih a ha rhs hr
        simp only []
        rw [put_text, h1, declare_var_text, put_text, h1 (declare_var _ _ _), declare_var_text]
        simp [Emitter.init]

/-! ## Two's-complement arithmetic -/

theorem wrap_cast (k : Nat) (i : Int) : ((wrap k i : Nat) : Int) = i % 2 ^ k := by
  unfold wrap
  exact Int.toNat_of_nonneg (Int.emod_nonneg _ (by positivity))

theorem wrap_lt (k : Nat) (i : Int) : wrap k i < 2 ^ k := by
  have h : ((wrap k i : Nat) : Int) < ((2 ^ k : Nat) : Int) := by
    rw [wrap_cast]
    push_cast
    exact Int.emod_lt_of_pos _ (by positivity)
  exact Int.ofNat_lt.1 h

theorem wrap_natCast (k n : Nat) : wrap k (n : Int) = n % 2 ^ k := by
  apply Int.ofNat.inj
  show ((wrap k (n : Int) : Nat) : Int) = ((n % 2 ^ k : Nat) : Int)
  rw [wrap_cast]
  push_cast
  rfl

theorem wrap_congr {k : Nat} {a b : Int} (h : a % 2 ^ k = b % 2 ^ k) : wrap k a = wrap k b := by
  unfold wrap
  rw [h]

theorem to_signed_emod (k n : Nat) : to_signed k n % 2 ^ k = (n : Int) % 2 ^ k := by
  unfold to_signed
  split
  · rfl
  · rw [Int.sub_eq_add_neg]
    exact Int.add_neg_emod_self _ _

theorem wrap_to_signed {k n : Nat} (h : n < 2 ^ k) : wrap k (to_signed k n) = n := by
  rw [wrap_congr (to_signed_emod k n), wrap_natCast, Nat.mod_eq_of_lt h]

theorem to_signed_range {k n : Nat} (hk : 1 ≤ k) (h : n < 2 ^ k) :
    -(2 ^ (k - 1) : Int) ≤ to_signed k n ∧ to_signed k n < 2 ^ (k - 1) := by
  have hp : (2 : Int) ^ k = 2 * 2 ^ (k - 1) := by
    obtain ⟨j, rfl⟩ : ∃ j, k = j + 1 := ⟨k - 1, by omega⟩
    simp [pow_succ, mul_comm]
  have hn : (n : Int) < 2 ^ k := by exact_mod_cast h
  unfold to_signed
  split
  · rename_i h1
    have : (n : Int) < 2 ^ (k - 1) := by exact_mod_cast h1
    constructor
    · have : (0 : Int) ≤ n := Int.ofNat_nonneg n
      have : (0 : Int) < 2 ^ (k - 1) := by positivity
      omega
    · assumption
  · rename_i h1
    have : (2 : Int) ^ (k - 1) ≤ n := by
      have := Nat.le_of_not_lt h1
      exact_mod_cast this
    constructor <;> omega

theorem wrap_add (k : Nat) (a b : Int) : wrap k (a + b) = (wrap k a + wrap k b) % 2 ^ k := by
  apply Int.ofNat.inj
  show ((wrap k (a + b) : Nat) : Int) = (((wrap k a + wrap k b) % 2 ^ k : Nat) : Int)
  push_cast
  rw [wrap_cast, wrap_cast, wrap_cast, Int.emod_add_emod, Int.add_emod_emod]

theorem wrap_mul (k : Nat) (a b : Int) : wrap k (a * b) = (wrap k a * wrap k b) % 2 ^ k := by
  apply Int.ofNat.inj
  show ((wrap k (a * b) : Nat) : Int) = (((wrap k a * wrap k b) % 2 ^ k : Nat) : Int)
  push_cast
  rw [wrap_cast, wrap_cast, wrap_cast, ← Int.mul_emod]

theorem wrap_sub (k : Nat) (a b : Int) :
    wrap k (a - b) = (wrap k a + 2 ^ k - wrap k b) % 2 ^ k := by
  have hb := wrap_lt k b
  apply Int.ofNat.inj
  show ((wrap k (a - b) : Nat) : Int) = (((wrap k a + 2 ^ k - wrap k b) % 2 ^ k : Nat) : Int)
  rw [Int.natCast_mod, Nat.cast_sub (by omega)]
  push_cast
  rw [wrap_cast, wrap_cast, wrap_cast]
  have : a % 2 ^ k + 2 ^ k - b % 2 ^ k = (a % 2 ^ k - b % 2 ^ k) + 2 ^ k := by ring
  rw [this, Int.add_emod_self, ← Int.sub_emod]

/-- The quotient of two `k`-bit signed numbers fits in `k` bits unless the
divisor is zero or the division is `-2^(k-1) / -1`. -/
theorem tdiv_range {k : Nat} {a b : Int} (ha1 : -(2 ^ (k - 1) : Int) ≤ a)
    (ha2 : a < 2 ^ (k - 1)) (hb : b ≠ 0) (hov : ¬(a = -(2 ^ (k - 1) : Int) ∧ b = -1)) :
    -(2 ^ (k - 1) : Int) ≤ Int.tdiv a b ∧ Int.tdiv a b < 2 ^ (k - 1) := by
  have hq : (Int.tdiv a b).natAbs = a.natAbs / b.natAbs := Int.natAbs_tdiv a b
  have hbpos : 0 < b.natAbs := Int.natAbs_pos.2 hb
  have hle : (Int.tdiv a b).natAbs ≤ a.natAbs := by rw [hq]; exact Nat.div_le_self _ _
  have hP : (0 : Int) < 2 ^ (k - 1) := by positivity
  have haabs : (a.natAbs : Int) ≤ 2 ^ (k - 1) := by omega
  have hqabs : ((Int.tdiv a b).natAbs : Int) ≤ 2 ^ (k - 1) := by
    have : ((Int.tdiv a b).natAbs : Int) ≤ (a.natAbs : Int) := by exact_mod_cast hle
    omega
  refine ⟨by omega, ?_⟩
  by_contra hcon
  have hq2 : (2 : Int) ^ (k - 1) ≤ Int.tdiv a b := by omega
  have hqeq : ((Int.tdiv a b).natAbs : Int) = 2 ^ (k - 1) := by omega
  have haeq : (a.natAbs : Int) = 2 ^ (k - 1) := by
    have : ((Int.tdiv a b).natAbs : Int) ≤ (a.natAbs : Int) := by exact_mod_cast hle
    omega
  have ha : a = -(2 ^ (k - 1) : Int) := by omega
  have hb1 : b.natAbs = 1 := by
    by_contra hne
    have h2 : 2 ≤ b.natAbs := by omega
    have hapos : 0 < a.natAbs := by
      have : (0 : Int) < (a.natAbs : Int) := by omega
      exact_mod_cast this
    have : a.natAbs / b.natAbs < a.natAbs := Nat.div_lt_self hapos h2
    have hh : ((Int.tdiv a b).natAbs : Int) < (a.natAbs : Int) := by
      rw [hq]; exact_mod_cast this
    omega
  have hbcases : b = 1 ∨ b = -1 := by omega
  rcases hbcases with h1 | h1
  · rw [h1, Int.tdiv_one] at hq2
    omega
  · exact hov ⟨ha, h1⟩

/-- After `cqo`/`cdq` the double-width dividend is the accumulator, sign extended. -/
theorem sign_extend_dividend {k a : Nat} (hk : 1 ≤ k) (ha : a < 2 ^ k) :
    to_signed (2 * k) ((if 2 ^ (k - 1) ≤ a then 2 ^ k - 1 else 0) * 2 ^ k + a) =
      to_signed k a := by
  have hp : 2 ^ k = 2 * 2 ^ (k - 1) := by
    obtain ⟨j, rfl⟩ : ∃ j, k = j + 1 := ⟨k - 1, by omega⟩
    simp [pow_succ, mul_comm]
  have hp2 : 2 ^ (2 * k - 1) = 2 ^ k * 2 ^ (k - 1) := by
    rw [← pow_add]
    congr 1
    omega
  have hp3 : 2 ^ (2 * k) = 2 ^ k * 2 ^ k := by
    rw [← pow_add]
    congr 1
    omega
  have hpos : 0 < 2 ^ (k - 1) := by positivity
  unfold to_signed
  by_cases h : 2 ^ (k - 1) ≤ a
  · have h1 : ¬ a < 2 ^ (k - 1) := by omega
    have h2 : ¬ ((2 ^ k - 1) * 2 ^ k + a < 2 ^ (2 * k - 1)) := by
      rw [hp2]
      have : 2 ^ k * 2 ^ (k - 1) ≤ (2 ^ k - 1) * 2 ^ k := by
        rw [mul_comm (2 ^ k - 1)]
        apply Nat.mul_le_mul_left
        omega
      omega
    simp only [h, if_true, h1, if_false, h2]
    have h3 : (2 ^ k - 1) * 2 ^ k + 2 ^ k = 2 ^ (2 * k) := by
      rw [hp3]
      have : 2 ^ k - 1 + 1 = 2 ^ k := by omega
      calc (2 ^ k - 1) * 2 ^ k + 2 ^ k = (2 ^ k - 1 + 1) * 2 ^ k := by ring
        _ = 2 ^ k * 2 ^ k := by rw [this]
    have h4 : (((2 ^ k - 1) * 2 ^ k + 2 ^ k : Nat) : Int) = ((2 ^ (2 * k) : Nat) : Int) := by
      rw [h3]
    push_cast at h4 ⊢
    omega
  · have h1 : a < 2 ^ (k - 1) := by omega
    have h2 : 0 * 2 ^ k + a < 2 ^ (2 * k - 1) := by
      rw [hp2, Nat.zero_mul, Nat.zero_add]
      calc a < 2 ^ (k - 1) := h1
        _ ≤ 2 ^ k * 2 ^ (k - 1) := Nat.le_mul_of_pos_left _ (by positivity)
    simp only [h, if_false, h1, if_true, h2]
    simp

/-- Wrapping an integer of the signed `k`-bit range and reading it back is the identity. -/
theorem to_signed_wrap {k : Nat} {i : Int} (hk : 1 ≤ k) (h1 : -(2 ^ (k - 1) : Int) ≤ i)
    (h2 : i < 2 ^ (k - 1)) : to_signed k (wrap k i) = i := by
  have hp : (2 : Int) ^ k = 2 * 2 ^ (k - 1) := by
    obtain ⟨j, rfl⟩ : ∃ j, k = j + 1 := ⟨k - 1, by omega⟩
    simp [pow_succ, mul_comm]
  have hpos : (0 : Int) < 2 ^ (k - 1) := by positivity
  have hc := wrap_cast k i
  unfold to_signed
  by_cases hi : 0 ≤ i
  · have e : i % 2 ^ k = i := Int.emod_eq_of_lt hi (by omega)
    rw [e] at hc
    have hlt : wrap k i < 2 ^ (k - 1) := by
      have : ((wrap k i : Nat) : Int) < ((2 ^ (k - 1) : Nat) : Int) := by
        push_cast
        omega
      exact Int.ofNat_lt.1 this
    simp only [hlt, if_true]
    exact hc
  · have e : i % 2 ^ k = i + 2 ^ k := by
      rw [← Int.add_emod_self (a := i) (b := 2 ^ k)]
      exact Int.emod_eq_of_lt (by omega) (by omega)
    rw [e] at hc
    have hge : ¬ wrap k i < 2 ^ (k - 1) := by
      intro hlt
      have : ((wrap k i : Nat) : Int) < ((2 ^ (k - 1) : Nat) : Int) := by exact_mod_cast hlt
      push_cast at this
      omega
    simp only [hge, if_false]
    omega

/-- The truncated remainder lies between zero and the dividend. -/
theorem tmod_between (a b : Int) :
    (0 ≤ a → 0 ≤ Int.tmod a b ∧ Int.tmod a b ≤ a) ∧
    (a ≤ 0 → a ≤ Int.tmod a b ∧ Int.tmod a b ≤ 0) := by
  rcases a with m | m <;> rcases b with n | n
  · have h := Nat.mod_le m n
    have e : Int.tmod (Int.ofNat m) (Int.ofNat n) = ((m % n : Nat) : Int) := rfl
    have e1 : Int.ofNat m = (m : Int) := rfl
    rw [e, e1]
    omega
  · have h := Nat.mod_le m (n + 1)
    have e : Int.tmod (Int.ofNat m) (Int.negSucc n) = ((m % (n + 1) : Nat) : Int) := rfl
    have e1 : Int.ofNat m = (m : Int) := rfl
    rw [e, e1]
    omega
  · have h := Nat.mod_le (m + 1) n
    have e : Int.tmod (Int.negSucc m) (Int.ofNat n) = -(((m + 1) % n : Nat) : Int) := rfl
    have e1 : Int.negSucc m = -((m : Int) + 1) := rfl
    rw [e, e1]
    omega
  · have h := Nat.mod_le (m + 1) (n + 1)
    have e : Int.tmod (Int.negSucc m) (Int.negSucc n) = -(((m + 1) % (n + 1) : Nat) : Int) := rfl
    have e1 : Int.negSucc m = -((m : Int) + 1) := rfl
    rw [e, e1]
    omega

theorem tmod_range {k : Nat} {a : Int} (b : Int) (ha1 : -(2 ^ (k - 1) : Int) ≤ a)
    (ha2 : a < 2 ^ (k - 1)) :
    -(2 ^ (k - 1) : Int) ≤ Int.tmod a b ∧ Int.tmod a b < 2 ^ (k - 1) := by
  have hpos : (0 : Int) < 2 ^ (k - 1) := by positivity
  have h := tmod_between a b
  by_cases h0 : 0 ≤ a
  · have := h.1 h0
    constructor <;> omega
  · have := h.2 (by omega)
    constructor <;> omega

/-! ## Execution of the emitted instructions, one at a time -/

theorem operator_code_add (opts : CodegenOptions) :
    operator_code opts "+" = [.add (.reg (areg opts .rax)) (.reg (areg opts .rbx))] := by
  obtain ⟨arch, os⟩ := opts
  cases arch <;> rfl

theorem operator_code_sub (opts : CodegenOptions) :
    operator_code opts "-" =
      [.mov (.reg (areg opts .rcx)) (.reg (areg opts .rax)),
        .mov (.reg (areg opts .rax)) (.reg (areg opts .rbx)),
        .sub (.reg (areg opts .rax)) (.reg (areg opts .rcx))] := by
  obtain ⟨arch, os⟩ := opts
  cases arch <;> rfl

theorem operator_code_mul (opts : CodegenOptions) :
    operator_code opts "*" = [.imul (.reg (areg opts .rax)) (.reg (areg opts .rbx))] := by
  obtain ⟨arch, os⟩ := opts
  cases arch <;> rfl

theorem operator_code_div (opts : CodegenOptions) :
    operator_code opts "/" =
      [.mov (.reg (areg opts .rcx)) (.reg (areg opts .rax)),
        .mov (.reg (areg opts .rax)) (.reg (areg opts .rbx)),
        sext opts, .idiv (.reg (areg opts .rcx))] := by
  obtain ⟨arch, os⟩ := opts
  cases arch <;> rfl

theorem operator_code_mod (opts : CodegenOptions) :
    operator_code opts "%" =
      [.mov (.reg (areg opts .rcx)) (.reg (areg opts .rax)),
        .mov (.reg (areg opts .rax)) (.reg (areg opts .rbx)),
        sext opts, .idiv (.reg (areg opts .rcx)),
        .mov (.reg (areg opts .rax)) (.reg (areg opts .rdx))] := by
  obtain ⟨arch, os⟩ := opts
  cases arch <;> rfl

theorem word_bits_pos (opts : CodegenOptions) : 1 ≤ word_bits opts := by
  obtain ⟨arch, os⟩ := opts
  cases arch <;> simp [word_bits, is64]

theorem exec_push_acc (opts : CodegenOptions) (m : Machine) :
    exec_instr (word_bits opts) (push_acc opts) m =
      some { m with stack := (m.rax % 2 ^ word_bits opts) :: m.stack } := by
  obtain ⟨arch, os⟩ := opts
  cases arch <;> rfl

theorem exec_pop_left (opts : CodegenOptions) (m : Machine) :
    exec_instr (word_bits opts) (pop_left opts) m =
      match m.stack with
      | [] => none
      | v :: rest => some { m with stack := rest, rbx := v % 2 ^ word_bits opts } := by
  obtain ⟨arch, os⟩ := opts
  cases arch <;> cases h : m.stack <;> simp [exec_instr, exec_pop, pop_left, is64, word_bits, h,
    Reg.bits, Machine.write, Reg.slot, Machine.set]

theorem exec_store_acc (opts : CodegenOptions) (x : String) (m : Machine) (old : Nat)
    (hx : is_reserved_name x = false) (hm : m.mem x = some old) :
    exec_instr (word_bits opts) (store_acc opts x) m =
      some { m with
        mem := fun y => if y = x then some (m.rax % 2 ^ word_bits opts) else m.mem y } := by
  obtain ⟨arch, os⟩ := opts
  cases arch <;>
    simp [exec_instr, exec_mov, store_acc, is64, word_bits, Reg.bits, hx, hm, Machine.read,
      Reg.slot, Machine.get]

theorem exec_zero_acc (opts : CodegenOptions) (m : Machine) :
    exec_instr (word_bits opts) (zero_acc opts) m = some { m with rax := 0 } := by
  have hx : ∀ n : Nat, Nat.xor n n = 0 := fun n => Nat.xor_self n
  obtain ⟨arch, os⟩ := opts
  cases arch <;> simp [exec_instr, exec_alu, zero_acc, is64, word_bits, Reg.bits, Machine.read,
    Machine.write, Reg.slot, Machine.set, Machine.get, hx]

theorem exec_mov_cx_ax (opts : CodegenOptions) (m : Machine) :
    exec_instr (word_bits opts) (.mov (.reg (areg opts .rcx)) (.reg (areg opts .rax))) m =
      some { m with rcx := m.rax % 2 ^ word_bits opts % 2 ^ word_bits opts } := by
  obtain ⟨arch, os⟩ := opts
  cases arch <;> rfl

theorem exec_mov_ax_bx (opts : CodegenOptions) (m : Machine) :
    exec_instr (word_bits opts) (.mov (.reg (areg opts .rax)) (.reg (areg opts .rbx))) m =
      some { m with rax := m.rbx % 2 ^ word_bits opts % 2 ^ word_bits opts } := by
  obtain ⟨arch, os⟩ := opts
  cases arch <;> rfl

theorem exec_mov_ax_dx (opts : CodegenOptions) (m : Machine) :
    exec_instr (word_bits opts) (.mov (.reg (areg opts .rax)) (.reg (areg opts .rdx))) m =
      some { m with rax := m.rdx % 2 ^ word_bits opts % 2 ^ word_bits opts } := by
  obtain ⟨arch, os⟩ := opts
  cases arch <;> rfl

theorem exec_add_ax_bx (opts : CodegenOptions) (m : Machine) :
    exec_instr (word_bits opts) (.add (.reg (areg opts .rax)) (.reg (areg opts .rbx))) m =
      some { m with rax := (m.rax % 2 ^ word_bits opts + m.rbx % 2 ^ word_bits opts) %
        2 ^ word_bits opts % 2 ^ word_bits opts } := by
  obtain ⟨arch, os⟩ := opts
  cases arch <;> rfl

theorem exec_sub_ax_cx (opts : CodegenOptions) (m : Machine) :
    exec_instr (word_bits opts) (.sub (.reg (areg opts .rax)) (.reg (areg opts .rcx))) m =
      some { m with rax := (m.rax % 2 ^ word_bits opts + 2 ^ word_bits opts -
        m.rcx % 2 ^ word_bits opts) % 2 ^ word_bits opts % 2 ^ word_bits opts } := by
  obtain ⟨arch, os⟩ := opts
  cases arch <;> rfl

theorem exec_imul_ax_bx (opts : CodegenOptions) (m : Machine) :
    exec_instr (word_bits opts) (.imul (.reg (areg opts .rax)) (.reg (areg opts .rbx))) m =
      some { m with rax := (m.rax % 2 ^ word_bits opts * (m.rbx % 2 ^ word_bits opts)) %
        2 ^ word_bits opts % 2 ^ word_bits opts } := by
  obtain ⟨arch, os⟩ := opts
  cases arch <;> rfl

theorem exec_sext (opts : CodegenOptions) (m : Machine) :
    exec_instr (word_bits opts) (sext opts) m =
      some { m with rdx := if 2 ^ (word_bits opts - 1) ≤ m.rax % 2 ^ word_bits opts
        then 2 ^ word_bits opts - 1 else 0 } := by
  obtain ⟨arch, os⟩ := opts
  cases arch <;> rfl

theorem exec_idiv_cx (opts : CodegenOptions) (m : Machine) :
    exec_instr (word_bits opts) (.idiv (.reg (areg opts .rcx))) m =
      if word_bits opts ≤ word_bits opts ∧
          to_signed (word_bits opts) (m.rcx % 2 ^ word_bits opts) ≠ 0 ∧
          -(2 ^ (word_bits opts - 1) : Int) ≤
            Int.tdiv (to_signed (2 * word_bits opts)
              ((m.rdx % 2 ^ word_bits opts) * 2 ^ word_bits opts + m.rax % 2 ^ word_bits opts))
              (to_signed (word_bits opts) (m.rcx % 2 ^ word_bits opts)) ∧
          Int.tdiv (to_signed (2 * word_bits opts)
              ((m.rdx % 2 ^ word_bits opts) * 2 ^ word_bits opts + m.rax % 2 ^ word_bits opts))
              (to_signed (word_bits opts) (m.rcx % 2 ^ word_bits opts)) <
            2 ^ (word_bits opts - 1) then
        some { m with
          rax := wrap (word_bits opts) (Int.tdiv (to_signed (2 * word_bits opts)
              ((m.rdx % 2 ^ word_bits opts) * 2 ^ word_bits opts + m.rax % 2 ^ word_bits opts))
              (to_signed (word_bits opts) (m.rcx % 2 ^ word_bits opts)))
          rdx := wrap (word_bits opts) (Int.tmod (to_signed (2 * word_bits opts)
              ((m.rdx % 2 ^ word_bits opts) * 2 ^ word_bits opts + m.rax % 2 ^ word_bits opts))
              (to_signed (word_bits opts) (m.rcx % 2 ^ word_bits opts))) }
      else none := by
  obtain ⟨arch, os⟩ := opts
  cases arch <;> rfl

theorem exec_list_append (w : Nat) (a b : List Instr) (m : Machine) :
    exec_list w (a ++ b) m =
      match exec_list w a m with
      | some m1 => exec_list w b m1
      | none => none := by
  induction a generalizing m with
  | nil => rfl
  | cons i rest ih =>
    simp only [List.cons_append, exec_list]
    cases exec_instr w i m with
    | none => rfl
    | some m1 => exact ih m1

/-! ## Correctness of the operator code -/

theorem sext_mod (k a : Nat) :
    (if 2 ^ (k - 1) ≤ a then 2 ^ k - 1 else 0) % 2 ^ k =
      (if 2 ^ (k - 1) ≤ a then 2 ^ k - 1 else 0) := by
  have : 0 < 2 ^ k := by positivity
  apply Nat.mod_eq_of_lt
  split <;> omega

/-- The operator code computes `spec_eval_operator` of the saved left operand (in
`rbx`) and the right operand (in the accumulator), and keeps the stack, the
storage slots and the frame pointer. -/
theorem exec_operator_code (opts : CodegenOptions) (o : String) (m : Machine) (lv rv v : Nat)
    (hl : lv < 2 ^ word_bits opts) (hr : rv < 2 ^ word_bits opts)
    (hax : m.rax = rv) (hbx : m.rbx = lv)
    (h : spec_eval_operator (word_bits opts) o lv rv = some v) :
    ∃ m', exec_list (word_bits opts) (operator_code opts o) m = some m' ∧ m'.rax = v ∧
      m'.stack = m.stack ∧ m'.mem = m.mem ∧ m'.rbp = m.rbp := by
  have hw := word_bits_pos opts
  unfold spec_eval_operator at h
  by_cases h1 : o = "+"
  · subst h1
    simp only [if_true, Option.some.injEq] at h
    rw [operator_code_add]
    simp only [exec_list, exec_add_ax_bx]
    refine ⟨_, rfl, ?_, rfl, rfl, rfl⟩
    simp only [hax, hbx, Nat.mod_mod, Nat.mod_eq_of_lt hl, Nat.mod_eq_of_lt hr]
    rw [← h, wrap_add, wrap_to_signed hl, wrap_to_signed hr, Nat.add_comm]
  · by_cases h2 : o = "-"
    · subst h2
      simp only [h1, if_false, if_true, Option.some.injEq] at h
      rw [operator_code_sub]
      simp only [exec_list, exec_mov_cx_ax, exec_mov_ax_bx, exec_sub_ax_cx]
      refine ⟨_, rfl, ?_, rfl, rfl, rfl⟩
      simp only [hax, hbx, Nat.mod_mod, Nat.mod_eq_of_lt hl, Nat.mod_eq_of_lt hr]
      rw [← h, wrap_sub, wrap_to_signed hl, wrap_to_signed hr]
    · by_cases h3 : o = "*"
      · subst h3
        simp only [h1, h2, if_false, if_true, Option.some.injEq] at h
        rw [operator_code_mul]
        simp only [exec_list, exec_imul_ax_bx]
        refine ⟨_, rfl, ?_, rfl, rfl, rfl⟩
        simp only [hax, hbx, Nat.mod_mod, Nat.mod_eq_of_lt hl, Nat.mod_eq_of_lt hr]
        rw [← h, wrap_mul, wrap_to_signed hl, wrap_to_signed hr, Nat.mul_comm]
      · simp only [h1, h2, h3, if_false] at h
        by_cases h4 : o = "/" ∨ o = "%"
        · simp only [h4, if_true] at h
          by_cases hz : to_signed (word_bits opts) rv = 0
          · simp [hz] at h
          · simp only [hz, if_false] at h
            by_cases hov : to_signed (word_bits opts) lv = -(2 ^ (word_bits opts - 1) : Int) ∧
                to_signed (word_bits opts) rv = -1
            · simp [hov] at h
            · simp only [hov, if_false] at h
              have hrange := tdiv_range (to_signed_range hw hl).1 (to_signed_range hw hl).2 hz hov
              have hdiv := sign_extend_dividend hw hl
              have hcond : word_bits opts ≤ word_bits opts ∧
                  to_signed (word_bits opts) rv ≠ 0 ∧
                  -(2 ^ (word_bits opts - 1) : Int) ≤
                    Int.tdiv (to_signed (word_bits opts) lv) (to_signed (word_bits opts) rv) ∧
                  Int.tdiv (to_signed (word_bits opts) lv) (to_signed (word_bits opts) rv) <
                    2 ^ (word_bits opts - 1) := ⟨le_refl _, hz, hrange.1, hrange.2⟩
              rcases h4 with h4 | h4
              · subst h4
                simp only [if_true, Option.some.injEq] at h
                rw [operator_code_div]
                simp only [exec_list, exec_mov_cx_ax, exec_mov_ax_bx, exec_sext, exec_idiv_cx,
                  hax, hbx, Nat.mod_mod, Nat.mod_eq_of_lt hl, Nat.mod_eq_of_lt hr, sext_mod,
                  hdiv, hcond, hz, ne_eq, not_false_eq_true, and_self, and_true, true_and, if_true]
                exact ⟨_, rfl, h, rfl, rfl, rfl⟩
              · subst h4
                simp only [(by decide : ¬ ("%" = "/")), if_false, Option.some.injEq] at h
                rw [operator_code_mod]
                simp only [exec_list, exec_mov_cx_ax, exec_mov_ax_bx, exec_sext, exec_idiv_cx,
                  exec_mov_ax_dx, hax, hbx, Nat.mod_mod, Nat.mod_eq_of_lt hl,
                  Nat.mod_eq_of_lt hr, sext_mod, hdiv, hcond, hz, ne_eq, not_false_eq_true, and_self, and_true, true_and, if_true]
                refine ⟨_, rfl, ?_, rfl, rfl, rfl⟩
                simp only [Nat.mod_eq_of_lt (wrap_lt _ _)]
                rw [← h, Int.tmod_def]
        · simp [h4] at h

/-! ## Correctness of the emitted code -/

/-- The ways in which a tree has a value. -/
theorem eval_node_inv {w : Nat} {node : AstNode} {env : Env} {v : Nat} {env' : Env}
    (h : spec_eval_node w node env = some (v, env')) :
    (∃ tk n, node = literal_of tk ∧ tk.t_type = token_t.NUMBERLITERAL ∧
      parse_decimal tk.value = some n ∧ v = n % 2 ^ w ∧ env' = env) ∨
    (∃ tk n, node = literal_of tk ∧ tk.t_type = token_t.IDENTIFIER ∧
      is_reserved_name tk.value = false ∧ env tk.value = some n ∧
      v = n % 2 ^ w ∧ env' = env) ∨
    (∃ l op r lv rv env1, node = mk_binop l op r ∧ spec_eval_node w l env = some (lv, env1) ∧
      spec_eval_node w r env1 = some (rv, env') ∧ spec_eval_operator w op.value lv rv = some v) ∨
    (∃ id rhs env1 old, node = mk_assign id rhs ∧ id.t_type = token_t.IDENTIFIER ∧
      is_reserved_name id.value = false ∧
      spec_eval_node w rhs env = some (v, env1) ∧ env1 id.value = some old ∧
      env' = fun y => if y = id.value then some v else env1 y) := by
  unfold spec_eval_node at h
  split at h
  · rename_i tk
    by_cases h1 : tk.t_type = token_t.NUMBERLITERAL
    · simp only [h1, beq_self_eq_true, if_true] at h
      cases hp : parse_decimal tk.value with
      | none => simp [hp] at h
      | some n =>
        simp only [hp, Option.some.injEq, Prod.mk.injEq] at h
        exact Or.inl ⟨tk, n, rfl, h1, hp, h.1.symm, h.2.symm⟩
    · by_cases h2 : tk.t_type = token_t.IDENTIFIER
      · simp only [h2, beq_self_eq_true, if_true] at h
        simp only [show (token_t.IDENTIFIER == token_t.NUMBERLITERAL) = false from rfl,
          Bool.false_eq_true, if_false] at h
        cases hres : is_reserved_name tk.value with
        | true => simp [hres] at h
        | false =>
          simp only [hres, Bool.false_eq_true, if_false] at h
          cases he : env tk.value with
          | none => simp [he] at h
          | some n =>
            simp only [he, Option.some.injEq, Prod.mk.injEq] at h
            exact Or.inr (Or.inl ⟨tk, n, rfl, h2, hres, he, h.1.symm, h.2.symm⟩)
      · simp [h1, h2] at h
  · rename_i l op r
    cases hl : spec_eval_node w l env with
    | none => simp [hl] at h
    | some p =>
      obtain ⟨lv, env1⟩ := p
      simp only [hl] at h
      cases hr : spec_eval_node w r env1 with
      | none => simp [hr] at h
      | some q =>
        obtain ⟨rv, env2⟩ := q
        simp only [hr] at h
        cases ho : spec_eval_operator w op.value lv rv with
        | none => simp [ho] at h
        | some u =>
          simp only [ho, Option.some.injEq, Prod.mk.injEq] at h
          obtain ⟨h1, h2⟩ := h
          subst h1; subst h2
          exact Or.inr (Or.inr (Or.inl ⟨l, op, r, lv, rv, env1, rfl, hl, hr, ho⟩))
  · rename_i id rhs
    by_cases h1 : id.t_type = token_t.IDENTIFIER
    · cases hres : is_reserved_name id.value with
      | true => simp [hres] at h
      | false =>
        simp only [h1, hres, beq_self_eq_true, Bool.not_false, Bool.and_self, if_true] at h
        cases hr : spec_eval_node w rhs env with
        | none => simp [hr] at h
        | some q =>
          obtain ⟨u, env1⟩ := q
          simp only [hr] at h
          cases he : env1 id.value with
          | none => simp [he] at h
          | some old =>
            simp only [he, Option.some.injEq, Prod.mk.injEq] at h
            obtain ⟨h2, h3⟩ := h
            subst h2
            exact Or.inr (Or.inr (Or.inr ⟨id, rhs, env1, old, rfl, h1, hres, hr, he, h3.symm⟩))
    · simp [h1] at h
  · cases h

theorem eval_operator_lt {w : Nat} {o : String} {l r v : Nat}
    (h : spec_eval_operator w o l r = some v) : v < 2 ^ w := by
  unfold spec_eval_operator at h
  repeat' split at h
  all_goals first
    | (simp only [Option.some.injEq] at h; rw [← h]; exact wrap_lt _ _)
    | cases h

theorem code_mk_binop (opts : CodegenOptions) (l : AstNode) (op : Token) (r : AstNode) :
    code opts (mk_binop l op r) =
      code opts l ++ [push_acc opts] ++ code opts r ++ [pop_left opts] ++
        operator_code opts op.value := by
  have h : binop_parts
      ((new_args (new_arg_node l) ++ [new_arg_token op]) ++ [new_arg_node r]) =
      some (l, op, r) := rfl
  simp only [code, mk_binop, emit_expr_binop, h]
  rw [emit_operator_text, put_text, emit_expr_text, put_text, emit_expr_text]
  simp [operator_code, Emitter.init, code]

theorem code_mk_assign (opts : CodegenOptions) (id : Token) (rhs : AstNode) :
    code opts (mk_assign id rhs) = code opts rhs ++ [store_acc opts id.value] := by
  have h : assign_parts (new_args (new_arg_token id) ++ [new_arg_node rhs]) = some (id, rhs) :=
    rfl
  simp only [code, mk_assign, emit_expr_assign, h]
  rw [put_text, emit_expr_text, declare_var_text]
  simp [Emitter.init, code]

theorem code_literal_num (opts : CodegenOptions) (tk : Token)
    (h : tk.t_type = token_t.NUMBERLITERAL) :
    code opts (literal_of tk) = [.mov (.reg (areg opts .rax)) (.imm tk.value)] := by
  obtain ⟨arch, os⟩ := opts
  cases arch <;>
    simp [code, literal_of, emit_expr_literal, emit_literal, first_token, new_args,
      new_arg_token, h, is64, areg, Reg.narrow, Emitter.init, Emitter.put]

theorem code_literal_ident (opts : CodegenOptions) (tk : Token)
    (h : tk.t_type = token_t.IDENTIFIER) :
    code opts (literal_of tk) = [.mov (.reg (areg opts .rax)) (.mem tk.value)] := by
  obtain ⟨arch, os⟩ := opts
  cases arch <;>
    simp [code, literal_of, emit_expr_literal, emit_literal, first_token, new_args,
      new_arg_token, h, is64, areg, Reg.narrow, Emitter.init, Emitter.put]

theorem exec_load_imm (opts : CodegenOptions) (v : String) (m : Machine) :
    exec_instr (word_bits opts) (.mov (.reg (areg opts .rax)) (.imm v)) m =
      match parse_decimal v with
      | some n => some { m with rax := n % 2 ^ word_bits opts }
      | none => none := by
  obtain ⟨arch, os⟩ := opts
  cases arch <;> cases h : parse_decimal v <;>
    simp [exec_instr, exec_mov, areg, is64, Reg.narrow, word_bits, Reg.bits, h, Machine.write,
      Reg.slot, Machine.set]

theorem exec_load_var (opts : CodegenOptions) (x : String) (m : Machine) (n : Nat)
    (hx : is_reserved_name x = false) (hm : m.mem x = some n) :
    exec_instr (word_bits opts) (.mov (.reg (areg opts .rax)) (.mem x)) m =
      some { m with rax := n % 2 ^ word_bits opts } := by
  obtain ⟨arch, os⟩ := opts
  cases arch <;>
    simp [exec_instr, exec_mov, areg, is64, Reg.narrow, word_bits, Reg.bits, hx, hm,
      Machine.write, Reg.slot, Machine.set]

/-- Compiler correctness: whenever a tree has a value, the code emitted for it
runs without fault from every machine state whose storage slots hold the
environment, leaves that value in the accumulator and the new environment in the
slots, and leaves the stack and the frame pointer as they were. -/
theorem emit_correct (opts : CodegenOptions) (node : AstNode) :
    ∀ (env : Env) (v : Nat) (env' : Env),
      spec_eval_node (word_bits opts) node env = some (v, env') →
      ∀ m : Machine, m.mem = env →
        ∃ m', exec_list (word_bits opts) (code opts node) m = some m' ∧ m'.rax = v ∧
          v < 2 ^ word_bits opts ∧ m'.stack = m.stack ∧ m'.mem = env' ∧ m'.rbp = m.rbp := by
  induction node using AstNode_induct with
  | h t args ih =>
    intro env v env' hev m hm
    have hW : 0 < 2 ^ word_bits opts := by positivity
    rcases eval_node_inv hev with ⟨tk, n, hn, h1, h2, h3, h4⟩ | ⟨tk, n, hn, h1, hres, he, h3, h4⟩ |
      ⟨l, op, r, lv, rv, env1, hn, hl, hr, ho⟩ | ⟨id, rhs, env1, old, hn, h1, hres, hr, he, h4⟩
    · rw [hn, code_literal_num opts tk h1]
      simp only [exec_list, exec_load_imm, h2]
      exact ⟨_, rfl, h3.symm, by rw [h3]; exact Nat.mod_lt _ hW, rfl, by rw [h4]; exact hm, rfl⟩
    · rw [hn, code_literal_ident opts tk h1]
      simp only [exec_list, exec_load_var opts tk.value m n hres (by rw [hm]; exact he)]
      exact ⟨_, rfl, by rw [h3], by rw [h3]; exact Nat.mod_lt _ hW, rfl,
        by rw [h4]; exact hm, rfl⟩
    · have hargs : args = [new_arg_node l, new_arg_token op, new_arg_node r] := by
        simp only [mk_binop, new_args, AstNode.mk.injEq] at hn
        simpa using hn.2
      have ihl := ih (new_arg_node l) (by rw [hargs]; simp) l rfl
      have ihr := ih (new_arg_node r) (by rw [hargs]; simp) r rfl
      obtain ⟨m1, e1, a1, b1, s1, q1, p1⟩ := ihl env lv env1 hl m hm
      have e2 := exec_push_acc opts m1
      obtain ⟨m3, e3, a3, b3, s3, q3, p3⟩ := ihr env1 rv env' hr
        { m1 with stack := (m1.rax % 2 ^ word_bits opts) :: m1.stack } q1
      have e4 := exec_pop_left opts m3
      rw [s3] at e4
      simp only [] at e4
      obtain ⟨m5, e5, a5, s5, q5, p5⟩ := exec_operator_code opts op.value
        { m3 with stack := m1.stack, rbx := m1.rax % 2 ^ word_bits opts % 2 ^ word_bits opts }
        lv rv v b1 b3 a3 (by simp only [a1, Nat.mod_mod, Nat.mod_eq_of_lt b1]) ho
      refine ⟨m5, ?_, a5, eval_operator_lt ho, ?_, ?_, ?_⟩
      · rw [hn, code_mk_binop]
        simp only [exec_list_append, e1, exec_list, e2, e3, e4, e5]
      · rw [s5]; exact s1
      · rw [q5]; exact q3
      · rw [p5]; exact p3.trans p1
    · have hargs : args = [new_arg_token id, new_arg_node rhs] := by
        simp only [mk_assign, new_args, AstNode.mk.injEq] at hn
        simpa using hn.2
      have ihr := ih (new_arg_node rhs) (by rw [hargs]; simp) rhs rfl
      obtain ⟨m1, e1, a1, b1, s1, q1, p1⟩ := ihr env v env1 hr m hm
      refine ⟨{ m1 with mem :=
          (fun y => if y = id.value then some (m1.rax % 2 ^ word_bits opts) else m1.mem y) },
        ?_, ?_, b1, ?_, ?_, ?_⟩
      · rw [hn, code_mk_assign]
        simp only [exec_list_append, e1, exec_list,
          exec_store_acc opts id.value m1 old hres (by rw [q1]; exact he)]
      · exact a1
      · exact s1
      · rw [h4]
        funext y
        simp only [a1, q1, Nat.mod_eq_of_lt b1]
      · exact p1

/-! ## Values of arithmetic trees -/

theorem to_signed_wrap_emod (k : Nat) (a : Int) : to_signed k (wrap k a) % 2 ^ k = a % 2 ^ k := by
  rw [to_signed_emod, wrap_cast, Int.emod_emod]

theorem eval_literal_num (w : Nat) (tk : Token) (n : Nat) (env : Env)
    (h1 : tk.t_type = token_t.NUMBERLITERAL) (h2 : parse_decimal tk.value = some n) :
    spec_eval_node w (literal_of tk) env = some (n % 2 ^ w, env) := by
  simp [literal_of, new_args, new_arg_token, spec_eval_node, h1, h2]

theorem eval_mk_binop (w : Nat) (l : AstNode) (op : Token) (r : AstNode) (env : Env) :
    spec_eval_node w (mk_binop l op r) env =
      match spec_eval_node w l env with
      | none => none
      | some (lv, env1) =>
        match spec_eval_node w r env1 with
        | none => none
        | some (rv, env2) =>
          match spec_eval_operator w op.value lv rv with
          | some v => some (v, env2)
          | none => none := by
  simp only [mk_binop, new_args, new_arg_node, new_arg_token, List.cons_append, List.nil_append]
  rw [spec_eval_node]

/-- The shapes of arithmetic trees. -/
theorem is_arith_tree_inv {node : AstNode} (h : is_arith_tree node = true) :
    (∃ tk n, node = literal_of tk ∧ tk.t_type = token_t.NUMBERLITERAL ∧
      parse_decimal tk.value = some n) ∨
    (∃ l op r, node = mk_binop l op r ∧
      (op.value = "+" ∨ op.value = "-" ∨ op.value = "*") ∧
      is_arith_tree l = true ∧ is_arith_tree r = true) := by
  unfold is_arith_tree at h
  split at h
  · rename_i tk
    simp only [Bool.and_eq_true, beq_iff_eq, Option.isSome_iff_exists] at h
    obtain ⟨h1, n, h2⟩ := h
    exact Or.inl ⟨tk, n, rfl, h1, h2⟩
  · rename_i l op r
    simp only [Bool.and_eq_true, Bool.or_eq_true, beq_iff_eq] at h
    exact Or.inr ⟨l, op, r, rfl, by tauto, h.1.2, h.2⟩
  · cases h

theorem int_value_literal (tk : Token) (n : Nat) (h : parse_decimal tk.value = some n) :
    spec_int_value (literal_of tk) = n := by
  simp [literal_of, new_args, new_arg_token, spec_int_value, h]

theorem int_value_mk_binop (l : AstNode) (op : Token) (r : AstNode) :
    spec_int_value (mk_binop l op r) =
      if op.value = "+" then spec_int_value l + spec_int_value r
      else if op.value = "-" then spec_int_value l - spec_int_value r
      else if op.value = "*" then spec_int_value l * spec_int_value r
      else 0 := by
  simp only [mk_binop, new_args, new_arg_node, new_arg_token, List.cons_append, List.nil_append]
  rw [spec_int_value]

/-- On an arithmetic tree the reference semantics is the integer value of the
tree reduced modulo `2 ^ w`, and the storage slots are not touched. -/
theorem eval_arith_tree (w : Nat) (node : AstNode) :
    is_arith_tree node = true → ∀ env : Env,
      spec_eval_node w node env = some (wrap w (spec_int_value node), env) := by
  induction node using AstNode_induct with
  | h t args ih =>
    intro h env
    rcases is_arith_tree_inv h with ⟨tk, n, hn, h1, h2⟩ | ⟨l, op, r, hn, hop, hl, hr⟩
    · rw [hn, eval_literal_num w tk n env h1 h2, int_value_literal tk n h2, wrap_natCast]
    · have hargs : args = [new_arg_node l, new_arg_token op, new_arg_node r] := by
        simp only [mk_binop, new_args, AstNode.mk.injEq] at hn
        simpa using hn.2
      have ihl := ih (new_arg_node l) (by rw [hargs]; simp) l rfl hl
      have ihr := ih (new_arg_node r) (by rw [hargs]; simp) r rfl hr
      rw [hn, eval_mk_binop, ihl env, int_value_mk_binop]
      simp only [ihr env]
      have e1 := to_signed_wrap_emod w (spec_int_value l)
      have e2 := to_signed_wrap_emod w (spec_int_value r)
      rcases hop with hop | hop | hop
      · simp only [spec_eval_operator, hop, if_true]
        congr 2
        apply wrap_congr
        rw [Int.add_emod, e1, e2, ← Int.add_emod]
      · simp only [spec_eval_operator, hop, (by decide : ¬ ("-" = "+")), if_false, if_true]
        congr 2
        apply wrap_congr
        rw [Int.sub_emod, e1, e2, ← Int.sub_emod]
      · simp only [spec_eval_operator, hop, (by decide : ¬ ("*" = "+")),
          (by decide : ¬ ("*" = "-")), if_false, if_true]
        congr 2
        apply wrap_congr
        rw [Int.mul_emod, e1, e2, ← Int.mul_emod]

/-! ## The whole routine: prologue, body, epilogue -/

theorem code_of_append (a b : List AsmLine) : code_of (a ++ b) = code_of a ++ code_of b := by
  induction a with
  | nil => rfl
  | cons x rest ih =>
    cases x with
    | raw s => simpa [code_of] using ih
    | ins indent i => simp [code_of, ih]

theorem code_of_map_ins (indent : String) (l : List Instr) :
    code_of (l.map (AsmLine.ins indent)) = l := by
  induction l with
  | nil => rfl
  | cons i rest ih => simp [code_of, ih]

theorem code_of_map_raw (l : List String) : code_of (l.map AsmLine.raw) = [] := by
  induction l with
  | nil => rfl
  | cons s rest ih => simpa [code_of] using ih

theorem declare_all_text (opts : CodegenOptions) (vars : List String) :
    ∀ E : Emitter, (declare_all opts vars E).text = E.text := by
  induction vars with
  | nil => intro E; rfl
  | cons v rest ih => intro E; simp only [declare_all]; rw [ih, declare_var_text]

/-- The body that `generate_asm` places between prologue and epilogue is the code
of the tree. -/
theorem run_emitter_text (ast : AstNode) (opts : CodegenOptions) :
    (run_emitter ast opts).text = code opts ast := by
  unfold run_emitter
  rw [emit_expr_text, declare_all_text]
  rfl

theorem code_of_bss (b : Bool) (l : List String) :
    code_of (if b = true then AsmLine.raw "section .bss\n" :: l.map AsmLine.raw else []) = [] := by
  cases b
  · rfl
  · simp [code_of, code_of_map_raw]

/-- The instructions of the translation unit. -/
theorem code_of_generate_lines (ast : AstNode) (opts : CodegenOptions) :
    code_of (generate_lines ast opts) =
      [Instr.push (.reg (areg opts .rbp)), Instr.mov (.reg (areg opts .rbp)) (.reg (areg opts .rsp))]
        ++ code opts ast ++
      [Instr.mov (.reg .eax) (.reg .eax), Instr.mov (.reg (areg opts .rsp)) (.reg (areg opts .rbp)),
        Instr.pop (.reg (areg opts .rbp)), Instr.ret] := by
  have h32 : (TargetArch.X86_32 == TargetArch.X86_64) = false := rfl
  have h64 : (TargetArch.X86_64 == TargetArch.X86_64) = true := rfl
  obtain ⟨arch, os⟩ := opts
  cases arch
  · simp only [generate_lines, code_of_append, code_of_map_ins, run_emitter_text, code_of_bss,
      h32, Bool.false_eq_true, if_false, List.append_nil]
    rfl
  · simp only [generate_lines, code_of_append, code_of_map_ins, run_emitter_text, code_of_bss,
      h64, if_true, List.append_nil]
    rfl

theorem exec_push_bp (opts : CodegenOptions) (m : Machine) :
    exec_instr (word_bits opts) (.push (.reg (areg opts .rbp))) m =
      some { m with stack := (m.rbp % 2 ^ word_bits opts) :: m.stack } := by
  obtain ⟨arch, os⟩ := opts
  cases arch <;> rfl

theorem exec_mov_bp_sp (opts : CodegenOptions) (m : Machine) :
    exec_instr (word_bits opts) (.mov (.reg (areg opts .rbp)) (.reg (areg opts .rsp))) m =
      some { m with rbp := m.stack.length } := by
  obtain ⟨arch, os⟩ := opts
  cases arch <;> rfl

theorem exec_mov_eax_eax (opts : CodegenOptions) (m : Machine) :
    exec_instr (word_bits opts) (.mov (.reg .eax) (.reg .eax)) m =
      some { m with rax := m.rax % 2 ^ 32 } := by
  obtain ⟨arch, os⟩ := opts
  cases arch <;> simp [exec_instr, exec_mov, word_bits, is64, Reg.bits, Reg.slot, Machine.read,
    Machine.write, Machine.get, Machine.set]

theorem exec_mov_sp_bp (opts : CodegenOptions) (m : Machine) (h : m.rbp ≤ m.stack.length) :
    exec_instr (word_bits opts) (.mov (.reg (areg opts .rsp)) (.reg (areg opts .rbp))) m =
      some { m with stack := m.stack.drop (m.stack.length - m.rbp) } := by
  obtain ⟨arch, os⟩ := opts
  cases arch <;> simp [exec_instr, exec_mov, areg, is64, Reg.narrow, word_bits, Reg.bits,
    Reg.slot, h]

theorem exec_pop_bp (opts : CodegenOptions) (m : Machine) (v : Nat) (rest : List Nat)
    (h : m.stack = v :: rest) :
    exec_instr (word_bits opts) (.pop (.reg (areg opts .rbp))) m =
      some { m with stack := rest, rbp := v % 2 ^ word_bits opts } := by
  obtain ⟨arch, os⟩ := opts
  cases arch <;> simp [exec_instr, exec_pop, areg, is64, Reg.narrow, word_bits, Reg.bits,
    Reg.slot, h, Machine.write, Machine.set]

/-- If the body, entered after the prologue, runs to a state with the stack and
the frame pointer it was entered with, the routine returns the low 32 bits of
the accumulator that the body leaves. -/
theorem program_result_of_body (ast : AstNode) (opts : CodegenOptions) (m m1 : Machine)
    (hs : m.stack ≠ [])
    (hbody : exec_list (word_bits opts) (code opts ast)
      { m with stack := (m.rbp % 2 ^ word_bits opts) :: m.stack, rbp := m.stack.length + 1 } =
        some m1)
    (hst : m1.stack = (m.rbp % 2 ^ word_bits opts) :: m.stack)
    (hbp : m1.rbp = m.stack.length + 1) :
    program_result ast opts m = some (to_signed 32 (m1.rax % 2 ^ 32)) := by
  obtain ⟨ret, s, hret⟩ : ∃ ret s, m.stack = ret :: s := by
    cases h : m.stack with
    | nil => exact absurd h hs
    | cons a b => exact ⟨a, b, rfl⟩
  unfold program_result
  rw [code_of_generate_lines, List.append_assoc, exec_list_append]
  have h0 : exec_list (word_bits opts)
      [Instr.push (.reg (areg opts .rbp)), Instr.mov (.reg (areg opts .rbp)) (.reg (areg opts .rsp))]
      m = some { m with
        stack := (m.rbp % 2 ^ word_bits opts) :: m.stack
        rbp := m.stack.length + 1 } := by
    simp only [exec_list, exec_push_bp, exec_mov_bp_sp, List.length_cons]
  rw [h0]
  simp only []
  rw [exec_list_append, hbody]
  have h1 : exec_instr (word_bits opts) (.mov (.reg (areg opts .rsp)) (.reg (areg opts .rbp)))
      { m1 with rax := m1.rax % 2 ^ 32 } = some { m1 with rax := m1.rax % 2 ^ 32 } := by
    rw [exec_mov_sp_bp opts _ (by simp [hst, hbp])]
    simp [hst, hbp]
  have h2 := exec_pop_bp opts { m1 with rax := m1.rax % 2 ^ 32 }
    (m.rbp % 2 ^ word_bits opts) m.stack hst
  simp only [exec_list, exec_mov_eax_eax, h1, h2, hret, Machine.result, Nat.mod_mod]
  simp [exec_instr]

/-- The code of a program is the code of its statements, in order. -/
theorem code_mk_prog (opts : CodegenOptions) (stmts : List AstNode) :
    code opts (mk_prog stmts) = (stmts.map (code opts)).flatten := by
  have key : ∀ (ss : List AstNode) (E : Emitter),
      (emit_stmts opts (ss.map new_arg_node) E).text = E.text ++ (ss.map (code opts)).flatten := by
    intro ss
    induction ss with
    | nil => intro E; simp [emit_stmts]
    | cons s rest ih =>
      intro E
      simp only [List.map_cons, new_arg_node, emit_stmts]
      have := ih (emit_expr opts s E)
      simp only [new_arg_node] at this
      rw [this, emit_expr_text]
      simp
  simp only [code, mk_prog, emit_expr_prog]
  rw [key]
  simp [Emitter.init]

/-! ## Plain statements -/

theorem bss_line_injective (opts : CodegenOptions) : Function.Injective (bss_line opts) := by
  intro a b h
  unfold bss_line at h
  split at h
  · apply String.ext
    have := congrArg String.data h
    simp only [String.data_append] at this
    exact List.append_cancel_right this
  · apply String.ext
    have := congrArg String.data h
    simp only [String.data_append] at this
    exact List.append_cancel_right this

theorem declare_var_eq_bss_line (opts : CodegenOptions) (name : String) (E : Emitter) :
    declare_var opts name E =
      if name ∈ E.declared then E
      else { E with declared := E.declared ++ [name], bss := E.bss ++ [bss_line opts name] } :=
  rfl

theorem declare_var_idem (opts : CodegenOptions) (name : String) (E : Emitter)
    (h : name ∈ E.declared) : declare_var opts name E = E := by
  simp [declare_var, h]

theorem declare_var_mem (opts : CodegenOptions) (name : String) (E : Emitter) :
    name ∈ (declare_var opts name E).declared := by
  rw [declare_var_eq_bss_line]
  split
  · assumption
  · simp

theorem declare_var_subset (opts : CodegenOptions) (name : String) (E : Emitter) :
    E.declared ⊆ (declare_var opts name E).declared := by
  rw [declare_var_eq_bss_line]
  split
  · exact fun _ h => h
  · exact fun _ h => List.mem_append_left _ h

theorem declare_var_inv (opts : CodegenOptions) (name : String) (E : Emitter)
    (h : DeclInv opts E) : DeclInv opts (declare_var opts name E) := by
  rw [declare_var_eq_bss_line]
  split
  · exact h
  · rename_i hn
    refine ⟨by simp [h.1], ?_⟩
    simp only []
    rw [List.nodup_append]
    refine ⟨h.2, List.nodup_singleton _, ?_⟩
    intro a ha hb
    rw [List.mem_singleton] at hb
    exact hn (hb ▸ ha)

theorem put_bss (E : Emitter) (i : Instr) : (E.put i).bss = E.bss := rfl

theorem put_declared (E : Emitter) (i : Instr) : (E.put i).declared = E.declared := rfl

theorem emit_operator_decl (opts : CodegenOptions) (o : String) (E : Emitter) :
    (emit_operator opts o E).bss = E.bss ∧ (emit_operator opts o E).declared = E.declared := by
  unfold emit_operator
  repeat' split
  all_goals exact ⟨rfl, rfl⟩

theorem emit_literal_decl (opts : CodegenOptions) (args : List NodeArg) (E : Emitter) :
    (emit_literal opts args E).bss = E.bss ∧ (emit_literal opts args E).declared = E.declared := by
  unfold emit_literal
  repeat' split
  all_goals exact ⟨rfl, rfl⟩

theorem DeclInv_congr {opts : CodegenOptions} {E E' : Emitter} (h1 : E'.bss = E.bss)
    (h2 : E'.declared = E.declared) (h : DeclInv opts E) : DeclInv opts E' := by
  unfold DeclInv
  rw [h1, h2]
  exact h

/-- Emission keeps the data stream in step with the declared names, and never
forgets a declared name. -/
theorem emit_expr_decl (opts : CodegenOptions) (node : AstNode) :
    ∀ E : Emitter, (DeclInv opts E → DeclInv opts (emit_expr opts node E)) ∧
      E.declared ⊆ (emit_expr opts node E).declared := by
  induction node using AstNode_induct with
  | h t args ih =>
    intro E
    cases t with
    | LITERAL =>
      rw [emit_expr_literal]
      have h := emit_literal_decl opts args E
      exact ⟨DeclInv_congr h.1 h.2, by rw [h.2]; exact fun _ h => h⟩
    | PROG =>
      rw [emit_expr_prog]
      induction args generalizing E with
      | nil => exact ⟨fun h => h, fun _ h => h⟩
      | cons a rest ihr =>
        have ih' := fun E' => ihr (fun b hb => ih b (List.mem_cons_of_mem _ hb)) E'
        match a with
        | .mk _ none => exact ih' E
        | .mk _ (some n) =>
          have hn := ih _ (List.mem_cons_self _ _) n rfl E
          have hr := ih' (emit_expr opts n E)
          simp only [emit_stmts]
          exact ⟨fun h => hr.1 (hn.1 h), fun x hx => hr.2 (hn.2 hx)⟩
    | BINOP =>
      rw [emit_expr_binop]
      cases hp : binop_parts args with
      | none => exact ⟨DeclInv_congr rfl rfl, fun _ h => h⟩
      | some p =>
        obtain ⟨l, op, r⟩ := p
        obtain ⟨⟨a, ha, hl⟩, ⟨b, hb, hr⟩⟩ := binop_parts_mem hp
        have h1 := ih a ha l hl E
        have h2 := ih b hb r hr ((emit_expr opts l E).put (push_acc opts))
        have h3 := emit_operator_decl opts op.value
          ((emit_expr opts r ((emit_expr opts l E).put (push_acc opts))).put (pop_left opts))
        simp only []
        constructor
        · intro h
          exact DeclInv_congr h3.1 h3.2 (DeclInv_congr rfl rfl (h2.1 (DeclInv_congr rfl rfl (h1.1 h))))
        · intro x hx
          rw [h3.2]
          exact h2.2 (h1.2 hx)
    | ASSIGN =>
      rw [emit_expr_assign]
      cases hp : assign_parts args with
      | none => exact ⟨DeclInv_congr rfl rfl, fun _ h => h⟩
      | some p =>
        obtain ⟨id, rhs⟩ := p
        obtain ⟨a, ha, hr⟩ := assign_parts_mem hp
        have h1 := ih a ha rhs hr (declare_var opts id.value E)
        simp only []
        constructor
        · intro h
          exact DeclInv_congr rfl rfl (h1.1 (declare_var_inv opts id.value E h))
        · intro x hx
          exact h1.2 (declare_var_subset opts id.value E hx)

theorem declare_all_decl (opts : CodegenOptions) (vars : List String) :
    ∀ E : Emitter, (DeclInv opts E → DeclInv opts (declare_all opts vars E)) ∧
      E.declared ⊆ (declare_all opts vars E).declared ∧
      ∀ v ∈ vars, v ∈ (declare_all opts vars E).declared := by
  induction vars with
  | nil => intro E; exact ⟨fun h => h, fun _ h => h, fun _ h => by cases h⟩
  | cons v rest ih =>
    intro E
    have h := ih (declare_var opts v E)
    simp only [declare_all]
    refine ⟨fun hE => h.1 (declare_var_inv opts v E hE),
      fun x hx => h.2.1 (declare_var_subset opts v E hx), ?_⟩
    intro x hx
    rcases List.mem_cons.1 hx with h1 | h1
    · rw [h1]; exact h.2.1 (declare_var_mem opts v E)
    · exact h.2.2 x h1

theorem DeclInv_init (opts : CodegenOptions) : DeclInv opts Emitter.init :=
  ⟨rfl, List.nodup_nil⟩

/-! ## The variables of a parsed program -/

theorem mem_ident_values (s : String) (tks : TokenList) :
    s ∈ ident_values tks ↔ ∃ t ∈ tks, t.t_type = token_t.IDENTIFIER ∧ t.value = s := by
  induction tks with
  | nil => simp [ident_values]
  | cons t rest ih =>
    by_cases h : t.t_type = token_t.IDENTIFIER
    · simp only [ident_values, h, beq_self_eq_true, if_true, List.mem_cons, ih]
      constructor
      · rintro (h1 | ⟨u, hu, h2⟩)
        · exact ⟨t, Or.inl rfl, h, h1.symm⟩
        · exact ⟨u, Or.inr hu, h2⟩
      · rintro ⟨u, hu | hu, h2⟩
        · left; rw [← hu]; exact h2.2.symm
        · exact Or.inr ⟨u, hu, h2⟩
    · have hb : (t.t_type == token_t.IDENTIFIER) = false := by simpa using h
      simp only [ident_values, hb, Bool.false_eq_true, if_false, ih, List.mem_cons]
      constructor
      · rintro ⟨u, hu, h2⟩
        exact ⟨u, Or.inr hu, h2⟩
      · rintro ⟨u, hu | hu, h2⟩
        · rw [hu] at h2; exact absurd h2.1 h
        · exact ⟨u, hu, h2⟩

theorem ident_values_cons_of_not {t : Token} (rest : TokenList)
    (h : t.t_type ≠ token_t.IDENTIFIER) : ident_values (t :: rest) = ident_values rest := by
  have hb : (t.t_type == token_t.IDENTIFIER) = false := by simpa using h
  simp [ident_values, hb]

theorem ident_values_cons_of_ident {t : Token} (rest : TokenList)
    (h : t.t_type = token_t.IDENTIFIER) :
    ident_values (t :: rest) = t.value :: ident_values rest := by
  simp [ident_values, h]

theorem is_symbol_not_ident {t : Token} {r : TokenList} {s : String}
    (h : is_symbol (t :: r) s = true) : t.t_type ≠ token_t.IDENTIFIER := by
  simp only [is_symbol, Bool.and_eq_true, beq_iff_eq] at h
  rw [h.1]
  decide

theorem is_mul_op_not_ident {t : Token} {r : TokenList}
    (h : is_mul_op (t :: r) = true) : t.t_type ≠ token_t.IDENTIFIER := by
  simp only [is_mul_op, Bool.or_eq_true] at h
  rcases h with (h | h) | h <;> exact is_symbol_not_ident h

theorem is_add_op_not_ident {t : Token} {r : TokenList}
    (h : is_add_op (t :: r) = true) : t.t_type ≠ token_t.IDENTIFIER := by
  simp only [is_add_op, Bool.or_eq_true] at h
  rcases h with h | h <;> exact is_symbol_not_ident h

theorem mem_insert (vars : VarSet) (x s : String) :
    s ∈ vars.insert x ↔ s ∈ vars ∨ s = x := by
  unfold VarSet.insert
  split
  · rename_i h
    constructor
    · exact Or.inl
    · rintro (h1 | h1)
      · exact h1
      · rw [h1]; exact h
  · simp

theorem nodup_insert (vars : VarSet) (x : String) (h : vars.Nodup) : (vars.insert x).Nodup := by
  unfold VarSet.insert
  split
  · exact h
  · rename_i hx
    rw [List.nodup_append]
    refine ⟨h, List.nodup_singleton _, ?_⟩
    intro a ha hb
    rw [List.mem_singleton] at hb
    exact hx (hb ▸ ha)

theorem collect_vars_empty_literal (vars : VarSet) : collect_vars empty_literal vars = vars := by
  simp [empty_literal, collect_vars, collect_literal]

theorem collect_vars_literal_of (t : Token) (vars : VarSet) :
    collect_vars (literal_of t) vars =
      if t.t_type = token_t.IDENTIFIER then vars.insert t.value else vars := by
  simp [literal_of, new_args, new_arg_token, collect_vars, collect_literal, collect_tk]

theorem collect_vars_mk_binop (l : AstNode) (op : Token) (r : AstNode) (vars : VarSet)
    (h : op.t_type ≠ token_t.IDENTIFIER) :
    collect_vars (mk_binop l op r) vars = collect_vars r (collect_vars l vars) := by
  have hb : (op.t_type == token_t.IDENTIFIER) = false := by simpa using h
  simp [mk_binop, new_args, new_arg_token, new_arg_node, collect_vars, collect_binop,
    collect_tk, hb]

theorem collect_vars_mk_assign (id : Token) (rhs : AstNode) (vars : VarSet)
    (h : id.t_type = token_t.IDENTIFIER) :
    collect_vars (mk_assign id rhs) vars = collect_vars rhs (vars.insert id.value) := by
  simp [mk_assign, new_args, new_arg_token, new_arg_node, collect_vars, collect_nodes,
    collect_first_ident, h]

theorem collect_vars_mk_prog (stmts : List AstNode) (vars : VarSet) :
    collect_vars (mk_prog stmts) vars = stmts.foldl (fun acc s => collect_vars s acc) vars := by
  simp only [mk_prog, collect_vars]
  induction stmts generalizing vars with
  | nil => rfl
  | cons s rest ih => simp only [List.map_cons, new_arg_node, collect_nodes, List.foldl_cons]
                      exact ih _

/-- What a routine collects, together with the identifiers it leaves unread, is
what it started from together with the identifiers of its input; and it keeps
the set free of repetitions. -/
theorem Parses_idents {k : Rule} {tks : TokenList} {n : AstNode} {rest : TokenList}
    (h : Parses k tks n rest) : ∀ vars : VarSet,
      (∀ s, (s ∈ collect_vars n vars ∨ s ∈ ident_values rest) ↔
        (s ∈ k.start vars ∨ s ∈ ident_values tks)) ∧
      ((k.start vars).Nodup → (collect_vars n vars).Nodup) := by
  induction h with
  | value_eof tks h =>
    intro vars
    rw [collect_vars_empty_literal]
    exact ⟨fun s => Iff.rfl, fun h => h⟩
  | value_paren t tks1 inner tks2 h1 h2 he ih =>
    intro vars
    have hrest : ident_values (if is_symbol tks2 ")" = true then pop_front tks2 else tks2) =
        ident_values tks2 := by
      by_cases h3 : is_symbol tks2 ")" = true
      · cases tks2 with
        | nil => simp [is_symbol] at h3
        | cons t2 r2 =>
          simp only [h3, if_true, pop_front]
          exact (ident_values_cons_of_not r2 (is_symbol_not_ident h3)).symm
      · simp only [h3, if_false, Bool.false_eq_true]
    rw [hrest, ident_values_cons_of_not tks1 (is_symbol_not_ident h2)]
    exact ih vars
  | value_token t tks1 h1 h2 =>
    intro vars
    rw [collect_vars_literal_of]
    simp only [Rule.start]
    by_cases ht : t.t_type = token_t.IDENTIFIER
    · simp only [ht, if_true, ident_values_cons_of_ident tks1 ht, mem_insert, List.mem_cons]
      exact ⟨fun s => by tauto, nodup_insert vars t.value⟩
    · rw [if_neg ht, ident_values_cons_of_not tks1 ht]
      exact ⟨fun s => Iff.rfl, fun h => h⟩
  | term tks left tks1 n tks2 hv hl ihv ihl =>
    intro vars
    have a := ihv vars
    have b := ihl vars
    simp only [Rule.start] at a b ⊢
    exact ⟨fun s => (b.1 s).trans (a.1 s), fun h => b.2 (a.2 h)⟩
  | term_done left tks h =>
    intro vars
    exact ⟨fun s => Iff.rfl, fun h => h⟩
  | term_step left op tks1 right tks2 n tks3 h hv hl ihv ihl =>
    intro vars
    have hop := is_mul_op_not_ident h
    have a := ihv (collect_vars left vars)
    have b := ihl vars
    simp only [Rule.start, collect_vars_mk_binop left op right vars hop] at a b ⊢
    rw [ident_values_cons_of_not tks1 hop]
    exact ⟨fun s => (b.1 s).trans (a.1 s), fun h => b.2 (a.2 h)⟩
  | expr tks left tks1 n tks2 hv hl ihv ihl =>
    intro vars
    have a := ihv vars
    have b := ihl vars
    simp only [Rule.start] at a b ⊢
    exact ⟨fun s => (b.1 s).trans (a.1 s), fun h => b.2 (a.2 h)⟩
  | expr_done left tks h =>
    intro vars
    exact ⟨fun s => Iff.rfl, fun h => h⟩
  | expr_step left op tks1 right tks2 n tks3 h hv hl ihv ihl =>
    intro vars
    have hop := is_add_op_not_ident h
    have a := ihv (collect_vars left vars)
    have b := ihl vars
    simp only [Rule.start, collect_vars_mk_binop left op right vars hop] at a b ⊢
    rw [ident_values_cons_of_not tks1 hop]
    exact ⟨fun s => (b.1 s).trans (a.1 s), fun h => b.2 (a.2 h)⟩

theorem StmtParses_idents {tks : TokenList} {n : AstNode} {rest : TokenList}
    (h : StmtParses tks n rest) (vars : VarSet) :
    (∀ s, (s ∈ collect_vars n vars ∨ s ∈ ident_values rest) ↔
      (s ∈ vars ∨ s ∈ ident_values tks)) ∧
    (vars.Nodup → (collect_vars n vars).Nodup) := by
  rcases h with ⟨h1, id, eq, tks2, rhs, h2, h3, h4⟩ | ⟨_, h2⟩
  · obtain ⟨id', eq', rest', h5, h6, h7, _⟩ := (starts_assign_iff _).1 h1
    rw [h2] at h5
    simp only [List.cons.injEq] at h5
    have hid : id.t_type = token_t.IDENTIFIER := by rw [h5.1]; exact h6
    have heq : eq.t_type ≠ token_t.IDENTIFIER := by rw [h5.2.1, h7]; decide
    have a := Parses_idents h3 (vars.insert id.value)
    simp only [Rule.start] at a
    rw [h4, h2, collect_vars_mk_assign id rhs vars hid, ident_values_cons_of_ident _ hid,
      ident_values_cons_of_not _ heq]
    refine ⟨fun s => ?_, fun h => a.2 (nodup_insert vars id.value h)⟩
    rw [a.1 s, mem_insert, List.mem_cons]
    tauto
  · have a := Parses_idents h2 vars
    simp only [Rule.start] at a
    exact a

theorem StmtsParse_idents {tks : TokenList} {ss : List AstNode} {rest : TokenList}
    (h : StmtsParse tks ss rest) : ∀ vars : VarSet,
      (∀ s, (s ∈ collect_vars (mk_prog ss) vars ∨ s ∈ ident_values rest) ↔
        (s ∈ vars ∨ s ∈ ident_values tks)) ∧
      (vars.Nodup → (collect_vars (mk_prog ss) vars).Nodup) := by
  induction h with
  | done tks h =>
    intro vars
    rw [collect_vars_mk_prog, List.foldl_nil]
    exact ⟨fun s => Iff.rfl, fun h => h⟩
  | step tks s tks1 ss rest h hs hl ih =>
    intro vars
    have a := StmtParses_idents hs vars
    have b := ih (collect_vars s vars)
    simp only [collect_vars_mk_prog, List.foldl_cons] at b ⊢
    exact ⟨fun x => (b.1 x).trans (a.1 x), fun h => b.2 (a.2 h)⟩

/-! ## Claims about the emitted code -/

/-- C5: the emitted code computes the value of the expression.  For every
well-formed tree built from numeric literals and `BINOP` nodes with `+`, `-`
and `*`, the instructions that `emit_expr` appends (they are `code opts node`
whatever the emitter held before) run without fault from every machine
state, leave in the accumulator the integer value of the tree (left operand
first, `-` as left minus right) reduced modulo `2 ^ w`, and leave the stack as
they found it. -/
theorem C5_arith_code_correct (opts : CodegenOptions) (node : AstNode)
    (h : is_arith_tree node = true) (m : Machine) :
    (∀ E : Emitter, (emit_expr opts node E).text = E.text ++ code opts node) ∧
    ∃ m', exec_list (word_bits opts) (code opts node) m = some m' ∧
      m'.rax = wrap (word_bits opts) (spec_int_value node) ∧ m'.stack = m.stack := by
  refine ⟨emit_expr_text opts node, ?_⟩
  obtain ⟨m', h1, h2, _, h4, _, _⟩ :=
    emit_correct opts node m.mem _ _ (eval_arith_tree (word_bits opts) node h m.mem) m rfl
  exact ⟨m', h1, h2, h4⟩

/-- C5 at the parses of `2+3*4`, `(2+3)*4` and `1-2-3`: the code evaluates to
`14`, to `20` and to `-4`, under both architectures. -/
theorem C5_arith_code_correct_witness :
    parse_prog [num "2", sym "+", num "3", sym "*", num "4", eof_token] =
      some (mk_prog [tree_2_plus_3_times_4], [eof_token]) ∧
    parse_prog [sym "(", num "2", sym "+", num "3", sym ")", sym "*", num "4", eof_token] =
      some (mk_prog [tree_2_plus_3_all_times_4], [eof_token]) ∧
    parse_prog [num "1", sym "-", num "2", sym "-", num "3", eof_token] =
      some (mk_prog [tree_1_minus_2_minus_3], [eof_token]) ∧
    is_arith_tree tree_2_plus_3_times_4 = true ∧
    is_arith_tree tree_2_plus_3_all_times_4 = true ∧
    is_arith_tree tree_1_minus_2_minus_3 = true ∧
    (∀ opts : CodegenOptions,
      (∃ m', exec_list (word_bits opts) (code opts tree_2_plus_3_times_4) Machine.start = some m' ∧
        m'.rax = 14 ∧ m'.stack = Machine.start.stack) ∧
      (∃ m', exec_list (word_bits opts) (code opts tree_2_plus_3_all_times_4) Machine.start =
          some m' ∧ m'.rax = 20 ∧ m'.stack = Machine.start.stack) ∧
      (∃ m', exec_list (word_bits opts) (code opts tree_1_minus_2_minus_3) Machine.start =
          some m' ∧ to_signed (word_bits opts) m'.rax = -4 ∧
          m'.stack = Machine.start.stack)) := by
  refine ⟨rfl, rfl, rfl, rfl, rfl, rfl, fun opts => ⟨?_, ?_, ?_⟩⟩
  · obtain ⟨m', h1, h2, h3⟩ :=
      (C5_arith_code_correct opts tree_2_plus_3_times_4 rfl Machine.start).2
    refine ⟨m', h1, h2.trans ?_, h3⟩
    obtain ⟨arch, os⟩ := opts
    cases arch <;> rfl
  · obtain ⟨m', h1, h2, h3⟩ :=
      (C5_arith_code_correct opts tree_2_plus_3_all_times_4 rfl Machine.start).2
    refine ⟨m', h1, h2.trans ?_, h3⟩
    obtain ⟨arch, os⟩ := opts
    cases arch <;> rfl
  · obtain ⟨m', h1, h2, h3⟩ :=
      (C5_arith_code_correct opts tree_1_minus_2_minus_3 rfl Machine.start).2
    refine ⟨m', h1, ?_, h3⟩
    have hv : spec_int_value tree_1_minus_2_minus_3 = -4 := by decide
    rw [h2, hv]
    have hp : (2 : Int) ^ 2 ≤ 2 ^ (word_bits opts - 1) :=
      pow_le_pow_right₀ (by norm_num) (by
        obtain ⟨arch, os⟩ := opts
        cases arch <;> simp [word_bits, is64])
    exact to_signed_wrap (word_bits_pos opts) (by omega) (by omega)

/-- C6: division and modulo are signed and truncate toward zero, with the left
operand as dividend and the right one as divisor.  For `BINOP(L, op, R)` with
`op` one of `/` and `%`, whose operands evaluate to `l` and `r` with `r` not zero
and not `l = -2^(w-1)` with `r = -1`, the emitted code is the code of `L`, a
push, the code of `R`, a pop and then `mov rcx, rax; mov rax, rbx; cqo/cdq;
idiv rcx` (followed by `mov rax, rdx` for `%`); it runs without fault and
leaves in the accumulator the quotient of `l` by `r` rounded toward zero for
`/`, and `l - r * (that quotient)` for `%`. -/
theorem C6_division_truncates (opts : CodegenOptions) (L R : AstNode) (op : Token)
    (env env1 env2 : Env) (l r : Nat)
    (hop : op.value = "/" ∨ op.value = "%")
    (hL : spec_eval_node (word_bits opts) L env = some (l, env1))
    (hR : spec_eval_node (word_bits opts) R env1 = some (r, env2))
    (hr0 : to_signed (word_bits opts) r ≠ 0)
    (hov : ¬(to_signed (word_bits opts) l = -(2 ^ (word_bits opts - 1) : Int) ∧
      to_signed (word_bits opts) r = -1))
    (m : Machine) (hm : m.mem = env) :
    code opts (mk_binop L op R) =
      code opts L ++ [push_acc opts] ++ code opts R ++ [pop_left opts] ++
        ([Instr.mov (.reg (areg opts .rcx)) (.reg (areg opts .rax)),
          Instr.mov (.reg (areg opts .rax)) (.reg (areg opts .rbx)),
          sext opts, Instr.idiv (.reg (areg opts .rcx))] ++
          if op.value = "%" then [Instr.mov (.reg (areg opts .rax)) (.reg (areg opts .rdx))]
          else []) ∧
    ∃ m', exec_list (word_bits opts) (code opts (mk_binop L op R)) m = some m' ∧
      m'.stack = m.stack ∧
      (op.value = "/" → to_signed (word_bits opts) m'.rax =
        Int.tdiv (to_signed (word_bits opts) l) (to_signed (word_bits opts) r)) ∧
      (op.value = "%" → to_signed (word_bits opts) m'.rax =
        to_signed (word_bits opts) l - to_signed (word_bits opts) r *
          Int.tdiv (to_signed (word_bits opts) l) (to_signed (word_bits opts) r)) := by
  have hw := word_bits_pos opts
  have hW : 0 < 2 ^ word_bits opts := by positivity
  obtain ⟨mL, _, _, hl, _, _, _⟩ := emit_correct opts L env l env1 hL m hm
  have hlr := to_signed_range hw hl
  constructor
  · rw [code_mk_binop]
    rcases hop with h | h
    · rw [h, operator_code_div]; simp
    · rw [h, operator_code_mod]; simp
  · rcases hop with h | h
    · have hev : spec_eval_node (word_bits opts) (mk_binop L op R) env =
          some (wrap (word_bits opts) (Int.tdiv (to_signed (word_bits opts) l)
            (to_signed (word_bits opts) r)), env2) := by
        rw [eval_mk_binop, hL]
        simp only [hR]
        simp [spec_eval_operator, h, hr0, hov]
      obtain ⟨m', h1, h2, _, h4, _, _⟩ := emit_correct opts _ env _ env2 hev m hm
      have hrange := tdiv_range hlr.1 hlr.2 hr0 hov
      refine ⟨m', h1, h4, fun _ => ?_, fun h' => ?_⟩
      · rw [h2]; exact to_signed_wrap hw hrange.1 hrange.2
      · rw [h] at h'; exact absurd h' (by decide)
    · have hev : spec_eval_node (word_bits opts) (mk_binop L op R) env =
          some (wrap (word_bits opts) (to_signed (word_bits opts) l -
            to_signed (word_bits opts) r * Int.tdiv (to_signed (word_bits opts) l)
              (to_signed (word_bits opts) r)), env2) := by
        rw [eval_mk_binop, hL]
        simp only [hR]
        simp [spec_eval_operator, h, hr0, hov]
      obtain ⟨m', h1, h2, _, h4, _, _⟩ := emit_correct opts _ env _ env2 hev m hm
      have hrange := tmod_range (to_signed (word_bits opts) r) hlr.1 hlr.2
      rw [Int.tmod_def] at hrange
      refine ⟨m', h1, h4, fun h' => ?_, fun _ => ?_⟩
      · rw [h] at h'; exact absurd h' (by decide)
      · rw [h2]; exact to_signed_wrap hw hrange.1 hrange.2

/-- C6 at `7/2` and `7%2`: the code evaluates to `3` and to `1`. -/
theorem C6_division_truncates_witness :
    (∃ m', exec_list 64 (code opts64 (mk_binop (literal_of (num "7")) (sym "/")
        (literal_of (num "2")))) Machine.start = some m' ∧
      m'.stack = Machine.start.stack ∧ to_signed 64 m'.rax = 3) ∧
    (∃ m', exec_list 64 (code opts64 (mk_binop (literal_of (num "7")) (sym "%")
        (literal_of (num "2")))) Machine.start = some m' ∧
      m'.stack = Machine.start.stack ∧ to_signed 64 m'.rax = 1) := by
  constructor
  · obtain ⟨m', h1, h2, h3, _⟩ := (C6_division_truncates opts64 (literal_of (num "7"))
      (literal_of (num "2")) (sym "/") Machine.start.mem Machine.start.mem Machine.start.mem
      7 2 (Or.inl rfl) rfl rfl (by decide) (by decide) Machine.start rfl).2
    exact ⟨m', h1, h2, (h3 rfl).trans (by decide)⟩
  · obtain ⟨m', h1, h2, _, h4⟩ := (C6_division_truncates opts64 (literal_of (num "7"))
      (literal_of (num "2")) (sym "%") Machine.start.mem Machine.start.mem Machine.start.mem
      7 2 (Or.inr rfl) rfl rfl (by decide) (by decide) Machine.start rfl).2
    exact ⟨m', h1, h2, (h4 rfl).trans (by decide)⟩

/-- C7, as stated, fails: `-7/2` parses to two statements, the literal `-` and
`7/2`, and the routine emitted for them returns `3`, not `-3`, under both
architectures. -/
theorem C7_minus_seven_half_counterexample :
    parse_prog tokens_minus_7_div_2 = some (prog_minus_7_div_2, [eof_token]) ∧
    program_result prog_minus_7_div_2 opts64 Machine.start = some 3 ∧
    program_result prog_minus_7_div_2 opts32 Machine.start = some 3 ∧
    ¬(program_result prog_minus_7_div_2 opts64 Machine.start = some (-3)) ∧
    ¬(program_result prog_minus_7_div_2 opts32 Machine.start = some (-3)) :=
  ⟨rfl, by decide, by decide, by decide, by decide⟩

theorem code_literal_sym (opts : CodegenOptions) (s : String) :
    code opts (literal_of (sym s)) = [zero_acc opts] := by
  obtain ⟨arch, os⟩ := opts
  cases arch <;> rfl

/-- C7 amended: the tokens of `-7/2` parse to the program with the two
statements `-` (a literal that the emitter zeroes) and `7/2`, and the routine
that `generate_asm` emits for it returns `3` from every machine state that holds
a return address, under both architectures. -/
theorem C7_minus_seven_half_is_three (opts : CodegenOptions) (m : Machine)
    (hs : m.stack ≠ []) :
    parse_prog tokens_minus_7_div_2 = some (prog_minus_7_div_2, [eof_token]) ∧
    program_result prog_minus_7_div_2 opts m = some 3 := by
  refine ⟨rfl, ?_⟩
  have hev : ∀ env : Env, spec_eval_node (word_bits opts)
      (mk_binop (literal_of (num "7")) (sym "/") (literal_of (num "2"))) env = some (3, env) := by
    intro env
    have h32 : spec_eval_operator 32 (sym "/").value (7 % 2 ^ 32) (2 % 2 ^ 32) = some 3 := by decide
    have h64 : spec_eval_operator 64 (sym "/").value (7 % 2 ^ 64) (2 % 2 ^ 64) = some 3 := by decide
    rw [eval_mk_binop, eval_literal_num _ (num "7") 7 env rfl rfl]
    simp only [eval_literal_num _ (num "2") 2 env rfl rfl]
    obtain ⟨arch, os⟩ := opts
    cases arch
    · rw [show word_bits { arch := TargetArch.X86_32, os := os } = 32 from rfl, h32]
    · rw [show word_bits { arch := TargetArch.X86_64, os := os } = 64 from rfl, h64]
  obtain ⟨m1, h1, h2, _, h4, _, h6⟩ := emit_correct opts _ _ _ _ (hev m.mem)
    { m with stack := (m.rbp % 2 ^ word_bits opts) :: m.stack, rbp := m.stack.length + 1,
             rax := 0 } rfl
  have hbody : exec_list (word_bits opts) (code opts prog_minus_7_div_2)
      { m with stack := (m.rbp % 2 ^ word_bits opts) :: m.stack, rbp := m.stack.length + 1 } =
      some m1 := by
    rw [prog_minus_7_div_2, code_mk_prog]
    simp only [List.map_cons, List.map_nil, List.flatten, List.append_nil, code_literal_sym,
      List.singleton_append, exec_list, exec_zero_acc]
    exact h1
  rw [program_result_of_body _ opts m m1 hs hbody h4 h6, h2]
  rfl

/-- C7 amended, at the machine that enters `main` with cleared registers. -/
theorem C7_minus_seven_half_is_three_witness :
    Machine.start.stack ≠ [] ∧
    parse_prog tokens_minus_7_div_2 = some (prog_minus_7_div_2, [eof_token]) ∧
    program_result prog_minus_7_div_2 opts32 Machine.start = some 3 :=
  ⟨by decide, C7_minus_seven_half_is_three opts32 Machine.start (by decide)⟩

/-- C9: storage declaration is idempotent and yields exactly one slot per
name.  For every tree and configuration, the data stream that `generate_asm`
builds (eager `declare_var` over `collect_vars`, then the lazy ones of
`emit_expr`) is the list of the lines `name: resq 1` (64-bit) or
`name: resd 1` (32-bit) of the declared names, no name being declared twice:
each declared name has exactly one line, every line is that of a declared
name, and every collected name is declared.  `declare_var` on a declared name
changes nothing, a name passed to `declare_var` is declared afterwards, and
emission never removes a declared name. -/
theorem C9_one_slot_per_name (ast : AstNode) (opts : CodegenOptions) :
    (∀ name : String, bss_line opts name =
      if opts.arch = TargetArch.X86_64 then name ++ ": resq 1\n" else name ++ ": resd 1\n") ∧
    (run_emitter ast opts).bss = (run_emitter ast opts).declared.map (bss_line opts) ∧
    (run_emitter ast opts).declared.Nodup ∧
    (∀ name ∈ (run_emitter ast opts).declared,
      (run_emitter ast opts).bss.count (bss_line opts name) = 1) ∧
    (∀ line ∈ (run_emitter ast opts).bss,
      ∃ name ∈ (run_emitter ast opts).declared, line = bss_line opts name) ∧
    (∀ v ∈ collect_vars ast [], v ∈ (run_emitter ast opts).declared) ∧
    (∀ (name : String) (E : Emitter), name ∈ E.declared → declare_var opts name E = E) ∧
    (∀ (name : String) (E : Emitter), name ∈ (declare_var opts name E).declared) ∧
    (∀ (node : AstNode) (E : Emitter), E.declared ⊆ (emit_expr opts node E).declared) := by
  have hall := declare_all_decl opts (collect_vars ast []) Emitter.init
  have hemit := emit_expr_decl opts ast (declare_all opts (collect_vars ast []) Emitter.init)
  have hinv : DeclInv opts (run_emitter ast opts) := hemit.1 (hall.1 (DeclInv_init opts))
  refine ⟨?_, hinv.1, hinv.2, ?_, ?_, ?_, declare_var_idem opts, declare_var_mem opts,
    fun node E => (emit_expr_decl opts node E).2⟩
  · intro name
    obtain ⟨arch, os⟩ := opts
    cases arch <;> rfl
  · intro name hn
    rw [hinv.1]
    exact List.count_eq_one_of_mem (hinv.2.map (bss_line_injective opts))
      (List.mem_map_of_mem _ hn)
  · intro line hl
    rw [hinv.1] at hl
    obtain ⟨name, h1, h2⟩ := List.mem_map.1 hl
    exact ⟨name, h1, h2.symm⟩
  · intro v hv
    exact hemit.2 (hall.2.2 v hv)

/-- C9 at the programs `a=1` `a=2` and `a=5` `a+1`: one slot for `a`. -/
theorem C9_one_slot_per_name_witness :
    parse_prog [ident "a", sym "=", num "1", ident "a", sym "=", num "2", eof_token] =
      some (prog_a1_a2, [eof_token]) ∧
    parse_prog [ident "a", sym "=", num "5", ident "a", sym "+", num "1", eof_token] =
      some (prog_a5_a_plus_1, [eof_token]) ∧
    "a" ∈ (run_emitter prog_a1_a2 opts64).declared ∧
    (run_emitter prog_a1_a2 opts64).bss.count "a: resq 1\n" = 1 ∧
    (run_emitter prog_a1_a2 opts64).bss = ["a: resq 1\n"] ∧
    (run_emitter prog_a1_a2 opts32).bss = ["a: resd 1\n"] ∧
    (run_emitter prog_a5_a_plus_1 opts64).bss = ["a: resq 1\n"] ∧
    (run_emitter prog_a5_a_plus_1 opts32).bss = ["a: resd 1\n"] :=
  ⟨rfl, rfl, by decide,
    (C9_one_slot_per_name prog_a1_a2 opts64).2.2.2.1 "a" (by decide),
    by decide, by decide, by decide, by decide⟩

/-- C10: variable-set completeness on parsed programs.  For every token list
whose last element is its only end marker, `parse_prog` returns a tree on which
`collect_vars` yields exactly the values of the `IDENTIFIER` tokens of the
list, each once, whether the identifier is an assignment target or an operand. -/
theorem C10_collect_vars_complete (pre : TokenList) (eof : Token)
    (hpre : ∀ t ∈ pre, t.t_type ≠ token_t._EOF) (heof : eof.t_type = token_t._EOF) :
    ∃ ast, parse_prog (pre ++ [eof]) = some (ast, [eof]) ∧
      (∀ s : String, s ∈ collect_vars ast [] ↔
        ∃ t ∈ pre ++ [eof], t.t_type = token_t.IDENTIFIER ∧ t.value = s) ∧
      (collect_vars ast []).Nodup := by
  obtain ⟨⟨n, rest⟩, hr⟩ := parse_prog_total (pre ++ [eof])
  obtain ⟨stmts, h1, h2⟩ := (parse_prog_iff _ _ _).1 hr
  have h3 := StmtsParse_removed h2
  have h4 := Removed_eq_eof hpre heof h3.1 h3.2
  subst h4
  have h5 := StmtsParse_idents h2 []
  have e : ident_values [eof] = [] :=
    ident_values_cons_of_not [] (by rw [heof]; decide)
  refine ⟨n, hr, fun s => ?_, ?_⟩
  · rw [← mem_ident_values, h1]
    have := h5.1 s
    rw [e] at this
    simpa [mk_prog] using this
  · rw [h1]
    exact h5.2 List.nodup_nil

/-- C10 at the tokens of `a=b+1`: the variables are `a` and `b`. -/
theorem C10_collect_vars_complete_witness :
    (∀ t ∈ [ident "a", sym "=", ident "b", sym "+", num "1"], t.t_type ≠ token_t._EOF) ∧
    eof_token.t_type = token_t._EOF ∧
    parse_prog ([ident "a", sym "=", ident "b", sym "+", num "1"] ++ [eof_token]) =
      some (prog_a_eq_b_plus_1, [eof_token]) ∧
    collect_vars prog_a_eq_b_plus_1 [] = ["a", "b"] ∧
    ∃ ast, parse_prog ([ident "a", sym "=", ident "b", sym "+", num "1"] ++ [eof_token]) =
        some (ast, [eof_token]) ∧
      (∀ s : String, s ∈ collect_vars ast [] ↔
        ∃ t ∈ [ident "a", sym "=", ident "b", sym "+", num "1"] ++ [eof_token],
          t.t_type = token_t.IDENTIFIER ∧ t.value = s) ∧
      (collect_vars ast []).Nodup :=
  ⟨by decide, by decide, rfl, by decide,
    C10_collect_vars_complete [ident "a", sym "=", ident "b", sym "+", num "1"] eof_token
      (by decide) (by decide)⟩

/-! ## A trailing operator -/

theorem code_empty_literal (opts : CodegenOptions) : code opts empty_literal = [zero_acc opts] := by
  obtain ⟨arch, os⟩ := opts
  cases arch <;> rfl

/-- The end marker alone is read by `parse_term` as the empty literal. -/
theorem Parses_term_eof {eof : Token} (heof : eof.t_type = token_t._EOF) :
    Parses .term [eof] empty_literal [eof] :=
  Parses.term _ _ _ _ _ (Parses.value_eof _ (by simp [at_eof, heof]))
    (Parses.term_done _ _ (by simp [is_mul_op_cons, is_mul_token_eof heof]))

/-- An operand, an operator and the end marker: the missing right operand is
the empty literal. -/
theorem Parses_trailing_operator {v op eof : Token} (hl : is_literal_token v = true)
    (hop : is_add_token op = true ∨ is_mul_token op = true)
    (heof : eof.t_type = token_t._EOF) :
    Parses .expr [v, op, eof] (mk_binop (literal_of v) op empty_literal) [eof] := by
  have hea : is_add_op [eof] = false := by simp [is_add_op_cons, is_add_token_eof heof]
  have hem : is_mul_op [eof] = false := by simp [is_mul_op_cons, is_mul_token_eof heof]
  rcases hop with hop | hop
  · have h1 : Parses .term [v, op, eof] (literal_of v) [op, eof] :=
      Parses_term_literal hl (by rw [is_mul_op_cons]; exact is_mul_token_of_add hop)
    exact Parses.expr _ _ _ _ _ h1
      (Parses.expr_step _ _ _ _ _ _ _ (by rw [is_add_op_cons]; exact hop) (Parses_term_eof heof)
        (Parses.expr_done _ _ hea))
  · have h1 : Parses .term [v, op, eof] (mk_binop (literal_of v) op empty_literal) [eof] :=
      Parses.term _ _ _ _ _ (Parses_value_literal _ hl)
        (Parses.term_step _ _ _ _ _ _ _ (by rw [is_mul_op_cons]; exact hop)
          (Parses.value_eof _ (by simp [at_eof, heof])) (Parses.term_done _ _ hem))
    exact Parses.expr _ _ _ _ _ h1 (Parses.expr_done _ _ hea)

/-- The values of the five operator tokens. -/
theorem operator_value {op : Token} (hop : is_add_token op = true ∨ is_mul_token op = true) :
    op.t_type = token_t.SYMBOLIC ∧
      (op.value = "+" ∨ op.value = "-" ∨ op.value = "*" ∨ op.value = "/" ∨ op.value = "%") := by
  simp only [is_add_token, is_mul_token, Bool.and_eq_true, Bool.or_eq_true, beq_iff_eq] at hop
  rcases hop with ⟨h0, h | h⟩ | ⟨h0, (h | h) | h⟩ <;> simp [h0, h]

/-- The code of the five operators does not contain the zeroing instruction. -/
theorem zero_acc_not_mem_operator_code (opts : CodegenOptions) {o : String}
    (h : o = "+" ∨ o = "-" ∨ o = "*" ∨ o = "/" ∨ o = "%") :
    zero_acc opts ∉ operator_code opts o := by
  obtain ⟨arch, os⟩ := opts
  rcases h with h | h | h | h | h <;> subst h <;> cases arch <;>
    simp [operator_code_add, operator_code_sub, operator_code_mul, operator_code_div,
      operator_code_mod, zero_acc, is64, areg, Reg.narrow, sext]

/-- C11: a trailing operator still gives a complete tree and complete code.
For every literal token `v` (a number or an identifier, the operands that the
emitter loads; also a string or a character), every operator token `op` among
`+ - * / %` and every end marker, `parse_prog` on `v op EOF` returns the `PROG`
of the single statement `BINOP [LITERAL [v], op, LITERAL []]` and leaves the
end marker; that `BINOP` has three arguments in which the emitter finds the
left node, the operator and the right node; its right operand is a literal
without a token; and `emit_expr` appends for the program the code of `v` (the
load of the number or of the variable), the push, the zeroing instruction in
the place of the missing operand, the pop and the code of the operator, which
itself contains no zeroing instruction. -/
theorem C11_trailing_operator (v op eof : Token) (opts : CodegenOptions)
    (hv : is_literal_token v = true)
    (hop : is_add_token op = true ∨ is_mul_token op = true)
    (heof : eof.t_type = token_t._EOF) :
    parse_prog [v, op, eof] =
      some (mk_prog [mk_binop (literal_of v) op empty_literal], [eof]) ∧
    (mk_binop (literal_of v) op empty_literal).args.length = 3 ∧
    binop_parts (mk_binop (literal_of v) op empty_literal).args =
      some (literal_of v, op, empty_literal) ∧
    empty_literal = AstNode.mk NodeType.LITERAL [] ∧
    (∀ E : Emitter,
      (emit_expr opts (mk_prog [mk_binop (literal_of v) op empty_literal]) E).text =
        E.text ++ (code opts (literal_of v) ++
          [push_acc opts, zero_acc opts, pop_left opts] ++ operator_code opts op.value)) ∧
    code opts (literal_of v) =
      [if v.t_type = token_t.NUMBERLITERAL then .mov (.reg (areg opts .rax)) (.imm v.value)
        else if v.t_type = token_t.IDENTIFIER then .mov (.reg (areg opts .rax)) (.mem v.value)
        else zero_acc opts] ∧
    (op.value = "+" ∨ op.value = "-" ∨ op.value = "*" ∨ op.value = "/" ∨ op.value = "%") ∧
    zero_acc opts ∉ operator_code opts op.value := by
  refine ⟨?_, rfl, rfl, rfl, ?_, ?_, (operator_value hop).2,
    zero_acc_not_mem_operator_code opts (operator_value hop).2⟩
  · exact parse_prog_single heof (at_eof_literal _ hv) (starts_assign_add _ hop)
      (Parses_trailing_operator hv hop heof)
  · intro E
    rw [emit_expr_text, code_mk_prog]
    simp [code_mk_binop, code_empty_literal]
  · by_cases h1 : v.t_type = token_t.NUMBERLITERAL
    · rw [code_literal_num opts v h1, if_pos h1]
    · by_cases h2 : v.t_type = token_t.IDENTIFIER
      · rw [code_literal_ident opts v h2, if_neg h1, if_pos h2]
      · rw [if_neg h1, if_neg h2]
        have hb1 : (v.t_type == token_t.NUMBERLITERAL) = false := by simpa using h1
        have hb2 : (v.t_type == token_t.IDENTIFIER) = false := by simpa using h2
        simp [code, literal_of, emit_expr_literal, emit_literal, first_token, new_args,
          new_arg_token, hb1, hb2, Emitter.init, Emitter.put]

/-- C11 at the tokens of `1+`. -/
theorem C11_trailing_operator_witness :
    is_literal_token (num "1") = true ∧
    (is_add_token (sym "+") = true ∨ is_mul_token (sym "+") = true) ∧
    eof_token.t_type = token_t._EOF ∧
    parse_prog [num "1", sym "+", eof_token] =
      some (mk_prog [mk_binop (literal_of (num "1")) (sym "+") empty_literal], [eof_token]) ∧
    (code opts64 (mk_prog [mk_binop (literal_of (num "1")) (sym "+") empty_literal])).map
        Instr.render =
      ["mov rax, 1\n", "push rax\n", "xor rax, rax\n", "pop rbx\n", "add rax, rbx\n"] ∧
    (code opts32 (mk_prog [mk_binop (literal_of (num "1")) (sym "+") empty_literal])).map
        Instr.render =
      ["mov eax, 1\n", "push eax\n", "xor eax, eax\n", "pop ebx\n", "add eax, ebx\n"] ∧
    generate_asm (mk_prog [mk_binop (literal_of (num "1")) (sym "+") empty_literal]) opts64 =
      "section .text\ndefault rel\nglobal main\nmain:\n  push rbp\n  mov rbp, rsp\n" ++
      "mov rax, 1\npush rax\nxor rax, rax\npop rbx\nadd rax, rbx\n" ++
      "  ; function epilogue\n  mov eax, eax\n  mov rsp, rbp\n  pop rbp\n  ret\n" :=
  ⟨by decide, by decide, by decide,
    (C11_trailing_operator (num "1") (sym "+") eof_token opts64 (by decide) (by decide)
      (by decide)).1,
    by decide, by decide, rfl⟩

/-! ## Fallbacks of the emitter -/

/-- The operands of a `BINOP` are found exactly when the argument positions
0, 1 and 2 hold a child, a token and a child. -/
theorem binop_parts_eq_none_iff (args : List NodeArg) :
    binop_parts args = none ↔
      (arg_node args 0 = none ∨ arg_tk args 1 = none ∨ arg_node args 2 = none) := by
  rcases args with _ | ⟨⟨t0, _ | l⟩, _ | ⟨⟨_ | op, n1⟩, _ | ⟨⟨t2, _ | r⟩, tail⟩⟩⟩ <;>
    simp [binop_parts, arg_node, arg_tk, NodeArg.node, NodeArg.tk]

/-- The parts of an `ASSIGN` are found exactly when the argument positions 0
and 1 hold a token and a child. -/
theorem assign_parts_eq_none_iff (args : List NodeArg) :
    assign_parts args = none ↔ (arg_tk args 0 = none ∨ arg_node args 1 = none) := by
  rcases args with _ | ⟨⟨_ | id, n0⟩, _ | ⟨⟨t1, _ | rhs⟩, tail⟩⟩ <;>
    simp [assign_parts, arg_node, arg_tk, NodeArg.node, NodeArg.tk]

theorem arg_node_of_length_le {args : List NodeArg} {i : Nat} (h : args.length ≤ i) :
    arg_node args i = none := by
  simp [arg_node, List.getElem?_eq_none h]

theorem arg_tk_of_length_le {args : List NodeArg} {i : Nat} (h : args.length ≤ i) :
    arg_tk args i = none := by
  simp [arg_tk, List.getElem?_eq_none h]

theorem declare_var_prefix (opts : CodegenOptions) (name : String) (E : Emitter) :
    E.bss <+: (declare_var opts name E).bss ∧
      E.declared <+: (declare_var opts name E).declared := by
  rw [declare_var_eq_bss_line]
  split
  · exact ⟨List.prefix_refl _, List.prefix_refl _⟩
  · exact ⟨List.prefix_append _ _, List.prefix_append _ _⟩

/-- The data stream and the declared names only grow at their end. -/
theorem emit_expr_prefix (opts : CodegenOptions) (node : AstNode) :
    ∀ E : Emitter, E.bss <+: (emit_expr opts node E).bss ∧
      E.declared <+: (emit_expr opts node E).declared := by
  induction node using AstNode_induct with
  | h t args ih =>
    intro E
    cases t with
    | LITERAL =>
      rw [emit_expr_literal]
      have h := emit_literal_decl opts args E
      rw [h.1, h.2]
      exact ⟨List.prefix_refl _, List.prefix_refl _⟩
    | PROG =>
      rw [emit_expr_prog]
      induction args generalizing E with
      | nil => exact ⟨List.prefix_refl _, List.prefix_refl _⟩
      | cons a rest ihr =>
        have ih' := fun E' => ihr (fun b hb => ih b (List.mem_cons_of_mem _ hb)) E'
        match a with
        | .mk _ none => exact ih' E
        | .mk _ (some n) =>
          have hn := ih _ (List.mem_cons_self _ _) n rfl E
          have hr := ih' (emit_expr opts n E)
          simp only [emit_stmts]
          exact ⟨hn.1.trans hr.1, hn.2.trans hr.2⟩
    | BINOP =>
      rw [emit_expr_binop]
      cases hp : binop_parts args with
      | none => exact ⟨List.prefix_refl _, List.prefix_refl _⟩
      | some p =>
        obtain ⟨l, op, r⟩ := p
        obtain ⟨⟨a, ha, hl⟩, ⟨b, hb, hr⟩⟩ := binop_parts_mem hp
        have h1 := ih a ha l hl E
        have h2 := ih b hb r hr ((emit_expr opts l E).put (push_acc opts))
        have h3 := emit_operator_decl opts op.value
          ((emit_expr opts r ((emit_expr opts l E).put (push_acc opts))).put (pop_left opts))
        simp only []
        rw [h3.1, h3.2]
        exact ⟨h1.1.trans h2.1, h1.2.trans h2.2⟩
    | ASSIGN =>
      rw [emit_expr_assign]
      cases hp : assign_parts args with
      | none => exact ⟨List.prefix_refl _, List.prefix_refl _⟩
      | some p =>
        obtain ⟨id, rhs⟩ := p
        obtain ⟨a, ha, hr⟩ := assign_parts_mem hp
        have h1 := ih a ha rhs hr (declare_var opts id.value E)
        have h0 := declare_var_prefix opts id.value E
        simp only []
        exact ⟨h0.1.trans h1.1, h0.2.trans h1.2⟩

theorem zero_acc_eq (opts : CodegenOptions) :
    zero_acc opts =
      if opts.arch = TargetArch.X86_64 then Instr.xor (.reg .rax) (.reg .rax)
      else Instr.xor (.reg .eax) (.reg .eax) := by
  obtain ⟨arch, os⟩ := opts
  cases arch <;> rfl

/-- C12: the emitter never fails and degrades malformed shapes to the zeroing
instruction.  `emit_expr` is a total function of the tree (it is defined by
recursion on the tree, for every node kind and every argument list): for
every tree and every emitter state it returns the state in which the
instruction stream is the old one followed by the code of the tree, and the
data stream and the declared names are the old ones, possibly extended.  For
a `BINOP` that lacks the child in position 0, the token in position 1 or the
child in position 2 (in particular with fewer than three arguments), and for
an `ASSIGN` that lacks the token in position 0 or the child in position 1
(in particular with fewer than two arguments), the result is the old state
with the single zeroing instruction `xor rax, rax` (64-bit) or `xor eax, eax`
(32-bit) appended: the data stream and the declared names are unchanged. -/
theorem C12_emitter_fallbacks (opts : CodegenOptions) (node : AstNode) (E : Emitter) :
    ((emit_expr opts node E).text = E.text ++ code opts node ∧
      E.bss <+: (emit_expr opts node E).bss ∧
      E.declared <+: (emit_expr opts node E).declared) ∧
    (node.n_type = NodeType.BINOP →
      (node.args.length < 3 ∨ arg_node node.args 0 = none ∨ arg_tk node.args 1 = none ∨
        arg_node node.args 2 = none) →
      emit_expr opts node E = E.put (zero_acc opts)) ∧
    (node.n_type = NodeType.ASSIGN →
      (node.args.length < 2 ∨ arg_tk node.args 0 = none ∨ arg_node node.args 1 = none) →
      emit_expr opts node E = E.put (zero_acc opts)) ∧
    ((E.put (zero_acc opts)).text = E.text ++ [zero_acc opts] ∧
      (E.put (zero_acc opts)).bss = E.bss ∧ (E.put (zero_acc opts)).declared = E.declared) ∧
    ((zero_acc opts).render =
      if opts.arch = TargetArch.X86_64 then "xor rax, rax\n" else "xor eax, eax\n") := by
  refine ⟨⟨emit_expr_text opts node E, emit_expr_prefix opts node E⟩, ?_, ?_, ⟨rfl, rfl, rfl⟩, ?_⟩
  · obtain ⟨t, args⟩ := node
    intro ht h
    simp only [AstNode.n_type] at ht
    subst ht
    simp only [AstNode.args] at h
    have hp : binop_parts args = none := by
      rw [binop_parts_eq_none_iff]
      rcases h with h | h
      · exact Or.inr (Or.inr (arg_node_of_length_le (by omega)))
      · exact h
    rw [emit_expr_binop, hp]
  · obtain ⟨t, args⟩ := node
    intro ht h
    simp only [AstNode.n_type] at ht
    subst ht
    simp only [AstNode.args] at h
    have hp : assign_parts args = none := by
      rw [assign_parts_eq_none_iff]
      rcases h with h | h
      · exact Or.inr (arg_node_of_length_le (by omega))
      · exact h
    rw [emit_expr_assign, hp]
  · obtain ⟨arch, os⟩ := opts
    cases arch <;> rfl

/-- C12 at a `BINOP` with two arguments and at an `ASSIGN` without a value
node: one zeroing instruction, no declaration. -/
theorem C12_emitter_fallbacks_witness :
    binop_two_args.n_type = NodeType.BINOP ∧ binop_two_args.args.length < 3 ∧
    emit_expr opts64 binop_two_args Emitter.init = Emitter.init.put (zero_acc opts64) ∧
    (emit_expr opts64 binop_two_args Emitter.init).text.map Instr.render = ["xor rax, rax\n"] ∧
    assign_no_value.n_type = NodeType.ASSIGN ∧ arg_node assign_no_value.args 1 = none ∧
    emit_expr opts32 assign_no_value Emitter.init = Emitter.init.put (zero_acc opts32) ∧
    (emit_expr opts32 assign_no_value Emitter.init).text.map Instr.render = ["xor eax, eax\n"] ∧
    (emit_expr opts32 assign_no_value Emitter.init).bss = [] ∧
    (emit_expr opts32 assign_no_value Emitter.init).declared = [] :=
  ⟨rfl, by decide,
    (C12_emitter_fallbacks opts64 binop_two_args Emitter.init).2.1 rfl (Or.inl (by decide)),
    by decide, rfl, rfl,
    (C12_emitter_fallbacks opts32 assign_no_value Emitter.init).2.2.1 rfl (Or.inr (Or.inr rfl)),
    by decide, rfl, rfl⟩

/-! ## Shape of the output -/

theorem join_append (a b : List String) :
    String.join (a ++ b) = String.join a ++ String.join b := by
  apply String.ext
  simp [String.data_join, String.data_append]

theorem render_lines_append (a b : List AsmLine) :
    render_lines (a ++ b) = render_lines a ++ render_lines b := by
  simp [render_lines, join_append]

theorem bss_line_ne_empty (opts : CodegenOptions) (name : String) : bss_line opts name ≠ "" := by
  intro h
  have := congrArg String.length h
  unfold bss_line at this
  split at this <;> simp only [String.length_append] at this <;>
    exact absurd this (by
      have e1 : ": resq 1\n".length = 9 := by decide
      have e2 : ": resd 1\n".length = 9 := by decide
      have e3 : "".length = 0 := by decide
      omega)

/-- The data stream is the empty string exactly when nothing is declared. -/
theorem join_bss_eq_empty_iff {opts : CodegenOptions} {E : Emitter} (h : DeclInv opts E) :
    String.join E.bss = "" ↔ E.declared = [] := by
  rw [h.1]
  cases hd : E.declared with
  | nil => simp [String.join]
  | cons d ds =>
    simp only [List.map_cons, reduceCtorEq, iff_false]
    intro h2
    have h3 := congrArg String.data h2
    rw [String.data_join] at h3
    simp only [List.map_cons, List.flatten_cons] at h3
    exact bss_line_ne_empty opts d (String.ext (List.append_eq_nil.1 h3).1)

theorem run_emitter_inv (ast : AstNode) (opts : CodegenOptions) :
    DeclInv opts (run_emitter ast opts) :=
  (emit_expr_decl opts ast _).1 ((declare_all_decl opts _ _).1 (DeclInv_init opts))

/-- The lines of `generate_asm`, by sections. -/
theorem generate_lines_sections (ast : AstNode) (opts : CodegenOptions) :
    generate_lines ast opts =
      instruction_section ast opts ++
        (if (run_emitter ast opts).declared = [] then [] else data_section ast opts) := by
  have hinv := run_emitter_inv ast opts
  have hj := join_bss_eq_empty_iff hinv
  have h32 : (TargetArch.X86_32 == TargetArch.X86_64) = false := rfl
  have h64 : (TargetArch.X86_64 == TargetArch.X86_64) = true := rfl
  have hdata : (if (String.join (run_emitter ast opts).bss != "") = true then
        AsmLine.raw "section .bss\n" :: (run_emitter ast opts).bss.map AsmLine.raw else []) =
      (if (run_emitter ast opts).declared = [] then [] else data_section ast opts) := by
    by_cases hd : (run_emitter ast opts).declared = []
    · rw [if_pos hd, if_neg]
      simp [hj.2 hd]
    · rw [if_neg hd, if_pos]
      · simp [data_section, hinv.1, List.map_map, Function.comp_def]
      · simpa using fun h => hd (hj.1 h)
  obtain ⟨arch, os⟩ := opts
  cases arch
  · simp only [generate_lines, hdata, h32, Bool.false_eq_true, if_false, run_emitter_text]
    simp [instruction_section, areg, is64, Reg.narrow]
  · simp only [generate_lines, hdata, h64, if_true, run_emitter_text]
    simp [instruction_section, areg, is64]

/-- The header of the data section is not a line of the instruction section. -/
theorem bss_header_not_mem_instruction_section (ast : AstNode) (opts : CodegenOptions) :
    AsmLine.raw "section .bss\n" ∉ instruction_section ast opts := by
  obtain ⟨arch, os⟩ := opts
  cases arch <;> simp [instruction_section]

/-! ## The platform option -/

/-- The emitter reads only the architecture of its options. -/
theorem emit_expr_os (arch : TargetArch) (os1 os2 : TargetOS) (node : AstNode) :
    ∀ E : Emitter, emit_expr { arch := arch, os := os1 } node E =
      emit_expr { arch := arch, os := os2 } node E := by
  induction node using AstNode_induct with
  | h t args ih =>
    intro E
    cases t with
    | LITERAL => rfl
    | PROG =>
      rw [emit_expr_prog, emit_expr_prog]
      induction args generalizing E with
      | nil => rfl
      | cons a rest ihr =>
        have ih' := fun E' => ihr (fun b hb => ih b (List.mem_cons_of_mem _ hb)) E'
        match a with
        | .mk _ none => exact ih' E
        | .mk _ (some n) =>
          simp only [emit_stmts]
          rw [ih _ (List.mem_cons_self _ _) n rfl E]
          exact ih' _
    | BINOP =>
      rw [emit_expr_binop, emit_expr_binop]
      cases hp : binop_parts args with
      | none => rfl
      | some p =>
        obtain ⟨l, op, r⟩ := p
        obtain ⟨⟨a, ha, hl⟩, ⟨b, hb, hr⟩⟩ := binop_parts_mem hp
        simp only []
        rw [ih a ha l hl E, ih b hb r hr]
        rfl
    | ASSIGN =>
      rw [emit_expr_assign, emit_expr_assign]
      cases hp : assign_parts args with
      | none => rfl
      | some p =>
        obtain ⟨id, rhs⟩ := p
        obtain ⟨a, ha, hr⟩ := assign_parts_mem hp
        simp only []
        rw [ih a ha rhs hr]
        rfl

theorem declare_all_os (arch : TargetArch) (os1 os2 : TargetOS) (vars : List String) :
    ∀ E : Emitter, declare_all { arch := arch, os := os1 } vars E =
      declare_all { arch := arch, os := os2 } vars E := by
  induction vars with
  | nil => intro E; rfl
  | cons v rest ih =>
    intro E
    simp only [declare_all]
    rw [ih]
    rfl

theorem run_emitter_os (arch : TargetArch) (os1 os2 : TargetOS) (ast : AstNode) :
    run_emitter ast { arch := arch, os := os1 } = run_emitter ast { arch := arch, os := os2 } := by
  unfold run_emitter
  rw [emit_expr_os arch os1 os2, declare_all_os arch os1 os2]

/-- C14: the platform option does not influence the output.  For every tree
and every architecture, `generate_asm` writes the same lines, hence returns
the same text, whatever the value of `os`; in particular for `Linux` and
`Windows`. -/
theorem C14_os_independent (ast : AstNode) (arch : TargetArch) :
    generate_asm ast { arch := arch, os := TargetOS.Linux } =
      generate_asm ast { arch := arch, os := TargetOS.Windows } ∧
    (∀ os1 os2 : TargetOS,
      generate_asm ast { arch := arch, os := os1 } =
        generate_asm ast { arch := arch, os := os2 }) := by
  have key : ∀ os1 os2 : TargetOS,
      generate_lines ast { arch := arch, os := os1 } =
        generate_lines ast { arch := arch, os := os2 } := by
    intro os1 os2
    unfold generate_lines
    rw [run_emitter_os arch os1 os2]
  have key2 : ∀ os1 os2 : TargetOS,
      generate_asm ast { arch := arch, os := os1 } =
        generate_asm ast { arch := arch, os := os2 } := by
    intro os1 os2
    unfold generate_asm
    rw [key os1 os2]
  exact ⟨key2 _ _, key2⟩

/-! ## Shape of the parser output -/

theorem subnodes_empty_literal : subnodes empty_literal = [empty_literal] := by
  simp [empty_literal, subnodes, subnodes_args]

theorem subnodes_literal_of (t : Token) : subnodes (literal_of t) = [literal_of t] := by
  simp [literal_of, new_args, new_arg_token, subnodes, subnodes_args]

theorem subnodes_mk_binop (l : AstNode) (op : Token) (r : AstNode) :
    subnodes (mk_binop l op r) = mk_binop l op r :: (subnodes l ++ subnodes r) := by
  simp [mk_binop, new_args, new_arg_token, new_arg_node, subnodes, subnodes_args]

theorem subnodes_mk_assign (id : Token) (rhs : AstNode) :
    subnodes (mk_assign id rhs) = mk_assign id rhs :: subnodes rhs := by
  simp [mk_assign, new_args, new_arg_token, new_arg_node, subnodes, subnodes_args]

theorem subnodes_args_map (stmts : List AstNode) :
    subnodes_args (stmts.map new_arg_node) = (stmts.map subnodes).flatten := by
  induction stmts with
  | nil => rfl
  | cons s rest ih => simp [new_arg_node, subnodes_args, ← ih]

theorem subnodes_mk_prog (stmts : List AstNode) :
    subnodes (mk_prog stmts) = mk_prog stmts :: (stmts.map subnodes).flatten := by
  simp [mk_prog, subnodes, subnodes_args_map]

theorem subnodes_self (n : AstNode) : n ∈ subnodes n := by
  obtain ⟨t, args⟩ := n
  simp [subnodes]

/-- Every node that an expression routine returns has one of the three
expression shapes, provided the accumulated left operand has. -/
theorem Parses_shape {k : Rule} {tks : TokenList} {n : AstNode} {rest : TokenList}
    (h : Parses k tks n rest) :
    (∀ a ∈ k.acc, ∀ m ∈ subnodes a, expr_node_shape m) → ∀ m ∈ subnodes n, expr_node_shape m := by
  have hbin : ∀ (l : AstNode) (op : Token) (r : AstNode),
      (is_add_token op = true ∨ is_mul_token op = true) →
      (∀ m ∈ subnodes l, expr_node_shape m) → (∀ m ∈ subnodes r, expr_node_shape m) →
      ∀ m ∈ subnodes (mk_binop l op r), expr_node_shape m := by
    intro l op r hop hl hr m hm
    rw [subnodes_mk_binop, List.mem_cons, List.mem_append] at hm
    rcases hm with hm | hm | hm
    · exact Or.inr (Or.inr ⟨l, op, r, hm, hop⟩)
    · exact hl m hm
    · exact hr m hm
  induction h with
  | value_eof tks h =>
    intro _ m hm
    rw [subnodes_empty_literal, List.mem_singleton] at hm
    exact Or.inl hm
  | value_paren t tks1 inner tks2 h1 h2 he ih => intro _; exact ih (by simp [Rule.acc])
  | value_token t tks1 h1 h2 =>
    intro _ m hm
    rw [subnodes_literal_of, List.mem_singleton] at hm
    exact Or.inr (Or.inl ⟨t, hm⟩)
  | term tks left tks1 n tks2 hv hl ihv ihl =>
    intro _
    have := ihv (by simp [Rule.acc])
    exact ihl (by simpa [Rule.acc] using this)
  | term_done left tks h => intro hl; exact hl left (by simp [Rule.acc])
  | term_step left op tks1 right tks2 n tks3 h hv hl ihv ihl =>
    intro hacc
    have h1 := hacc left (by simp [Rule.acc])
    have h2 := ihv (by simp [Rule.acc])
    rw [is_mul_op_cons] at h
    exact ihl (by simpa [Rule.acc] using hbin left op right (Or.inr h) h1 h2)
  | expr tks left tks1 n tks2 hv hl ihv ihl =>
    intro _
    have := ihv (by simp [Rule.acc])
    exact ihl (by simpa [Rule.acc] using this)
  | expr_done left tks h => intro hl; exact hl left (by simp [Rule.acc])
  | expr_step left op tks1 right tks2 n tks3 h hv hl ihv ihl =>
    intro hacc
    have h1 := hacc left (by simp [Rule.acc])
    have h2 := ihv (by simp [Rule.acc])
    rw [is_add_op_cons] at h
    exact ihl (by simpa [Rule.acc] using hbin left op right (Or.inl h) h1 h2)

/-- The nodes of a statement: expression nodes, below at most one `ASSIGN` of
an identifier at the root. -/
theorem StmtParses_nodes {tks : TokenList} {s : AstNode} {rest : TokenList}
    (h : StmtParses tks s rest) :
    ∀ m ∈ subnodes s, expr_node_shape m ∨
      ∃ id rhs, m = mk_assign id rhs ∧ id.t_type = token_t.IDENTIFIER := by
  rcases h with ⟨h1, id, eq, tks2, rhs, h2, h3, h4⟩ | ⟨_, h2⟩
  · subst h2
    obtain ⟨id', eq', rest', h5, h6, _, _⟩ := (starts_assign_iff _).1 h1
    simp only [List.cons.injEq] at h5
    intro m hm
    rw [h4, subnodes_mk_assign, List.mem_cons] at hm
    rcases hm with hm | hm
    · exact Or.inr ⟨id, rhs, hm, by rw [h5.1]; exact h6⟩
    · exact Or.inl (Parses_shape h3 (by simp [Rule.acc]) m hm)
  · intro m hm
    exact Or.inl (Parses_shape h2 (by simp [Rule.acc]) m hm)

theorem StmtsParse_nodes {tks : TokenList} {ss : List AstNode} {rest : TokenList}
    (h : StmtsParse tks ss rest) :
    ∀ s ∈ ss, ∀ m ∈ subnodes s, expr_node_shape m ∨
      ∃ id rhs, m = mk_assign id rhs ∧ id.t_type = token_t.IDENTIFIER := by
  induction h with
  | done tks h => intro s hs; cases hs
  | step tks s tks1 ss rest h hs hl ih =>
    intro s' hs'
    rcases List.mem_cons.1 hs' with h1 | h1
    · rw [h1]; exact StmtParses_nodes hs
    · exact ih s' h1

/-- C15: shape invariant of the parser output.  For every token list,
`parse_prog` returns a `PROG` node all of whose arguments are child nodes
(the statements), and in the returned tree: every `BINOP` node has exactly
the three arguments child, operator token, child, the operator being a
`SYMBOLIC` token with value among `+ - * / %`; every `ASSIGN` node has
exactly the two arguments `IDENTIFIER` token, child; every `LITERAL` node has
no argument or the single argument of one token, and no child; the only
`PROG` node is the root.  Hence the emitter finds the operands and the
operator of every `BINOP` and the target and the value of every `ASSIGN`, and
the code of the operator is never the zeroing fallback. -/
theorem C15_parser_shape (tks : TokenList) :
    ∃ (n : AstNode) (rest : TokenList) (stmts : List AstNode),
      parse_prog tks = some (n, rest) ∧
      n = AstNode.mk NodeType.PROG (stmts.map new_arg_node) ∧
      ∀ m ∈ subnodes n,
        (m.n_type = NodeType.BINOP → ∃ l op r,
          m.args = [NodeArg.mk none (some l), NodeArg.mk (some op) none,
            NodeArg.mk none (some r)] ∧
          op.t_type = token_t.SYMBOLIC ∧
          (op.value = "+" ∨ op.value = "-" ∨ op.value = "*" ∨ op.value = "/" ∨
            op.value = "%") ∧
          binop_parts m.args = some (l, op, r) ∧
          ∀ opts : CodegenOptions, zero_acc opts ∉ operator_code opts op.value) ∧
        (m.n_type = NodeType.ASSIGN → ∃ id rhs,
          m.args = [NodeArg.mk (some id) none, NodeArg.mk none (some rhs)] ∧
          id.t_type = token_t.IDENTIFIER ∧ assign_parts m.args = some (id, rhs)) ∧
        (m.n_type = NodeType.LITERAL →
          m.args = [] ∨ ∃ t : Token, m.args = [NodeArg.mk (some t) none]) ∧
        (m.n_type = NodeType.PROG → m = n) := by
  obtain ⟨⟨n, rest⟩, hr⟩ := parse_prog_total tks
  obtain ⟨stmts, h1, h2⟩ := (parse_prog_iff _ _ _).1 hr
  refine ⟨n, rest, stmts, hr, h1, ?_⟩
  have hnodes := StmtsParse_nodes h2
  intro m hm
  have hn : n = mk_prog stmts := h1
  rw [hn, subnodes_mk_prog, List.mem_cons] at hm
  rcases hm with hm | hm
  · rw [hm, hn]
    exact ⟨fun h => (by cases h), fun h => (by cases h), fun h => (by cases h), fun _ => rfl⟩
  · obtain ⟨l, hl, hml⟩ := List.mem_flatten.1 hm
    obtain ⟨s, hs, rfl⟩ := List.mem_map.1 hl
    rcases hnodes s hs m hml with (h | ⟨t, h⟩ | ⟨l, op, r, h, hop⟩) | ⟨id, rhs, h, hid⟩
    · rw [h]
      exact ⟨fun h => (by cases h), fun h => (by cases h), fun _ => Or.inl rfl, fun h => (by cases h)⟩
    · rw [h]
      exact ⟨fun h => (by cases h), fun h => (by cases h), fun _ => Or.inr ⟨t, rfl⟩,
        fun h => (by cases h)⟩
    · rw [h]
      have hv := operator_value hop
      exact ⟨fun _ => ⟨l, op, r, rfl, hv.1, hv.2, rfl,
          fun opts => zero_acc_not_mem_operator_code opts hv.2⟩,
        fun h => (by cases h), fun h => (by cases h), fun h => (by cases h)⟩
    · rw [h]
      exact ⟨fun h => (by cases h), fun _ => ⟨id, rhs, rfl, hid, rfl⟩, fun h => (by cases h),
        fun h => (by cases h)⟩

/-- C15 at the tokens of `a=b+1`: the root `ASSIGN` and the `BINOP` below it
have the shapes that the emitter expects. -/
theorem C15_parser_shape_witness :
    parse_prog [ident "a", sym "=", ident "b", sym "+", num "1", eof_token] =
      some (prog_a_eq_b_plus_1, [eof_token]) ∧
    subnodes prog_a_eq_b_plus_1 =
      [prog_a_eq_b_plus_1,
        mk_assign (ident "a") (mk_binop (literal_of (ident "b")) (sym "+") (literal_of (num "1"))),
        mk_binop (literal_of (ident "b")) (sym "+") (literal_of (num "1")),
        literal_of (ident "b"), literal_of (num "1")] ∧
    ∃ (n : AstNode) (rest : TokenList) (stmts : List AstNode),
      parse_prog [ident "a", sym "=", ident "b", sym "+", num "1", eof_token] = some (n, rest) ∧
      n = AstNode.mk NodeType.PROG (stmts.map new_arg_node) ∧
      ∀ m ∈ subnodes n,
        (m.n_type = NodeType.BINOP → ∃ l op r,
          m.args = [NodeArg.mk none (some l), NodeArg.mk (some op) none,
            NodeArg.mk none (some r)] ∧
          op.t_type = token_t.SYMBOLIC ∧
          (op.value = "+" ∨ op.value = "-" ∨ op.value = "*" ∨ op.value = "/" ∨
            op.value = "%") ∧
          binop_parts m.args = some (l, op, r) ∧
          ∀ opts : CodegenOptions, zero_acc opts ∉ operator_code opts op.value) ∧
        (m.n_type = NodeType.ASSIGN → ∃ id rhs,
          m.args = [NodeArg.mk (some id) none, NodeArg.mk none (some rhs)] ∧
          id.t_type = token_t.IDENTIFIER ∧ assign_parts m.args = some (id, rhs)) ∧
        (m.n_type = NodeType.LITERAL →
          m.args = [] ∨ ∃ t : Token, m.args = [NodeArg.mk (some t) none]) ∧
        (m.n_type = NodeType.PROG → m = n) :=
  ⟨rfl, rfl,
    C15_parser_shape [ident "a", sym "=", ident "b", sym "+", num "1", eof_token]⟩

/-! ## What `collect_vars` reaches -/

theorem mem_collect_tk (tk : Option Token) (vars : VarSet) (s : String) :
    s ∈ collect_tk tk vars ↔ s ∈ vars ∨ s ∈ tk_idents tk := by
  cases tk with
  | none => simp [collect_tk, tk_idents]
  | some t =>
    by_cases h : t.t_type = token_t.IDENTIFIER
    · simp only [collect_tk, tk_idents, h, beq_self_eq_true, if_true, mem_insert,
        List.mem_singleton]
    · have hb : (t.t_type == token_t.IDENTIFIER) = false := by simpa using h
      simp [collect_tk, tk_idents, hb]

theorem nodup_collect_tk (tk : Option Token) (vars : VarSet) (h : vars.Nodup) :
    (collect_tk tk vars).Nodup := by
  cases tk with
  | none => exact h
  | some t =>
    simp only [collect_tk]
    split
    · exact nodup_insert vars _ h
    · exact h

theorem mem_collect_first_ident (args : List NodeArg) (vars : VarSet) (s : String) :
    s ∈ collect_first_ident args vars ↔ s ∈ vars ∨ s ∈ first_ident args := by
  induction args with
  | nil => simp [collect_first_ident, first_ident]
  | cons a rest ih =>
    match a with
    | .mk none _ => simpa [collect_first_ident, first_ident] using ih
    | .mk (some t) _ =>
      by_cases h : t.t_type = token_t.IDENTIFIER
      · simp only [collect_first_ident, first_ident, h, beq_self_eq_true, if_true, mem_insert,
          List.mem_singleton]
      · have hb : (t.t_type == token_t.IDENTIFIER) = false := by simpa using h
        simpa [collect_first_ident, first_ident, hb] using ih

theorem nodup_collect_first_ident (args : List NodeArg) (vars : VarSet) (h : vars.Nodup) :
    (collect_first_ident args vars).Nodup := by
  induction args with
  | nil => exact h
  | cons a rest ih =>
    match a with
    | .mk none _ => simpa [collect_first_ident] using ih
    | .mk (some t) _ =>
      simp only [collect_first_ident]
      split
      · exact nodup_insert vars _ h
      · exact ih

theorem mem_collect_literal (args : List NodeArg) :
    ∀ (vars : VarSet) (s : String),
      s ∈ collect_literal args vars ↔ s ∈ vars ∨ s ∈ args_idents args := by
  induction args with
  | nil => intro vars s; simp [collect_literal, args_idents]
  | cons a rest ih =>
    intro vars s
    obtain ⟨tk, n⟩ := a
    simp only [collect_literal, args_idents, ih, mem_collect_tk, List.mem_append]
    tauto

theorem nodup_collect_literal (args : List NodeArg) :
    ∀ vars : VarSet, vars.Nodup → (collect_literal args vars).Nodup := by
  induction args with
  | nil => intro vars h; exact h
  | cons a rest ih =>
    intro vars h
    obtain ⟨tk, n⟩ := a
    simp only [collect_literal]
    exact ih _ (nodup_collect_tk tk vars h)

/-- The loop over the children, given what each child collects. -/
theorem mem_collect_nodes (args : List NodeArg)
    (ih : ∀ a ∈ args, ∀ n, a.node = some n → ∀ (vars : VarSet),
      (∀ s, s ∈ collect_vars n vars ↔ s ∈ vars ∨ s ∈ reached_idents n) ∧
      (vars.Nodup → (collect_vars n vars).Nodup)) :
    ∀ vars : VarSet,
      (∀ s, s ∈ collect_nodes args vars ↔ s ∈ vars ∨ s ∈ reached_args args) ∧
      (vars.Nodup → (collect_nodes args vars).Nodup) := by
  induction args with
  | nil => intro vars; simp [collect_nodes, reached_args]
  | cons a rest ihr =>
    intro vars
    have ih' := ihr (fun b hb => ih b (List.mem_cons_of_mem _ hb))
    match a with
    | .mk _ none => simpa [collect_nodes, reached_args] using ih' vars
    | .mk _ (some n) =>
      have hn := ih _ (List.mem_cons_self _ _) n rfl vars
      have hr := ih' (collect_vars n vars)
      simp only [collect_nodes, reached_args, List.mem_append]
      refine ⟨fun s => ?_, fun h => hr.2 (hn.2 h)⟩
      rw [hr.1, hn.1]
      tauto

/-- The loop of the `BINOP` case, given what each child collects. -/
theorem mem_collect_binop (args : List NodeArg)
    (ih : ∀ a ∈ args, ∀ n, a.node = some n → ∀ (vars : VarSet),
      (∀ s, s ∈ collect_vars n vars ↔ s ∈ vars ∨ s ∈ reached_idents n) ∧
      (vars.Nodup → (collect_vars n vars).Nodup)) :
    ∀ vars : VarSet,
      (∀ s, s ∈ collect_binop args vars ↔
        s ∈ vars ∨ s ∈ args_idents args ∨ s ∈ reached_args args) ∧
      (vars.Nodup → (collect_binop args vars).Nodup) := by
  induction args with
  | nil => intro vars; simp [collect_binop, reached_args, args_idents]
  | cons a rest ihr =>
    intro vars
    have ih' := ihr (fun b hb => ih b (List.mem_cons_of_mem _ hb))
    match a with
    | .mk tk none =>
      have hr := ih' (collect_tk tk vars)
      simp only [collect_binop, reached_args, args_idents, List.mem_append]
      refine ⟨fun s => ?_, fun h => hr.2 (nodup_collect_tk tk vars h)⟩
      rw [hr.1, mem_collect_tk]
      tauto
    | .mk tk (some n) =>
      have hn := ih _ (List.mem_cons_self _ _) n rfl vars
      have hr := ih' (collect_tk tk (collect_vars n vars))
      simp only [collect_binop, reached_args, args_idents, List.mem_append]
      refine ⟨fun s => ?_, fun h => hr.2 (nodup_collect_tk tk _ (hn.2 h))⟩
      rw [hr.1, mem_collect_tk, hn.1]
      tauto

/-- What `collect_vars` adds to a set is what the traversal reaches. -/
theorem mem_collect_vars (node : AstNode) :
    ∀ vars : VarSet,
      (∀ s, s ∈ collect_vars node vars ↔ s ∈ vars ∨ s ∈ reached_idents node) ∧
      (vars.Nodup → (collect_vars node vars).Nodup) := by
  induction node using AstNode_induct with
  | h t args ih =>
    intro vars
    cases t with
    | LITERAL =>
      simp only [collect_vars, reached_idents]
      exact ⟨mem_collect_literal args vars, nodup_collect_literal args vars⟩
    | PROG =>
      simp only [collect_vars, reached_idents]
      exact mem_collect_nodes args ih vars
    | BINOP =>
      simp only [collect_vars, reached_idents, List.mem_append]
      exact mem_collect_binop args ih vars
    | ASSIGN =>
      simp only [collect_vars, reached_idents, List.mem_append]
      have h := mem_collect_nodes args ih (collect_first_ident args vars)
      refine ⟨fun s => ?_, fun hv => h.2 (nodup_collect_first_ident args vars hv)⟩
      rw [h.1, mem_collect_first_ident]
      tauto

theorem first_ident_subset (args : List NodeArg) : first_ident args ⊆ args_idents args := by
  induction args with
  | nil => exact fun _ h => h
  | cons a rest ih =>
    match a with
    | .mk none _ =>
      intro s hs
      simp only [first_ident] at hs
      simp only [args_idents, List.mem_append]
      exact Or.inr (ih hs)
    | .mk (some t) _ =>
      intro s hs
      simp only [first_ident] at hs
      simp only [args_idents, tk_idents, List.mem_append]
      split at hs
      · rename_i h
        left
        simpa [h] using hs
      · exact Or.inr (ih hs)

theorem args_idents_subset (args : List NodeArg) : args_idents args ⊆ all_idents_args args := by
  induction args with
  | nil => exact fun _ h => h
  | cons a rest ih =>
    intro s hs
    match a with
    | .mk tk none =>
      simp only [args_idents, List.mem_append] at hs
      simp only [all_idents_args, List.mem_append]
      exact hs.imp id (fun h => ih h)
    | .mk tk (some n) =>
      simp only [args_idents, List.mem_append] at hs
      simp only [all_idents_args, List.mem_append]
      rcases hs with hs | hs
      · exact Or.inl hs
      · exact Or.inr (Or.inr (ih hs))

theorem reached_args_subset (args : List NodeArg)
    (ih : ∀ a ∈ args, ∀ n, a.node = some n → reached_idents n ⊆ all_idents n) :
    reached_args args ⊆ all_idents_args args := by
  induction args with
  | nil => exact fun _ h => h
  | cons a rest ihr =>
    have ih' := ihr (fun b hb => ih b (List.mem_cons_of_mem _ hb))
    intro s hs
    match a with
    | .mk tk none =>
      simp only [reached_args] at hs
      simp only [all_idents_args, List.mem_append]
      exact Or.inr (ih' hs)
    | .mk tk (some n) =>
      have hn := ih _ (List.mem_cons_self _ _) n rfl
      simp only [reached_args, List.mem_append] at hs
      simp only [all_idents_args, List.mem_append]
      rcases hs with hs | hs
      · exact Or.inr (Or.inl (hn hs))
      · exact Or.inr (Or.inr (ih' hs))

/-- Everything the traversal reaches is an identifier token of the tree. -/
theorem reached_idents_subset (node : AstNode) : reached_idents node ⊆ all_idents node := by
  induction node using AstNode_induct with
  | h t args ih =>
    have hr := reached_args_subset args ih
    intro s hs
    cases t with
    | LITERAL =>
      simp only [reached_idents] at hs
      exact args_idents_subset args hs
    | PROG =>
      simp only [reached_idents] at hs
      exact hr hs
    | BINOP =>
      simp only [reached_idents, List.mem_append] at hs
      rcases hs with hs | hs
      · exact args_idents_subset args hs
      · exact hr hs
    | ASSIGN =>
      simp only [reached_idents, List.mem_append] at hs
      rcases hs with hs | hs
      · exact args_idents_subset args (first_ident_subset args hs)
      · exact hr hs

/-- C16 as stated fails: `collect_vars` does not insert every identifier token
of an arbitrary tree.  An identifier token in an argument of a `PROG` node, an
identifier token after the first one among the arguments of an `ASSIGN` node,
and an identifier token below a child pointer of a `LITERAL` node all occur in
the tree and are not collected. -/
theorem C16_collect_vars_counterexample :
    "x" ∈ all_idents prog_with_token ∧ collect_vars prog_with_token [] = [] ∧
    "b" ∈ all_idents assign_two_idents ∧ collect_vars assign_two_idents [] = ["a"] ∧
    "y" ∈ all_idents literal_with_child ∧ collect_vars literal_with_child [] = [] ∧
    ¬ (∀ (ast : AstNode) (s : String), s ∈ collect_vars ast [] ↔ s ∈ all_idents ast) := by
  refine ⟨by decide, rfl, by decide, rfl, by decide, rfl, ?_⟩
  intro h
  have h1 : "x" ∈ collect_vars prog_with_token [] := (h prog_with_token "x").2 (by decide)
  exact absurd h1 (by decide)

/-- C16 amended: for every tree, `collect_vars` returns exactly the values of
the identifier tokens that its traversal reaches, each once: the first
`IDENTIFIER` token among the arguments of an `ASSIGN` node, every `IDENTIFIER`
token among the arguments of a `BINOP` or `LITERAL` node, in the root and in
every node below child pointers of `ASSIGN`, `BINOP` and `PROG` nodes.
Nothing else is inserted: every collected name is the value of an
`IDENTIFIER` token of the tree. -/
theorem C16_collect_vars_reached (ast : AstNode) :
    (∀ s : String, s ∈ collect_vars ast [] ↔ s ∈ reached_idents ast) ∧
    (collect_vars ast []).Nodup ∧
    (∀ s ∈ collect_vars ast [], s ∈ all_idents ast) ∧
    (∀ (vars : VarSet) (s : String),
      s ∈ collect_vars ast vars ↔ s ∈ vars ∨ s ∈ reached_idents ast) := by
  have h := mem_collect_vars ast
  have h0 : ∀ s : String, s ∈ collect_vars ast [] ↔ s ∈ reached_idents ast := by
    intro s
    rw [(h []).1 s]
    simp
  exact ⟨h0, (h []).2 List.nodup_nil, fun s hs => reached_idents_subset ast ((h0 s).1 hs),
    fun vars => (h vars).1⟩

/-- C16 amended, at the `ASSIGN` with two identifier tokens (only the first is
reached) and at the program `a=b+1` (both identifiers are reached). -/
theorem C16_collect_vars_reached_witness :
    reached_idents assign_two_idents = ["a"] ∧
    all_idents assign_two_idents = ["a", "b"] ∧
    reached_idents prog_a_eq_b_plus_1 = ["a", "b"] ∧
    collect_vars prog_a_eq_b_plus_1 [] = ["a", "b"] ∧
    (∀ s : String, s ∈ collect_vars assign_two_idents [] ↔ s ∈ reached_idents assign_two_idents) ∧
    (∀ s ∈ collect_vars prog_a_eq_b_plus_1 [], s ∈ all_idents prog_a_eq_b_plus_1) :=
  ⟨rfl, rfl, rfl, rfl, (C16_collect_vars_reached assign_two_idents).1,
    (C16_collect_vars_reached prog_a_eq_b_plus_1).2.2.1⟩

/-! ## Every memory operand has a slot -/

theorem mem_mem_names (l : List Instr) (name : String) :
    name ∈ mem_names l ↔ ∃ i ∈ l, name ∈ i.mem_names := by
  induction l with
  | nil => simp [mem_names]
  | cons i rest ih => simp [mem_names, ih]

/-- The code of a `BINOP` whose operands are found. -/
theorem code_binop (opts : CodegenOptions) {args : List NodeArg} {l r : AstNode} {op : Token}
    (h : binop_parts args = some (l, op, r)) :
    code opts (AstNode.mk NodeType.BINOP args) =
      code opts l ++ [push_acc opts] ++ code opts r ++ [pop_left opts] ++
        operator_code opts op.value := by
  simp only [code, emit_expr_binop, h]
  rw [emit_operator_text, put_text, emit_expr_text, put_text, emit_expr_text]
  simp [operator_code, Emitter.init, code]

/-- The code of an `ASSIGN` whose parts are found. -/
theorem code_assign (opts : CodegenOptions) {args : List NodeArg} {id : Token} {rhs : AstNode}
    (h : assign_parts args = some (id, rhs)) :
    code opts (AstNode.mk NodeType.ASSIGN args) = code opts rhs ++ [store_acc opts id.value] := by
  simp only [code, emit_expr_assign, h]
  rw [put_text, emit_expr_text, declare_var_text]
  simp [Emitter.init, code]

theorem code_binop_none (opts : CodegenOptions) {args : List NodeArg}
    (h : binop_parts args = none) :
    code opts (AstNode.mk NodeType.BINOP args) = [zero_acc opts] := by
  simp [code, emit_expr_binop, h, put_text, Emitter.init]

theorem code_assign_none (opts : CodegenOptions) {args : List NodeArg}
    (h : assign_parts args = none) :
    code opts (AstNode.mk NodeType.ASSIGN args) = [zero_acc opts] := by
  simp [code, emit_expr_assign, h, put_text, Emitter.init]

/-- The code of a `PROG`: nothing for an argument without child, the code of
the child otherwise. -/
theorem code_prog_cons (opts : CodegenOptions) (tk : Option Token) (n : AstNode)
    (rest : List NodeArg)
    (ih : ∀ a ∈ rest, ∀ m, a.node = some m →
      ∀ E, (emit_expr opts m E).text = E.text ++ code opts m) :
    code opts (AstNode.mk NodeType.PROG (NodeArg.mk tk (some n) :: rest)) =
      code opts n ++ code opts (AstNode.mk NodeType.PROG rest) := by
  simp only [code, emit_expr_prog, emit_stmts]
  rw [emit_stmts_text opts rest ih]

theorem code_prog_skip (opts : CodegenOptions) (tk : Option Token) (rest : List NodeArg) :
    code opts (AstNode.mk NodeType.PROG (NodeArg.mk tk none :: rest)) =
      code opts (AstNode.mk NodeType.PROG rest) := by
  simp only [code, emit_expr_prog, emit_stmts]

theorem code_prog_nil (opts : CodegenOptions) : code opts (AstNode.mk NodeType.PROG []) = [] :=
  rfl

/-- The code of a `LITERAL` is one instruction: a load of a number, a load of a
variable named by an identifier token of the node, or the zeroing instruction. -/
theorem code_literal_cases (opts : CodegenOptions) (args : List NodeArg) :
    code opts (AstNode.mk NodeType.LITERAL args) = [zero_acc opts] ∨
    (∃ v, code opts (AstNode.mk NodeType.LITERAL args) = [.mov (.reg (areg opts .rax)) (.imm v)]) ∨
    (∃ name, name ∈ args_idents args ∧
      code opts (AstNode.mk NodeType.LITERAL args) = [load_acc opts name]) := by
  have hft : ∀ (a : List NodeArg) (tk : Token), first_token a = some tk →
      tk.t_type = token_t.IDENTIFIER → tk.value ∈ args_idents a := by
    intro a
    induction a with
    | nil => intro tk h; cases h
    | cons x rest ih =>
      intro tk h hid
      match x with
      | .mk none _ =>
        simp only [first_token] at h
        simp only [args_idents, List.mem_append]
        exact Or.inr (ih tk h hid)
      | .mk (some t) _ =>
        simp only [first_token, Option.some.injEq] at h
        subst h
        simp [args_idents, tk_idents, hid]
  simp only [code, emit_expr_literal, emit_literal]
  cases hf : first_token args with
  | none => left; rfl
  | some tk =>
    simp only []
    by_cases h1 : tk.t_type = token_t.NUMBERLITERAL
    · right; left
      refine ⟨tk.value, ?_⟩
      obtain ⟨arch, os⟩ := opts
      cases arch <;> simp [h1, is64, areg, Reg.narrow, Emitter.init, Emitter.put]
    · have hb1 : (tk.t_type == token_t.NUMBERLITERAL) = false := by simpa using h1
      by_cases h2 : tk.t_type = token_t.IDENTIFIER
      · right; right
        refine ⟨tk.value, hft args tk hf h2, ?_⟩
        obtain ⟨arch, os⟩ := opts
        cases arch <;> simp [h2, is64, load_acc, Emitter.init, Emitter.put]
      · have hb2 : (tk.t_type == token_t.IDENTIFIER) = false := by simpa using h2
        left
        simp [hb1, hb2, Emitter.init, Emitter.put]

theorem mem_names_zero_acc (opts : CodegenOptions) : (zero_acc opts).mem_names = [] := by
  obtain ⟨arch, os⟩ := opts
  cases arch <;> rfl

theorem mem_names_push_acc (opts : CodegenOptions) : (push_acc opts).mem_names = [] := by
  obtain ⟨arch, os⟩ := opts
  cases arch <;> rfl

theorem mem_names_pop_left (opts : CodegenOptions) : (pop_left opts).mem_names = [] := by
  obtain ⟨arch, os⟩ := opts
  cases arch <;> rfl

theorem mem_names_load_acc (opts : CodegenOptions) (name : String) :
    (load_acc opts name).mem_names = [name] := by
  obtain ⟨arch, os⟩ := opts
  cases arch <;> rfl

theorem mem_names_store_acc (opts : CodegenOptions) (name : String) :
    (store_acc opts name).mem_names = [name] := by
  obtain ⟨arch, os⟩ := opts
  cases arch <;> rfl

/-- The code of an operator names no storage slot. -/
theorem mem_names_operator_code (opts : CodegenOptions) (o : String) :
    mem_names (operator_code opts o) = [] := by
  unfold operator_code emit_operator
  simp only [Emitter.init, Emitter.put, List.nil_append]
  repeat' split
  all_goals first | rfl | simp [mem_names, mem_names_zero_acc]

theorem reached_args_of_mem {args : List NodeArg} {a : NodeArg} {n : AstNode}
    (ha : a ∈ args) (hn : a.node = some n) : reached_idents n ⊆ reached_args args := by
  induction args with
  | nil => cases ha
  | cons x rest ih =>
    intro s hs
    rcases List.mem_cons.1 ha with h | h
    · subst h
      obtain ⟨tk, m⟩ := a
      simp only [NodeArg.node] at hn
      subst hn
      simp only [reached_args, List.mem_append]
      exact Or.inl hs
    · have := ih h hs
      match x with
      | .mk _ none => simpa [reached_args] using this
      | .mk _ (some m) =>
        simp only [reached_args, List.mem_append]
        exact Or.inr this

/-- The `PROG` case: the code of the children, in order. -/
theorem code_prog_mem_declared (opts : CodegenOptions) (args : List NodeArg)
    (ih : ∀ a ∈ args, ∀ n, a.node = some n →
      ∀ E : Emitter, ∀ i ∈ code opts n, ∀ name ∈ i.mem_names,
        (i = load_acc opts name ∨ i = store_acc opts name) ∧
        (name ∈ reached_idents n ∨ name ∈ (emit_expr opts n E).declared)) :
    ∀ E : Emitter, ∀ i ∈ code opts (AstNode.mk NodeType.PROG args), ∀ name ∈ i.mem_names,
      (i = load_acc opts name ∨ i = store_acc opts name) ∧
      (name ∈ reached_args args ∨ name ∈ (emit_stmts opts args E).declared) := by
  induction args with
  | nil => intro E i hi; rw [code_prog_nil] at hi; cases hi
  | cons a rest ihr =>
    intro E i hi name hname
    have ih' := ihr (fun b hb => ih b (List.mem_cons_of_mem _ hb))
    match a with
    | .mk tk none =>
      rw [code_prog_skip] at hi
      simpa [reached_args, emit_stmts] using ih' E i hi name hname
    | .mk tk (some n) =>
      rw [code_prog_cons opts tk n rest (fun _ _ m _ E' => emit_expr_text opts m E'),
        List.mem_append] at hi
      simp only [reached_args, emit_stmts, List.mem_append]
      rcases hi with hi | hi
      · have h := ih _ (List.mem_cons_self _ _) n rfl E i hi name hname
        refine ⟨h.1, ?_⟩
        rcases h.2 with h2 | h2
        · exact Or.inl (Or.inl h2)
        · exact Or.inr
            ((emit_expr_decl opts (AstNode.mk NodeType.PROG rest) (emit_expr opts n E)).2 h2)
      · have h := ih' (emit_expr opts n E) i hi name hname
        exact ⟨h.1, h.2.imp Or.inr id⟩

/-- Every memory operand in the code of a tree belongs to a load into, or a
store from, the accumulator, and names a variable that `collect_vars` reaches
in the tree or that is declared once the tree has been emitted. -/
theorem code_mem_declared (opts : CodegenOptions) (node : AstNode) :
    ∀ E : Emitter, ∀ i ∈ code opts node, ∀ name ∈ i.mem_names,
      (i = load_acc opts name ∨ i = store_acc opts name) ∧
      (name ∈ reached_idents node ∨ name ∈ (emit_expr opts node E).declared) := by
  induction node using AstNode_induct with
  | h t args ih =>
    intro E i hi name hname
    have hzero : ∀ j, j ∈ [zero_acc opts] → name ∈ j.mem_names → False := by
      intro j hj hn
      rw [List.mem_singleton] at hj
      rw [hj, mem_names_zero_acc] at hn
      cases hn
    cases t with
    | LITERAL =>
      rcases code_literal_cases opts args with h | ⟨v, h⟩ | ⟨x, hx, h⟩
      · rw [h] at hi
        exact (hzero i hi hname).elim
      · rw [h, List.mem_singleton] at hi
        rw [hi] at hname
        simp [Instr.mem_names, Operand.mem_names] at hname
      · rw [h, List.mem_singleton] at hi
        rw [hi, mem_names_load_acc, List.mem_singleton] at hname
        subst hname
        exact ⟨Or.inl hi, Or.inl hx⟩
    | PROG => exact code_prog_mem_declared opts args ih E i hi name hname
    | BINOP =>
      cases hp : binop_parts args with
      | none =>
        rw [code_binop_none opts hp] at hi
        exact (hzero i hi hname).elim
      | some p =>
        obtain ⟨l, op, r⟩ := p
        obtain ⟨⟨a, ha, hl⟩, ⟨b, hb, hr⟩⟩ := binop_parts_mem hp
        have h3 := emit_operator_decl opts op.value
          ((emit_expr opts r ((emit_expr opts l E).put (push_acc opts))).put (pop_left opts))
        have hfin : (emit_expr opts (AstNode.mk NodeType.BINOP args) E).declared =
            (emit_expr opts r ((emit_expr opts l E).put (push_acc opts))).declared := by
          rw [emit_expr_binop, hp]
          exact h3.2
        rw [code_binop opts hp] at hi
        simp only [List.mem_append, List.mem_singleton] at hi
        rw [hfin]
        simp only [reached_idents, List.mem_append]
        rcases hi with (((hi | hi) | hi) | hi) | hi
        · have h := ih a ha l hl E i hi name hname
          refine ⟨h.1, ?_⟩
          rcases h.2 with h2 | h2
          · exact Or.inl (Or.inr (reached_args_of_mem ha hl h2))
          · exact Or.inr ((emit_expr_decl opts r _).2 h2)
        · rw [hi, mem_names_push_acc] at hname
          cases hname
        · have h := ih b hb r hr ((emit_expr opts l E).put (push_acc opts)) i hi name hname
          refine ⟨h.1, ?_⟩
          rcases h.2 with h2 | h2
          · exact Or.inl (Or.inr (reached_args_of_mem hb hr h2))
          · exact Or.inr h2
        · rw [hi, mem_names_pop_left] at hname
          cases hname
        · have h : name ∈ mem_names (operator_code opts op.value) :=
            (mem_mem_names _ _).2 ⟨i, hi, hname⟩
          rw [mem_names_operator_code] at h
          cases h
    | ASSIGN =>
      cases hp : assign_parts args with
      | none =>
        rw [code_assign_none opts hp] at hi
        exact (hzero i hi hname).elim
      | some p =>
        obtain ⟨id, rhs⟩ := p
        obtain ⟨a, ha, hr⟩ := assign_parts_mem hp
        have hfin : (emit_expr opts (AstNode.mk NodeType.ASSIGN args) E).declared =
            (emit_expr opts rhs (declare_var opts id.value E)).declared := by
          rw [emit_expr_assign, hp]
          rfl
        rw [code_assign opts hp] at hi
        simp only [List.mem_append, List.mem_singleton] at hi
        rw [hfin]
        simp only [reached_idents, List.mem_append]
        rcases hi with hi | hi
        · have h := ih a ha rhs hr (declare_var opts id.value E) i hi name hname
          refine ⟨h.1, ?_⟩
          rcases h.2 with h2 | h2
          · exact Or.inl (Or.inr (reached_args_of_mem ha hr h2))
          · exact Or.inr h2
        · rw [hi, mem_names_store_acc, List.mem_singleton] at hname
          subst hname
          exact ⟨Or.inr hi,
            Or.inr ((emit_expr_decl opts rhs _).2 (declare_var_mem opts id.value E))⟩

/-- C17: every variable that the instruction section touches has a declared
slot.  For every tree, well formed or not, and every configuration, the body
that `generate_asm` places in the instruction section is the code of the
tree, and every memory operand in it belongs to a load `mov rax, [name]`
(`mov eax, [name]`) or to a store `mov [name], rax` (`mov [name], eax`), and
its `name` is declared: the data stream holds the slot line of `name` exactly
once, and the output consists of the instruction section followed by the data
section, which contains that line. -/
theorem C17_memory_operands_declared (ast : AstNode) (opts : CodegenOptions) :
    (run_emitter ast opts).text = code opts ast ∧
    (∀ name : String,
      (load_acc opts name).render =
        (if opts.arch = TargetArch.X86_64 then "mov rax, [" ++ name ++ "]\n"
          else "mov eax, [" ++ name ++ "]\n") ∧
      (store_acc opts name).render =
        (if opts.arch = TargetArch.X86_64 then "mov [" ++ name ++ "], rax\n"
          else "mov [" ++ name ++ "], eax\n")) ∧
    ∀ i ∈ code opts ast, ∀ name ∈ i.mem_names,
      (i = load_acc opts name ∨ i = store_acc opts name) ∧
      name ∈ (run_emitter ast opts).declared ∧
      (run_emitter ast opts).bss.count (bss_line opts name) = 1 ∧
      generate_lines ast opts = instruction_section ast opts ++ data_section ast opts ∧
      AsmLine.raw (bss_line opts name) ∈ data_section ast opts := by
  refine ⟨run_emitter_text ast opts, ?_, ?_⟩
  · intro name
    obtain ⟨arch, os⟩ := opts
    cases arch <;>
      simp only [load_acc, store_acc, is64, Instr.render, Operand.render, Reg.render] <;>
      constructor <;> apply String.ext <;> simp [String.data_append]
  · intro i hi name hname
    have hinv := run_emitter_inv ast opts
    have hall := declare_all_decl opts (collect_vars ast []) Emitter.init
    have h := code_mem_declared opts ast (declare_all opts (collect_vars ast []) Emitter.init)
      i hi name hname
    have hdecl : name ∈ (run_emitter ast opts).declared := by
      rcases h.2 with h2 | h2
      · have h3 : name ∈ collect_vars ast [] := ((mem_collect_vars ast []).1 name).2 (Or.inr h2)
        exact (emit_expr_decl opts ast _).2 (hall.2.2 name h3)
      · exact h2
    refine ⟨h.1, hdecl, ?_, ?_, ?_⟩
    · rw [hinv.1]
      exact List.count_eq_one_of_mem (hinv.2.map (bss_line_injective opts))
        (List.mem_map_of_mem _ hdecl)
    · rw [generate_lines_sections, if_neg (List.ne_nil_of_mem hdecl)]
    · exact List.mem_cons_of_mem _ (List.mem_map.2 ⟨name, hdecl, rfl⟩)

/-- C17 at a malformed program: the store to `9` is declared lazily, the load
of `b` eagerly; each has one slot line.  The slot lines are given up to their
order. -/
theorem C17_memory_operands_declared_witness :
    (code opts64 prog_malformed).map Instr.render =
      ["mov rax, [b]\n", "mov [9], rax\n", "xor rax, rax\n"] ∧
    (run_emitter prog_malformed opts64).bss.Perm
      ["b: resq 1\n", "c: resq 1\n", "9: resq 1\n"] ∧
    store_acc opts64 "9" ∈ code opts64 prog_malformed ∧
    "9" ∈ (store_acc opts64 "9").mem_names ∧
    ((store_acc opts64 "9" = load_acc opts64 "9" ∨ store_acc opts64 "9" = store_acc opts64 "9") ∧
      "9" ∈ (run_emitter prog_malformed opts64).declared ∧
      (run_emitter prog_malformed opts64).bss.count (bss_line opts64 "9") = 1 ∧
      generate_lines prog_malformed opts64 =
        instruction_section prog_malformed opts64 ++ data_section prog_malformed opts64 ∧
      AsmLine.raw (bss_line opts64 "9") ∈ data_section prog_malformed opts64) :=
  ⟨by decide, List.Perm.of_eq (by decide), by decide, by decide,
    (C17_memory_operands_declared prog_malformed opts64).2.2 (store_acc opts64 "9") (by decide)
      "9" (by decide)⟩

/-! ## The characters of the output -/

/-- An element that occurs once in a list splits it in one way only. -/
theorem eq_of_unique_split {α : Type} {c : α} {a b a' b' : List α}
    (h : a ++ c :: b = a' ++ c :: b') (ha : c ∉ a) (hb : c ∉ b) : a = a' ∧ b = b' := by
  rcases List.append_eq_append_iff.1 h with ⟨x, h1, h2⟩ | ⟨x, h1, h2⟩
  · cases x with
    | nil => simp at h1 h2; exact ⟨h1.symm, h2⟩
    | cons y ys =>
      simp only [List.cons_append, List.cons.injEq] at h2
      exact absurd (by rw [h2.2]; simp) hb
  · cases x with
    | nil => simp at h1 h2; exact ⟨h1, h2.symm⟩
    | cons y ys =>
      simp only [List.cons_append, List.cons.injEq] at h2
      exact absurd (by rw [h1, ← h2.1]; simp) ha

theorem mem_imm_values (l : List Instr) (v : String) :
    v ∈ imm_values l ↔ ∃ i ∈ l, v ∈ i.imm_values := by
  induction l with
  | nil => simp [imm_values]
  | cons i rest ih => simp [imm_values, ih]

theorem operand_render_no_dot (o : Operand) (h1 : o.mem_names = [])
    (h2 : ∀ v ∈ o.imm_values, '.' ∉ v.data) : '.' ∉ o.render.data := by
  cases o with
  | reg r => cases r <;> decide
  | imm v => exact h2 v (by simp [Operand.imm_values])
  | mem name => simp [Operand.mem_names] at h1

/-- The line of an instruction without memory operand has a full stop only
inside an immediate. -/
theorem instr_render_no_dot (i : Instr) (h1 : i.mem_names = [])
    (h2 : ∀ v ∈ i.imm_values, '.' ∉ v.data) : '.' ∉ i.render.data := by
  have two : ∀ (d s : Operand) (p : String), '.' ∉ p.data → d.mem_names ++ s.mem_names = [] →
      (∀ v ∈ d.imm_values ++ s.imm_values, '.' ∉ v.data) →
      '.' ∉ (p ++ d.render ++ ", " ++ s.render ++ "\n").data := by
    intro d s p hp hm hv
    have hd := operand_render_no_dot d (List.append_eq_nil.1 hm).1
      (fun v hv' => hv v (List.mem_append_left _ hv'))
    have hs := operand_render_no_dot s (List.append_eq_nil.1 hm).2
      (fun v hv' => hv v (List.mem_append_right _ hv'))
    have e1 : '.' ∉ ", ".data := by decide
    have e2 : '.' ∉ "\n".data := by decide
    simp only [String.data_append, List.mem_append, not_or]
    exact ⟨⟨⟨⟨hp, hd⟩, e1⟩, hs⟩, e2⟩
  have one : ∀ (d : Operand) (p : String), '.' ∉ p.data → d.mem_names = [] →
      (∀ v ∈ d.imm_values, '.' ∉ v.data) → '.' ∉ (p ++ d.render ++ "\n").data := by
    intro d p hp hm hv
    have hd := operand_render_no_dot d hm hv
    have e2 : '.' ∉ "\n".data := by decide
    simp only [String.data_append, List.mem_append, not_or]
    exact ⟨⟨hp, hd⟩, e2⟩
  cases i with
  | mov d s => exact two d s "mov " (by decide) h1 h2
  | xor d s => exact two d s "xor " (by decide) h1 h2
  | add d s => exact two d s "add " (by decide) h1 h2
  | sub d s => exact two d s "sub " (by decide) h1 h2
  | imul d s => exact two d s "imul " (by decide) h1 h2
  | push s => exact one s "push " (by decide) h1 h2
  | pop d => exact one d "pop " (by decide) h1 h2
  | idiv s => exact one s "idiv " (by decide) h1 h2
  | cqo => decide
  | cdq => decide
  | ret => decide

theorem mem_render_lines_data (c : Char) (lines : List AsmLine) :
    c ∈ (render_lines lines).data ↔ ∃ line ∈ lines, c ∈ line.render.data := by
  simp only [render_lines, String.data_join, List.mem_flatten, List.mem_map]
  constructor
  · rintro ⟨l, ⟨s, ⟨line, h1, rfl⟩, rfl⟩, h3⟩
    exact ⟨line, h1, h3⟩
  · rintro ⟨line, h1, h2⟩
    exact ⟨_, ⟨_, ⟨line, h1, rfl⟩, rfl⟩, h2⟩

/-- When nothing is declared, no instruction of the body has a memory operand. -/
theorem mem_names_of_no_decl (ast : AstNode) (opts : CodegenOptions)
    (hd : (run_emitter ast opts).declared = []) : ∀ i ∈ code opts ast, i.mem_names = [] := by
  intro i hi
  apply List.eq_nil_iff_forall_not_mem.2
  intro name hname
  have h := code_mem_declared opts ast (declare_all opts (collect_vars ast []) Emitter.init)
    i hi name hname
  have hdecl : name ∈ (run_emitter ast opts).declared := by
    rcases h.2 with h2 | h2
    · have h3 : name ∈ collect_vars ast [] := ((mem_collect_vars ast []).1 name).2 (Or.inr h2)
      exact (emit_expr_decl opts ast _).2
        ((declare_all_decl opts (collect_vars ast []) Emitter.init).2.2 name h3)
    · exact h2
  rw [hd] at hdecl
  cases hdecl

/-- After its first line, the instruction section of a program without
variables has a full stop only inside an immediate. -/
theorem instruction_section_no_dot (ast : AstNode) (opts : CodegenOptions)
    (hd : (run_emitter ast opts).declared = [])
    (himm : ∀ v ∈ imm_values (code opts ast), '.' ∉ v.data) :
    ∃ rest : List Char, (render_lines (instruction_section ast opts)).data =
      "section .text\n".data ++ rest ∧ '.' ∉ rest := by
  have hbody : ∀ line ∈ (code opts ast).map (AsmLine.ins ""), '.' ∉ line.render.data := by
    intro line hl
    obtain ⟨i, hi, rfl⟩ := List.mem_map.1 hl
    have := instr_render_no_dot i (mem_names_of_no_decl ast opts hd i hi)
      (fun v hv => himm v ((mem_imm_values _ _).2 ⟨i, hi, hv⟩))
    simpa [AsmLine.render, String.data_append] using this
  refine ⟨(render_lines ((if opts.arch = TargetArch.X86_64 then [AsmLine.raw "default rel\n"]
      else []) ++
    [AsmLine.raw "global main\n", AsmLine.raw "main:\n",
      AsmLine.ins "  " (.push (.reg (areg opts .rbp))),
      AsmLine.ins "  " (.mov (.reg (areg opts .rbp)) (.reg (areg opts .rsp)))] ++
    (code opts ast).map (AsmLine.ins "") ++
    [AsmLine.raw "  ; function epilogue\n", AsmLine.ins "  " (.mov (.reg .eax) (.reg .eax)),
      AsmLine.ins "  " (.mov (.reg (areg opts .rsp)) (.reg (areg opts .rbp))),
      AsmLine.ins "  " (.pop (.reg (areg opts .rbp))), AsmLine.ins "  " .ret])).data, ?_, ?_⟩
  · have e : render_lines [AsmLine.raw "section .text\n"] = "section .text\n" := by decide
    rw [← e, ← String.data_append, ← render_lines_append]
    simp [instruction_section]
  · rw [mem_render_lines_data]
    rintro ⟨line, hl, hc⟩
    have hins : ∀ i : Instr, i.mem_names = [] → i.imm_values = [] →
        '.' ∉ (AsmLine.ins "  " i).render.data := by
      intro i h1 h2
      have := instr_render_no_dot i h1 (by rw [h2]; intro v hv; cases hv)
      have e : '.' ∉ "  ".data := by decide
      simp only [AsmLine.render, String.data_append, List.mem_append, not_or]
      exact ⟨e, this⟩
    simp only [List.mem_append] at hl
    rcases hl with ((hl | hl) | hl) | hl
    · split at hl
      · rw [List.mem_singleton] at hl
        rw [hl] at hc
        exact absurd hc (by decide)
      · cases hl
    · simp only [List.mem_cons, List.mem_singleton, List.not_mem_nil, or_false] at hl
      rcases hl with hl | hl | hl | hl <;> rw [hl] at hc
      · exact absurd hc (by decide)
      · exact absurd hc (by decide)
      · refine hins _ ?_ ?_ hc <;> rfl
      · refine hins _ ?_ ?_ hc <;> rfl
    · exact hbody line hl hc
    · simp only [List.mem_cons, List.mem_singleton, List.not_mem_nil, or_false] at hl
      rcases hl with hl | hl | hl | hl | hl <;> rw [hl] at hc
      · exact absurd hc (by decide)
      · refine hins _ ?_ ?_ hc <;> rfl
      · refine hins _ ?_ ?_ hc <;> rfl
      · refine hins _ ?_ ?_ hc <;> rfl
      · refine hins _ ?_ ?_ hc <;> rfl

/-- A text that starts with `section .text` and has no other full stop does
not contain `section .bss`. -/
theorem not_contains_bss_header {text : String} {rest : List Char}
    (h : text.data = "section .text\n".data ++ rest) (hr : '.' ∉ rest) :
    ¬ contains_text text "section .bss" := by
  rintro ⟨pre, post, hp⟩
  have e1 : "section .bss".data = "section ".data ++ '.' :: "bss".data := by decide
  have e2 : "section .text\n".data = "section ".data ++ '.' :: "text\n".data := by decide
  rw [h, e1, e2] at hp
  have hp2 : "section ".data ++ '.' :: ("text\n".data ++ rest) =
      (pre ++ "section ".data) ++ '.' :: ("bss".data ++ post) := by
    simpa [List.append_assoc] using hp.symm
  have hb : '.' ∉ "text\n".data ++ rest := by
    rw [List.mem_append, not_or]
    exact ⟨by decide, hr⟩
  have h3 := (eq_of_unique_split hp2 (by decide) hb).2
  have h4 : "text\n".data ++ rest = 't' :: ("ext\n".data ++ rest) := rfl
  have h5 : "bss".data ++ post = 'b' :: ("ss".data ++ post) := rfl
  rw [h4, h5] at h3
  exact absurd (List.cons.inj h3).1 (by decide)

/-- C13: shape of the output.  For every tree and configuration the lines that
`generate_asm` writes are the instruction section (`section .text`, in the
64-bit case `default rel`, `global main`, the label `main:`, the frame set-up,
the body that `emit_expr` emits, a comment line, the narrowing
`mov eax, eax`, the frame tear-down and `ret`), followed by the data section
(`section .bss` and one slot line per declared name) if and only if at least
one variable was declared.  The header `section .bss` is written exactly in
that case.  When no variable is declared the text is that of the instruction
section alone: no data-section header is written and the text ends with the
`ret` line; and the characters `section .bss` do not occur in it at all,
provided no immediate operand (the text of a number token, which the emitter
copies) contains a full stop. -/
theorem C13_output_shape (ast : AstNode) (opts : CodegenOptions) :
    generate_lines ast opts =
      instruction_section ast opts ++
        (if (run_emitter ast opts).declared = [] then [] else data_section ast opts) ∧
    generate_asm ast opts =
      render_lines (instruction_section ast opts) ++
        (if (run_emitter ast opts).declared = [] then ""
          else "section .bss\n" ++
            String.join ((run_emitter ast opts).declared.map (bss_line opts))) ∧
    (AsmLine.raw "section .bss\n" ∈ generate_lines ast opts ↔
      (run_emitter ast opts).declared ≠ []) ∧
    (∃ s : String, render_lines (instruction_section ast opts) = s ++ "  ret\n") ∧
    ((run_emitter ast opts).declared = [] →
      generate_lines ast opts = instruction_section ast opts ∧
      AsmLine.raw "section .bss\n" ∉ generate_lines ast opts ∧
      (∃ s : String, generate_asm ast opts = s ++ "  ret\n") ∧
      ((∀ v ∈ imm_values (code opts ast), '.' ∉ v.data) →
        ¬ contains_text (generate_asm ast opts) "section .bss")) := by
  have hs := generate_lines_sections ast opts
  have hret : ∃ s : String, render_lines (instruction_section ast opts) = s ++ "  ret\n" := by
    refine ⟨render_lines ([AsmLine.raw "section .text\n"] ++
      (if opts.arch = TargetArch.X86_64 then [AsmLine.raw "default rel\n"] else []) ++
      [AsmLine.raw "global main\n", AsmLine.raw "main:\n",
        AsmLine.ins "  " (.push (.reg (areg opts .rbp))),
        AsmLine.ins "  " (.mov (.reg (areg opts .rbp)) (.reg (areg opts .rsp)))] ++
      (code opts ast).map (AsmLine.ins "") ++
      [AsmLine.raw "  ; function epilogue\n", AsmLine.ins "  " (.mov (.reg .eax) (.reg .eax)),
        AsmLine.ins "  " (.mov (.reg (areg opts .rsp)) (.reg (areg opts .rbp))),
        AsmLine.ins "  " (.pop (.reg (areg opts .rbp)))]), ?_⟩
    have e : render_lines [AsmLine.ins "  " .ret] = "  ret\n" := by decide
    rw [← e, ← render_lines_append]
    simp [instruction_section]
  have htext : generate_asm ast opts =
      render_lines (instruction_section ast opts) ++
        (if (run_emitter ast opts).declared = [] then ""
          else "section .bss\n" ++
            String.join ((run_emitter ast opts).declared.map (bss_line opts))) := by
    have e : generate_asm ast opts = render_lines (generate_lines ast opts) := rfl
    rw [e, hs, render_lines_append]
    congr 1
    split
    · rfl
    · simp only [data_section, render_lines, List.map_cons, List.map_map]
      rw [show ∀ (a : String) (l : List String), String.join (a :: l) = a ++ String.join l from
        fun a l => join_append [a] l ▸ by simp [String.join]]
      rfl
  refine ⟨hs, htext, ?_, hret, ?_⟩
  · rw [hs, List.mem_append]
    constructor
    · rintro (h | h)
      · exact absurd h (bss_header_not_mem_instruction_section ast opts)
      · intro hd
        rw [if_pos hd] at h
        cases h
    · intro hd
      right
      rw [if_neg hd]
      exact List.mem_cons_self _ _
  · intro hd
    rw [if_pos hd] at hs
    rw [List.append_nil] at hs
    have htext' : generate_asm ast opts = render_lines (instruction_section ast opts) := by
      rw [htext, if_pos hd]
      apply String.ext
      simp [String.data_append]
    refine ⟨hs, ?_, ?_, ?_⟩
    · rw [hs]
      exact bss_header_not_mem_instruction_section ast opts
    · obtain ⟨s, h⟩ := hret
      exact ⟨s, by rw [htext', h]⟩
    · intro himm
      obtain ⟨rest, h1, h2⟩ := instruction_section_no_dot ast opts hd himm
      rw [htext']
      exact not_contains_bss_header h1 h2

/-- C13 at the program `7` (no variable: the text ends with `ret`) and at the
program `a=1` `a=2` (one variable: the data section follows). -/
theorem C13_output_shape_witness :
    (run_emitter prog_seven opts64).declared = [] ∧
    generate_asm prog_seven opts64 =
      "section .text\ndefault rel\nglobal main\nmain:\n  push rbp\n  mov rbp, rsp\n" ++
      "mov rax, 7\n" ++
      "  ; function epilogue\n  mov eax, eax\n  mov rsp, rbp\n  pop rbp\n  ret\n" ∧
    generate_asm prog_a1_a2 opts32 =
      "section .text\nglobal main\nmain:\n  push ebp\n  mov ebp, esp\n" ++
      "mov eax, 1\nmov [a], eax\nmov eax, 2\nmov [a], eax\n" ++
      "  ; function epilogue\n  mov eax, eax\n  mov esp, ebp\n  pop ebp\n  ret\n" ++
      "section .bss\na: resd 1\n" ∧
    imm_values (code opts64 prog_seven) = ["7"] ∧
    generate_lines prog_seven opts64 = instruction_section prog_seven opts64 ∧
    AsmLine.raw "section .bss\n" ∉ generate_lines prog_seven opts64 ∧
    (∃ s : String, generate_asm prog_seven opts64 = s ++ "  ret\n") ∧
    ¬ contains_text (generate_asm prog_seven opts64) "section .bss" :=
  ⟨rfl, rfl, rfl, rfl,
    ((C13_output_shape prog_seven opts64).2.2.2.2 rfl).1,
    ((C13_output_shape prog_seven opts64).2.2.2.2 rfl).2.1,
    ((C13_output_shape prog_seven opts64).2.2.2.2 rfl).2.2.1,
    ((C13_output_shape prog_seven opts64).2.2.2.2 rfl).2.2.2 (by decide)⟩

/-! ## A missing closing parenthesis -/

theorem is_mul_op_exprTail {tail rest : TokenList} (h : Derives .exprTail tail)
    (hr : is_mul_op rest = false) : is_mul_op (tail ++ rest) = false := by
  cases h with
  | expr_nil => exact hr
  | expr_cons op t rest' hop ht hr' =>
    rw [List.cons_append, is_mul_op_cons]
    exact is_mul_token_of_add hop

/-- The parser reads a derived phrase as a whole. -/
theorem Derives_parses {p : Phrase} {ts : TokenList} (h : Derives p ts) : parses_phrase p ts := by
  induction h with
  | literal t h => exact ⟨literal_of t, fun rest => Parses_value_literal rest h⟩
  | paren e h ih =>
    obtain ⟨T, hT⟩ := ih
    refine ⟨T, fun rest => ?_⟩
    have h1 := Parses_value_paren_closed (hT (sym ")" :: rest) rfl rfl)
    simpa using h1
  | term v tail hv ht ihv iht =>
    obtain ⟨V, hV⟩ := ihv
    obtain ⟨T, hT⟩ := iht V
    refine ⟨T, fun rest hr => ?_⟩
    rw [List.append_assoc]
    exact Parses.term _ _ _ _ _ (hV (tail ++ rest)) (hT rest hr)
  | term_nil => exact fun left => ⟨left, fun rest hr => Parses.term_done left rest hr⟩
  | term_cons op v rest' hop hv hr ihv ihr =>
    intro left
    obtain ⟨V, hV⟩ := ihv
    obtain ⟨T, hT⟩ := ihr (mk_binop left op V)
    refine ⟨T, fun rest h => ?_⟩
    rw [List.cons_append, List.append_assoc]
    exact Parses.term_step left op _ V _ T rest (by rw [is_mul_op_cons]; exact hop)
      (hV (rest' ++ rest)) (hT rest h)
  | expr t tail ht hl iht ihl =>
    obtain ⟨L, hL⟩ := iht
    obtain ⟨T, hT⟩ := ihl L
    refine ⟨T, fun rest ha hm => ?_⟩
    rw [List.append_assoc]
    exact Parses.expr _ _ _ _ _ (hL (tail ++ rest) (is_mul_op_exprTail hl hm)) (hT rest ha hm)
  | expr_nil => exact fun left => ⟨left, fun rest ha _ => Parses.expr_done left rest ha⟩
  | expr_cons op t rest' hop ht hr iht ihr =>
    intro left
    obtain ⟨R, hR⟩ := iht
    obtain ⟨T, hT⟩ := ihr (mk_binop left op R)
    refine ⟨T, fun rest ha hm => ?_⟩
    rw [List.cons_append, List.append_assoc]
    exact Parses.expr_step left op _ R _ T rest (by rw [is_add_op_cons]; exact hop)
      (hR (rest' ++ rest) (is_mul_op_exprTail hr hm)) (hT rest ha hm)

/-- What follows the first value of a derived expression that is itself
followed by an end marker: an operator or the end marker. -/
theorem Derives_expr_head {ts : TokenList} {eof : Token} (h : Derives .expr ts)
    (heof : eof.t_type = token_t._EOF) :
    ∃ (v : TokenList) (x : Token) (r : TokenList), Derives .value v ∧
      ts ++ [eof] = v ++ x :: r ∧
      (is_add_token x = true ∨ is_mul_token x = true ∨ x.t_type = token_t._EOF) := by
  cases h with
  | expr t tail ht hl =>
    cases ht with
    | term v tail1 hv ht1 =>
      refine ⟨v, ?_⟩
      cases ht1 with
      | term_cons op v1 rest1 hop hv1 hr1 =>
        exact ⟨op, v1 ++ rest1 ++ tail ++ [eof], hv, by simp, Or.inr (Or.inl hop)⟩
      | term_nil =>
        cases hl with
        | expr_cons op t1 rest1 hop ht1 hr1 =>
          exact ⟨op, t1 ++ rest1 ++ [eof], hv, by simp, Or.inl hop⟩
        | expr_nil => exact ⟨eof, [], hv, by simp, Or.inr (Or.inr heof)⟩

/-- A derived expression followed by an end marker does not look like an
assignment and does not start with an end marker. -/
theorem Derives_expr_not_assign {ts : TokenList} {eof : Token} (h : Derives .expr ts)
    (heof : eof.t_type = token_t._EOF) :
    starts_assign (ts ++ [eof]) = false ∧ at_eof (ts ++ [eof]) = false := by
  obtain ⟨v, x, r, hv, he, hx⟩ := Derives_expr_head h heof
  rw [he]
  cases hv with
  | literal t ht =>
    refine ⟨?_, at_eof_literal _ ht⟩
    rcases hx with hx | hx | hx
    · exact starts_assign_add _ (Or.inl hx)
    · exact starts_assign_add _ (Or.inr hx)
    · simp [starts_assign, hx]
  | paren e he' =>
    refine ⟨?_, rfl⟩
    cases e <;> simp [starts_assign, sym]

/-- C18: a missing closing parenthesis is tolerated without changing the tree.
For every token list `ts` that the grammar
`expr := term (('+'|'-') term)*`, `term := value (('*'|'/'|'%') value)*`,
`value := literal | '(' expr ')'` derives as an expression, and every end
marker, there is one tree `T` such that `parse_prog` returns the program of
the single statement `T`, leaving only the end marker, on each of `ts EOF`,
`( ts EOF` and `( ts ) EOF`. -/
theorem C18_missing_close_paren (ts : TokenList) (eof : Token)
    (h : Derives .expr ts) (heof : eof.t_type = token_t._EOF) :
    ∃ T : AstNode,
      parse_prog (ts ++ [eof]) = some (mk_prog [T], [eof]) ∧
      parse_prog (sym "(" :: (ts ++ [eof])) = some (mk_prog [T], [eof]) ∧
      parse_prog (sym "(" :: (ts ++ [sym ")", eof])) = some (mk_prog [T], [eof]) := by
  obtain ⟨T, hT⟩ := Derives_parses h
  have hea : is_add_op [eof] = false := by simp [is_add_op_cons, is_add_token_eof heof]
  have hem : is_mul_op [eof] = false := by simp [is_mul_op_cons, is_mul_token_eof heof]
  have hna := Derives_expr_not_assign h heof
  have hwrap : ∀ tks, Parses .value tks T [eof] → Parses .expr tks T [eof] := fun tks hv =>
    Parses.expr _ _ _ _ _ (Parses.term _ _ _ _ _ hv (Parses.term_done _ _ hem))
      (Parses.expr_done _ _ hea)
  have hsa : ∀ l : TokenList, l ≠ [] → starts_assign (sym "(" :: l) = false := by
    intro l hl
    cases l with
    | nil => exact absurd rfl hl
    | cons x xs => simp [starts_assign, sym]
  refine ⟨T, ?_, ?_, ?_⟩
  · exact parse_prog_single heof hna.2 hna.1 (hT [eof] hea hem)
  · have h1 := Parses.value_paren (sym "(") (ts ++ [eof]) T [eof] rfl rfl (hT [eof] hea hem)
    have h2 : is_symbol [eof] ")" = false := by simp [is_symbol, heof]
    simp only [h2, Bool.false_eq_true, if_false] at h1
    exact parse_prog_single heof rfl (hsa _ (by simp)) (hwrap _ h1)
  · have h1 := Parses_value_paren_closed (hT (sym ")" :: [eof]) rfl rfl)
    exact parse_prog_single heof rfl (hsa _ (by simp)) (hwrap _ h1)

/-- C18 at `(2+3` against `(2+3)`. -/
theorem C18_missing_close_paren_witness :
    Derives .expr [num "2", sym "+", num "3"] ∧
    eof_token.t_type = token_t._EOF ∧
    parse_prog [sym "(", num "2", sym "+", num "3", eof_token] =
      some (mk_prog [tree_2_plus_3], [eof_token]) ∧
    parse_prog [sym "(", num "2", sym "+", num "3", sym ")", eof_token] =
      some (mk_prog [tree_2_plus_3], [eof_token]) ∧
    parse_prog [num "2", sym "+", num "3", eof_token] =
      some (mk_prog [tree_2_plus_3], [eof_token]) ∧
    ∃ T : AstNode,
      parse_prog ([num "2", sym "+", num "3"] ++ [eof_token]) = some (mk_prog [T], [eof_token]) ∧
      parse_prog (sym "(" :: ([num "2", sym "+", num "3"] ++ [eof_token])) =
        some (mk_prog [T], [eof_token]) ∧
      parse_prog (sym "(" :: ([num "2", sym "+", num "3"] ++ [sym ")", eof_token])) =
        some (mk_prog [T], [eof_token]) :=
  have hd : Derives .expr [num "2", sym "+", num "3"] :=
    Derives.expr [num "2"] [sym "+", num "3"]
      (Derives.term [num "2"] [] (Derives.literal (num "2") rfl) Derives.term_nil)
      (Derives.expr_cons (sym "+") [num "3"] [] rfl
        (Derives.term [num "3"] [] (Derives.literal (num "3") rfl) Derives.term_nil)
        Derives.expr_nil)
  ⟨hd, rfl, rfl, rfl, rfl,
    C18_missing_close_paren [num "2", sym "+", num "3"] eof_token hd rfl⟩

/-! ## The architecture option changes only the operand width -/

theorem operator_code_narrow (os1 os2 : TargetOS) (o : String) :
    operator_code { arch := TargetArch.X86_32, os := os1 } o =
      (operator_code { arch := TargetArch.X86_64, os := os2 } o).map Instr.narrow := by
  have h32 : is64 { arch := TargetArch.X86_32, os := os1 } = false := rfl
  have h64 : is64 { arch := TargetArch.X86_64, os := os2 } = true := rfl
  simp only [operator_code, emit_operator, h32, h64, Bool.false_eq_true, if_false, if_true,
    zero_acc]
  by_cases h1 : (o == "+") = true
  · simp only [h1, if_true]; rfl
  · simp only [h1, if_false]
    by_cases h2 : (o == "-") = true
    · simp only [h2, if_true]; rfl
    · simp only [h2, if_false]
      by_cases h3 : (o == "*") = true
      · simp only [h3, if_true]; rfl
      · simp only [h3, if_false]
        by_cases h4 : (o == "/" || o == "%") = true
        · simp only [h4, if_true]
          by_cases h5 : (o == "%") = true
          · simp only [h5, if_true]; rfl
          · simp only [h5, if_false]; rfl
        · simp only [h4, if_false]; rfl

theorem code_literal_narrow (os1 os2 : TargetOS) (args : List NodeArg) :
    code { arch := TargetArch.X86_32, os := os1 } (AstNode.mk NodeType.LITERAL args) =
      (code { arch := TargetArch.X86_64, os := os2 } (AstNode.mk NodeType.LITERAL args)).map
        Instr.narrow := by
  have h32 : is64 { arch := TargetArch.X86_32, os := os1 } = false := rfl
  have h64 : is64 { arch := TargetArch.X86_64, os := os2 } = true := rfl
  simp only [code, emit_expr_literal, emit_literal, h32, h64, Bool.false_eq_true, if_false,
    if_true, zero_acc]
  cases first_token args with
  | none => rfl
  | some tk =>
    simp only []
    by_cases h1 : (tk.t_type == token_t.NUMBERLITERAL) = true
    · simp only [h1, if_true]; rfl
    · simp only [h1, if_false]
      by_cases h2 : (tk.t_type == token_t.IDENTIFIER) = true
      · simp only [h2, if_true]; rfl
      · simp only [h2, if_false]; rfl

/-- The 32-bit code of a tree is the 64-bit code with the registers renamed. -/
theorem code_narrow (os1 os2 : TargetOS) (node : AstNode) :
    code { arch := TargetArch.X86_32, os := os1 } node =
      (code { arch := TargetArch.X86_64, os := os2 } node).map Instr.narrow := by
  induction node using AstNode_induct with
  | h t args ih =>
    cases t with
    | LITERAL => exact code_literal_narrow os1 os2 args
    | PROG =>
      induction args with
      | nil => rfl
      | cons a rest ihr =>
        have ih' := ihr (fun b hb => ih b (List.mem_cons_of_mem _ hb))
        match a with
        | .mk tk none => rw [code_prog_skip, code_prog_skip]; exact ih'
        | .mk tk (some n) =>
          rw [code_prog_cons _ tk n rest (fun _ _ m _ E' => emit_expr_text _ m E'),
            code_prog_cons _ tk n rest (fun _ _ m _ E' => emit_expr_text _ m E'),
            List.map_append, ← ih', ← ih _ (List.mem_cons_self _ _) n rfl]
    | BINOP =>
      cases hp : binop_parts args with
      | none => rw [code_binop_none _ hp, code_binop_none _ hp]; rfl
      | some p =>
        obtain ⟨l, op, r⟩ := p
        obtain ⟨⟨a, ha, hl⟩, ⟨b, hb, hr⟩⟩ := binop_parts_mem hp
        rw [code_binop _ hp, code_binop _ hp]
        simp only [List.map_append, ← ih a ha l hl, ← ih b hb r hr,
          ← operator_code_narrow os1 os2 op.value]
        rfl
    | ASSIGN =>
      cases hp : assign_parts args with
      | none => rw [code_assign_none _ hp, code_assign_none _ hp]; rfl
      | some p =>
        obtain ⟨id, rhs⟩ := p
        obtain ⟨a, ha, hr⟩ := assign_parts_mem hp
        rw [code_assign _ hp, code_assign _ hp]
        simp only [List.map_append, ← ih a ha rhs hr]
        rfl

theorem declare_var_declared (opts : CodegenOptions) (name : String) (E : Emitter) :
    (declare_var opts name E).declared =
      if name ∈ E.declared then E.declared else E.declared ++ [name] := by
  rw [declare_var_eq_bss_line]
  split <;> rfl

/-- The names declared by emission do not depend on the options. -/
theorem emit_expr_declared_opts (o1 o2 : CodegenOptions) (node : AstNode) :
    ∀ E1 E2 : Emitter, E1.declared = E2.declared →
      (emit_expr o1 node E1).declared = (emit_expr o2 node E2).declared := by
  induction node using AstNode_induct with
  | h t args ih =>
    intro E1 E2 hE
    cases t with
    | LITERAL =>
      rw [emit_expr_literal, emit_expr_literal, (emit_literal_decl o1 args E1).2,
        (emit_literal_decl o2 args E2).2]
      exact hE
    | PROG =>
      rw [emit_expr_prog, emit_expr_prog]
      induction args generalizing E1 E2 with
      | nil => exact hE
      | cons a rest ihr =>
        have ih' := fun E1' E2' h' =>
          ihr (fun b hb => ih b (List.mem_cons_of_mem _ hb)) E1' E2' h'
        match a with
        | .mk _ none => exact ih' E1 E2 hE
        | .mk _ (some n) =>
          simp only [emit_stmts]
          exact ih' _ _ (ih _ (List.mem_cons_self _ _) n rfl E1 E2 hE)
    | BINOP =>
      rw [emit_expr_binop, emit_expr_binop]
      cases hp : binop_parts args with
      | none => exact hE
      | some p =>
        obtain ⟨l, op, r⟩ := p
        obtain ⟨⟨a, ha, hl⟩, ⟨b, hb, hr⟩⟩ := binop_parts_mem hp
        simp only []
        rw [(emit_operator_decl o1 op.value _).2, (emit_operator_decl o2 op.value _).2]
        exact ih b hb r hr _ _ (ih a ha l hl E1 E2 hE)
    | ASSIGN =>
      rw [emit_expr_assign, emit_expr_assign]
      cases hp : assign_parts args with
      | none => exact hE
      | some p =>
        obtain ⟨id, rhs⟩ := p
        obtain ⟨a, ha, hr⟩ := assign_parts_mem hp
        simp only []
        refine ih a ha rhs hr _ _ ?_
        rw [declare_var_declared, declare_var_declared, hE]

theorem declare_all_declared_opts (o1 o2 : CodegenOptions) (vars : List String) :
    ∀ E1 E2 : Emitter, E1.declared = E2.declared →
      (declare_all o1 vars E1).declared = (declare_all o2 vars E2).declared := by
  induction vars with
  | nil => intro E1 E2 h; exact h
  | cons v rest ih =>
    intro E1 E2 h
    simp only [declare_all]
    refine ih _ _ ?_
    rw [declare_var_declared, declare_var_declared, h]

theorem run_emitter_declared_opts (o1 o2 : CodegenOptions) (ast : AstNode) :
    (run_emitter ast o1).declared = (run_emitter ast o2).declared :=
  emit_expr_declared_opts o1 o2 ast _ _ (declare_all_declared_opts o1 o2 _ _ _ rfl)

theorem operand_narrow_mem_names (d : Operand) : d.narrow.mem_names = d.mem_names := by
  cases d <;> rfl

theorem operand_narrow_imm_values (d : Operand) : d.narrow.imm_values = d.imm_values := by
  cases d <;> rfl

theorem mem_names_narrow (l : List Instr) : mem_names (l.map Instr.narrow) = mem_names l := by
  induction l with
  | nil => rfl
  | cons i rest ih =>
    have h : i.narrow.mem_names = i.mem_names := by
      cases i <;> simp [Instr.narrow, Instr.mem_names, operand_narrow_mem_names]
    simp only [List.map_cons, mem_names, ih, h]

theorem imm_values_narrow (l : List Instr) : imm_values (l.map Instr.narrow) = imm_values l := by
  induction l with
  | nil => rfl
  | cons i rest ih =>
    have h : i.narrow.imm_values = i.imm_values := by
      cases i <;> simp [Instr.narrow, Instr.imm_values, operand_narrow_imm_values]
    simp only [List.map_cons, imm_values, ih, h]

/-- C19: the architecture option changes only the operand width.  For every
tree (and whatever the platform options), the instructions that `emit_expr`
appends under the 32-bit option are those it appends under the 64-bit option
with every register replaced by its 32-bit name (`rax` by `eax`, `rbx` by
`ebx`, `rcx` by `ecx`, `rdx` by `edx`) and `cqo` by `cdq`: the same number of
instructions in the same order, with the same immediates and the same
variable names.  The declared names are the same, in the same order, and
each is reserved by the line `name: resd 1` instead of `name: resq 1`. -/
theorem C19_arch_changes_width (ast : AstNode) (os1 os2 : TargetOS) :
    code { arch := TargetArch.X86_32, os := os1 } ast =
      (code { arch := TargetArch.X86_64, os := os2 } ast).map Instr.narrow ∧
    (∀ E : Emitter, (emit_expr { arch := TargetArch.X86_32, os := os1 } ast E).text =
      E.text ++ (code { arch := TargetArch.X86_64, os := os2 } ast).map Instr.narrow) ∧
    (code { arch := TargetArch.X86_32, os := os1 } ast).length =
      (code { arch := TargetArch.X86_64, os := os2 } ast).length ∧
    imm_values (code { arch := TargetArch.X86_32, os := os1 } ast) =
      imm_values (code { arch := TargetArch.X86_64, os := os2 } ast) ∧
    mem_names (code { arch := TargetArch.X86_32, os := os1 } ast) =
      mem_names (code { arch := TargetArch.X86_64, os := os2 } ast) ∧
    (Reg.narrow .rax = .eax ∧ Reg.narrow .rbx = .ebx ∧ Reg.narrow .rcx = .ecx ∧
      Reg.narrow .rdx = .edx ∧ Instr.narrow .cqo = .cdq) ∧
    (∀ E1 E2 : Emitter, E1.declared = E2.declared →
      (emit_expr { arch := TargetArch.X86_32, os := os1 } ast E1).declared =
        (emit_expr { arch := TargetArch.X86_64, os := os2 } ast E2).declared) ∧
    (run_emitter ast { arch := TargetArch.X86_32, os := os1 }).declared =
      (run_emitter ast { arch := TargetArch.X86_64, os := os2 }).declared ∧
    (run_emitter ast { arch := TargetArch.X86_32, os := os1 }).bss =
      (run_emitter ast { arch := TargetArch.X86_64, os := os2 }).declared.map
        (fun name => name ++ ": resd 1\n") ∧
    (run_emitter ast { arch := TargetArch.X86_64, os := os2 }).bss =
      (run_emitter ast { arch := TargetArch.X86_64, os := os2 }).declared.map
        (fun name => name ++ ": resq 1\n") := by
  have hc := code_narrow os1 os2 ast
  have hd := run_emitter_declared_opts { arch := TargetArch.X86_32, os := os1 }
    { arch := TargetArch.X86_64, os := os2 } ast
  refine ⟨hc, ?_, ?_, ?_, ?_, ⟨rfl, rfl, rfl, rfl, rfl⟩,
    emit_expr_declared_opts _ _ ast, hd, ?_, ?_⟩
  · intro E
    rw [emit_expr_text, hc]
  · rw [hc, List.length_map]
  · rw [hc, imm_values_narrow]
  · rw [hc, mem_names_narrow]
  · rw [(run_emitter_inv ast _).1, hd]
    rfl
  · rw [(run_emitter_inv ast _).1]
    rfl

/-- C19 at the program `a = b % 2`; the slot lines are given up to their
order. -/
theorem C19_arch_changes_width_witness :
    (code opts64 (mk_prog [tree_a_eq_b_mod_2])).map Instr.render =
      ["mov rax, [b]\n", "push rax\n", "mov rax, 2\n", "pop rbx\n", "mov rcx, rax\n",
        "mov rax, rbx\n", "cqo\n", "idiv rcx\n", "mov rax, rdx\n", "mov [a], rax\n"] ∧
    (code opts32 (mk_prog [tree_a_eq_b_mod_2])).map Instr.render =
      ["mov eax, [b]\n", "push eax\n", "mov eax, 2\n", "pop ebx\n", "mov ecx, eax\n",
        "mov eax, ebx\n", "cdq\n", "idiv ecx\n", "mov eax, edx\n", "mov [a], eax\n"] ∧
    (run_emitter (mk_prog [tree_a_eq_b_mod_2]) opts64).bss.Perm
      ["a: resq 1\n", "b: resq 1\n"] ∧
    (run_emitter (mk_prog [tree_a_eq_b_mod_2]) opts32).bss.Perm
      ["a: resd 1\n", "b: resd 1\n"] ∧
    code opts32 (mk_prog [tree_a_eq_b_mod_2]) =
      (code opts64 (mk_prog [tree_a_eq_b_mod_2])).map Instr.narrow ∧
    (emit_expr opts32 (mk_prog [tree_a_eq_b_mod_2]) Emitter.init).declared =
      (emit_expr opts64 (mk_prog [tree_a_eq_b_mod_2]) Emitter.init).declared :=
  ⟨by decide, by decide, List.Perm.of_eq (by decide), List.Perm.of_eq (by decide),
    (C19_arch_changes_width (mk_prog [tree_a_eq_b_mod_2]) TargetOS.Linux TargetOS.Linux).1,
    (C19_arch_changes_width (mk_prog [tree_a_eq_b_mod_2]) TargetOS.Linux
      TargetOS.Linux).2.2.2.2.2.2.1 Emitter.init Emitter.init rfl⟩

/-! ## The emitted body is stack-balanced -/

theorem count_push_append (a b : List Instr) :
    count_push (a ++ b) = count_push a + count_push b := by
  induction a with
  | nil => simp [count_push]
  | cons i rest ih =>
    have e : count_push (i :: rest ++ b) =
        (if i.is_push then 1 else 0) + count_push (rest ++ b) := rfl
    have e2 : count_push (i :: rest) = (if i.is_push then 1 else 0) + count_push rest := rfl
    rw [e, e2, ih]
    omega

theorem count_pop_append (a b : List Instr) :
    count_pop (a ++ b) = count_pop a + count_pop b := by
  induction a with
  | nil => simp [count_pop]
  | cons i rest ih =>
    have e : count_pop (i :: rest ++ b) =
        (if i.is_pop then 1 else 0) + count_pop (rest ++ b) := rfl
    have e2 : count_pop (i :: rest) = (if i.is_pop then 1 else 0) + count_pop rest := rfl
    rw [e, e2, ih]
    omega

theorem count_pop_take_le (l : List Instr) (k : Nat) : count_pop (l.take k) ≤ count_pop l := by
  induction l generalizing k with
  | nil => simp [count_pop]
  | cons i rest ih =>
    cases k with
    | zero => simp [count_pop]
    | succ k =>
      simp only [List.take_succ_cons, count_pop]
      have := ih k
      omega

/-- A sequence without `pop` is safe on every stack. -/
theorem PrefixOK_of_no_pop {l : List Instr} (h : count_pop l = 0) (base : Nat) :
    PrefixOK base l := by
  intro k
  have := count_pop_take_le l k
  omega

/-- Two sequences run one after the other. -/
theorem PrefixOK_append {a b : List Instr} {base base' : Nat} (ha : PrefixOK base a)
    (hh : base + count_push a = base' + count_pop a) (hb : PrefixOK base' b) :
    PrefixOK base (a ++ b) := by
  intro k
  rw [List.take_append_eq_append_take, count_pop_append, count_push_append]
  by_cases hk : k ≤ a.length
  · have h0 : k - a.length = 0 := by omega
    rw [h0]
    have := ha k
    simp only [List.take_zero, count_pop, count_push]
    omega
  · have h1 : a.take k = a := List.take_of_length_le (by omega)
    rw [h1]
    have := hb (k - a.length)
    omega

theorem PrefixOK_nil (base : Nat) : PrefixOK base [] := by
  intro k
  simp [count_pop]

theorem count_operator_code (opts : CodegenOptions) (o : String) :
    count_push (operator_code opts o) = 0 ∧ count_pop (operator_code opts o) = 0 := by
  unfold operator_code emit_operator
  simp only [Emitter.init, Emitter.put, List.nil_append, zero_acc]
  repeat' split
  all_goals exact ⟨rfl, rfl⟩

theorem count_zero_acc (opts : CodegenOptions) :
    count_push [zero_acc opts] = 0 ∧ count_pop [zero_acc opts] = 0 := by
  obtain ⟨arch, os⟩ := opts
  cases arch <;> exact ⟨rfl, rfl⟩

theorem count_push_acc (opts : CodegenOptions) :
    count_push [push_acc opts] = 1 ∧ count_pop [push_acc opts] = 0 := by
  obtain ⟨arch, os⟩ := opts
  cases arch <;> exact ⟨rfl, rfl⟩

theorem count_pop_left (opts : CodegenOptions) :
    count_push [pop_left opts] = 0 ∧ count_pop [pop_left opts] = 1 := by
  obtain ⟨arch, os⟩ := opts
  cases arch <;> exact ⟨rfl, rfl⟩

theorem count_store_acc (opts : CodegenOptions) (name : String) :
    count_push [store_acc opts name] = 0 ∧ count_pop [store_acc opts name] = 0 := by
  obtain ⟨arch, os⟩ := opts
  cases arch <;> exact ⟨rfl, rfl⟩

theorem count_code_literal (opts : CodegenOptions) (args : List NodeArg) :
    count_push (code opts (AstNode.mk NodeType.LITERAL args)) = 0 ∧
      count_pop (code opts (AstNode.mk NodeType.LITERAL args)) = 0 := by
  rcases code_literal_cases opts args with h | ⟨v, h⟩ | ⟨x, _, h⟩
  · rw [h]; exact count_zero_acc opts
  · rw [h]; exact ⟨rfl, rfl⟩
  · rw [h]
    obtain ⟨arch, os⟩ := opts
    cases arch <;> exact ⟨rfl, rfl⟩

/-- The single `pop` of a `BINOP` is safe above the word that its `push` left. -/
theorem PrefixOK_pop_left (opts : CodegenOptions) (base : Nat) :
    PrefixOK (base + 1) [pop_left opts] := by
  intro k
  have h1 := count_pop_take_le [pop_left opts] k
  have h2 := (count_pop_left opts).2
  omega

/-- The code of a tree has as many pushes as pops, and is safe on every stack. -/
theorem code_balanced (opts : CodegenOptions) (node : AstNode) :
    count_push (code opts node) = count_pop (code opts node) ∧
      ∀ base : Nat, PrefixOK base (code opts node) := by
  induction node using AstNode_induct with
  | h t args ih =>
    cases t with
    | LITERAL =>
      have h := count_code_literal opts args
      exact ⟨by rw [h.1, h.2], PrefixOK_of_no_pop h.2⟩
    | PROG =>
      induction args with
      | nil => exact ⟨rfl, PrefixOK_nil⟩
      | cons a rest ihr =>
        have ih' := ihr (fun b hb => ih b (List.mem_cons_of_mem _ hb))
        match a with
        | .mk tk none => rw [code_prog_skip]; exact ih'
        | .mk tk (some n) =>
          have hn := ih _ (List.mem_cons_self _ _) n rfl
          rw [code_prog_cons opts tk n rest (fun _ _ m _ E' => emit_expr_text opts m E')]
          refine ⟨by rw [count_push_append, count_pop_append, hn.1, ih'.1], fun base => ?_⟩
          exact PrefixOK_append (hn.2 base) (by rw [hn.1]) (ih'.2 base)
    | BINOP =>
      cases hp : binop_parts args with
      | none =>
        rw [code_binop_none opts hp]
        have h := count_zero_acc opts
        exact ⟨by rw [h.1, h.2], PrefixOK_of_no_pop h.2⟩
      | some p =>
        obtain ⟨l, op, r⟩ := p
        obtain ⟨⟨a, ha, hl⟩, ⟨b, hb, hr⟩⟩ := binop_parts_mem hp
        have h1 := ih a ha l hl
        have h2 := ih b hb r hr
        have hpu := count_push_acc opts
        have hpo := count_pop_left opts
        have hop := count_operator_code opts op.value
        rw [code_binop opts hp]
        constructor
        · simp only [count_push_append, count_pop_append, h1.1, h2.1, hpu.1, hpu.2, hpo.1,
            hpo.2, hop.1, hop.2]
          omega
        · intro base
          refine @PrefixOK_append _ _ base base ?_ ?_ (PrefixOK_of_no_pop hop.2 base)
          · refine @PrefixOK_append _ _ base (base + 1) ?_ ?_ (PrefixOK_pop_left opts base)
            · refine @PrefixOK_append _ _ base (base + 1) ?_ ?_ (h2.2 (base + 1))
              · exact PrefixOK_append (h1.2 base) (by rw [h1.1])
                  (PrefixOK_of_no_pop hpu.2 base)
              · simp only [count_push_append, count_pop_append, h1.1, hpu.1, hpu.2]
                omega
            · simp only [count_push_append, count_pop_append, h1.1, h2.1, hpu.1, hpu.2]
              omega
          · simp only [count_push_append, count_pop_append, h1.1, h2.1, hpu.1, hpu.2, hpo.1,
              hpo.2]
            omega
    | ASSIGN =>
      cases hp : assign_parts args with
      | none =>
        rw [code_assign_none opts hp]
        have h := count_zero_acc opts
        exact ⟨by rw [h.1, h.2], PrefixOK_of_no_pop h.2⟩
      | some p =>
        obtain ⟨id, rhs⟩ := p
        obtain ⟨a, ha, hr⟩ := assign_parts_mem hp
        have h1 := ih a ha rhs hr
        have hs := count_store_acc opts id.value
        rw [code_assign opts hp]
        refine ⟨by rw [count_push_append, count_pop_append, h1.1, hs.1, hs.2], fun base => ?_⟩
        exact PrefixOK_append (h1.2 base) (by rw [h1.1]) (PrefixOK_of_no_pop hs.2 base)

/-! ## The body leaves the frame alone -/

theorem write_frame_safe {m m' : Machine} {r : Reg} {v : Nat} (hr : r.is_frame = false)
    (h : m.write r v = some m') : m'.rbp = m.rbp ∧ m'.stack = m.stack := by
  cases r <;> first
    | exact absurd hr (by decide)
    | (simp only [Machine.write, Reg.slot, Machine.set, Option.some.injEq] at h
       rw [← h]
       exact ⟨rfl, rfl⟩)

theorem exec_alu_frame_safe {w : Nat} {f : Nat → Nat → Nat → Nat} {d s : Operand}
    {m m' : Machine} (hd : d.is_frame = false) (h : exec_alu w f d s m = some m') :
    m'.rbp = m.rbp ∧ m'.stack = m.stack := by
  unfold exec_alu at h
  split at h
  · rename_i rd rs
    split at h
    · split at h
      · exact write_frame_safe hd h
      · cases h
    · cases h
  · cases h

theorem exec_mov_frame_safe {w : Nat} {d s : Operand} {m m' : Machine}
    (hd : d.is_frame = false) (hs : s.is_frame = false) (h : exec_mov w d s m = some m') :
    m'.rbp = m.rbp ∧ m'.stack = m.stack := by
  unfold exec_mov at h
  split at h
  · rename_i rd rs
    have hrs : rs.slot ≠ none := by
      cases rs <;> first | exact absurd hs (by decide) | simp [Reg.slot]
    have hrd : rd.slot ≠ none := by
      cases rd <;> first | exact absurd hd (by decide) | simp [Reg.slot]
    simp only [hrs, hrd, if_false] at h
    split at h
    · split at h
      · exact write_frame_safe hd h
      · cases h
    · cases h
  · split at h
    · split at h
      · exact write_frame_safe hd h
      · cases h
    · cases h
  · split at h
    · split at h
      · exact write_frame_safe hd h
      · cases h
    · cases h
  · split at h
    · split at h
      · simp only [Option.some.injEq] at h
        rw [← h]
        exact ⟨rfl, rfl⟩
      · cases h
    · cases h
  · cases h

/-- An instruction that does not name the frame registers keeps the frame
pointer, and moves the stack only by its own push or pop. -/
theorem exec_frame_safe {w : Nat} {i : Instr} {m m' : Machine} (hi : i.frame_safe = true)
    (h : exec_instr w i m = some m') :
    m'.rbp = m.rbp ∧
      (i.is_push = true → ∃ v, m'.stack = v :: m.stack) ∧
      (i.is_pop = true → ∃ v, m.stack = v :: m'.stack) ∧
      (i.is_push = false → i.is_pop = false → m'.stack = m.stack) := by
  cases i with
  | mov d s =>
    simp only [Instr.frame_safe, Bool.and_eq_true, Bool.not_eq_true'] at hi
    have := exec_mov_frame_safe hi.1 hi.2 h
    exact ⟨this.1, fun h => (by cases h), fun h => (by cases h), fun _ _ => this.2⟩
  | xor d s =>
    simp only [Instr.frame_safe, Bool.and_eq_true, Bool.not_eq_true'] at hi
    simp only [exec_instr] at h
    have := exec_alu_frame_safe hi.1 h
    exact ⟨this.1, fun h => (by cases h), fun h => (by cases h), fun _ _ => this.2⟩
  | add d s =>
    simp only [Instr.frame_safe, Bool.and_eq_true, Bool.not_eq_true'] at hi
    simp only [exec_instr] at h
    have := exec_alu_frame_safe hi.1 h
    exact ⟨this.1, fun h => (by cases h), fun h => (by cases h), fun _ _ => this.2⟩
  | sub d s =>
    simp only [Instr.frame_safe, Bool.and_eq_true, Bool.not_eq_true'] at hi
    simp only [exec_instr] at h
    have := exec_alu_frame_safe hi.1 h
    exact ⟨this.1, fun h => (by cases h), fun h => (by cases h), fun _ _ => this.2⟩
  | imul d s =>
    simp only [Instr.frame_safe, Bool.and_eq_true, Bool.not_eq_true'] at hi
    simp only [exec_instr] at h
    have := exec_alu_frame_safe hi.1 h
    exact ⟨this.1, fun h => (by cases h), fun h => (by cases h), fun _ _ => this.2⟩
  | push s =>
    simp only [exec_instr, exec_push] at h
    split at h
    · split at h
      · split at h
        · simp only [Option.some.injEq] at h
          rw [← h]
          exact ⟨rfl, fun _ => ⟨_, rfl⟩, fun h => (by cases h), fun h => (by cases h)⟩
        · cases h
      · cases h
    · cases h
  | pop d =>
    simp only [Instr.frame_safe, Bool.not_eq_true'] at hi
    simp only [exec_instr, exec_pop] at h
    split at h
    · split at h
      · split at h
        · cases h
        · rename_i v rest hst
          have := write_frame_safe hi h
          simp only [] at this
          exact ⟨this.1, fun h => (by cases h), fun _ => ⟨v, by rw [hst, this.2]⟩,
            fun _ h => (by cases h)⟩
      · cases h
    · cases h
  | idiv s =>
    simp only [exec_instr, exec_idiv] at h
    split at h
    · split at h
      · split at h
        · simp only [Option.some.injEq] at h
          rw [← h]
          exact ⟨rfl, fun h => (by cases h), fun h => (by cases h), fun _ _ => rfl⟩
        · cases h
      · cases h
    · cases h
  | cqo =>
    simp only [exec_instr] at h
    split at h
    · simp only [Option.some.injEq] at h
      rw [← h]
      exact ⟨rfl, fun h => (by cases h), fun h => (by cases h), fun _ _ => rfl⟩
    · cases h
  | cdq =>
    simp only [exec_instr, Option.some.injEq] at h
    rw [← h]
    exact ⟨rfl, fun h => (by cases h), fun h => (by cases h), fun _ _ => rfl⟩
  | ret => cases hi

theorem PrefixOK_tail_push {i : Instr} {rest : List Instr} {base : Nat}
    (hi : i.is_push = true) (h : PrefixOK base (i :: rest)) : PrefixOK (base + 1) rest := by
  intro k
  have h1 := h (k + 1)
  have hp : i.is_pop = false := by cases i <;> first | rfl | cases hi
  simp only [List.take_succ_cons, count_pop, count_push, hi, hp, if_true, Bool.false_eq_true,
    if_false] at h1
  omega

theorem PrefixOK_tail_pop {i : Instr} {rest : List Instr} {base : Nat}
    (hi : i.is_pop = true) (h : PrefixOK base (i :: rest)) :
    1 ≤ base ∧ PrefixOK (base - 1) rest := by
  have hp : i.is_push = false := by cases i <;> first | rfl | cases hi
  have h0 := h 1
  simp only [List.take_succ_cons, List.take_zero, count_pop, count_push, hi, hp, if_true,
    Bool.false_eq_true, if_false] at h0
  refine ⟨by omega, fun k => ?_⟩
  have h1 := h (k + 1)
  simp only [List.take_succ_cons, count_pop, count_push, hi, hp, if_true, Bool.false_eq_true,
    if_false] at h1
  omega

theorem PrefixOK_tail_other {i : Instr} {rest : List Instr} {base : Nat}
    (h1 : i.is_push = false) (h2 : i.is_pop = false) (h : PrefixOK base (i :: rest)) :
    PrefixOK base rest := by
  intro k
  have h3 := h (k + 1)
  simp only [List.take_succ_cons, count_pop, count_push, h1, h2, Bool.false_eq_true,
    if_false] at h3
  omega

/-- Run on a stack that holds the words `pushed` above the words `frame`, a
sequence of instructions that do not name the frame registers and never pop
more than `pushed` and their own pushes leaves `frame` in place, below the
words pushed and not yet popped, and keeps the frame pointer. -/
theorem exec_list_stack (w : Nat) (frame : List Nat) :
    ∀ (l : List Instr) (m m' : Machine) (pushed : List Nat),
      (∀ i ∈ l, i.frame_safe = true) → PrefixOK pushed.length l →
      m.stack = pushed ++ frame → exec_list w l m = some m' →
      ∃ pushed', m'.stack = pushed' ++ frame ∧
        pushed'.length + count_pop l = pushed.length + count_push l ∧ m'.rbp = m.rbp := by
  intro l
  induction l with
  | nil =>
    intro m m' pushed _ _ hst h
    simp only [exec_list, Option.some.injEq] at h
    subst h
    exact ⟨pushed, hst, rfl, rfl⟩
  | cons i rest ih =>
    intro m m' pushed hsafe hok hst h
    simp only [exec_list] at h
    cases h1 : exec_instr w i m with
    | none => rw [h1] at h; cases h
    | some m1 =>
      rw [h1] at h
      simp only [] at h
      have hi := exec_frame_safe (hsafe i (List.mem_cons_self _ _)) h1
      have hrest : ∀ j ∈ rest, j.frame_safe = true :=
        fun j hj => hsafe j (List.mem_cons_of_mem _ hj)
      by_cases hpush : i.is_push = true
      · have hpop : i.is_pop = false := by cases i <;> first | rfl | cases hpush
        obtain ⟨v, hv⟩ := hi.2.1 hpush
        obtain ⟨p', h2, h3, h4⟩ := ih m1 m' (v :: pushed) hrest
          (PrefixOK_tail_push hpush hok) (by rw [hv, hst]; rfl) h
        refine ⟨p', h2, ?_, h4.trans hi.1⟩
        simp only [count_pop, count_push, hpush, hpop, if_true, Bool.false_eq_true, if_false,
          List.length_cons] at h3 ⊢
        omega
      · have hpush' : i.is_push = false := by simpa using hpush
        by_cases hpop : i.is_pop = true
        · obtain ⟨v, hv⟩ := hi.2.2.1 hpop
          obtain ⟨hb, hok'⟩ := PrefixOK_tail_pop hpop hok
          cases pushed with
          | nil => simp at hb
          | cons x xs =>
            have hm1 : m1.stack = xs ++ frame := by
              rw [hst, List.cons_append] at hv
              exact (List.cons.inj hv).2.symm
            obtain ⟨p', h2, h3, h4⟩ := ih m1 m' xs hrest
              (by simpa using hok') hm1 h
            refine ⟨p', h2, ?_, h4.trans hi.1⟩
            simp only [count_pop, count_push, hpush', hpop, if_true, Bool.false_eq_true,
              if_false, List.length_cons] at h3 ⊢
            omega
        · have hpop' : i.is_pop = false := by simpa using hpop
          have hs := hi.2.2.2 hpush' hpop'
          obtain ⟨p', h2, h3, h4⟩ := ih m1 m' pushed hrest
            (PrefixOK_tail_other hpush' hpop' hok) (by rw [hs, hst]) h
          refine ⟨p', h2, ?_, h4.trans hi.1⟩
          simp only [count_pop, count_push, hpush', hpop', Bool.false_eq_true, if_false] at h3 ⊢
          omega

theorem frame_safe_operator_code (opts : CodegenOptions) (o : String) :
    ∀ i ∈ operator_code opts o, i.frame_safe = true := by
  unfold operator_code emit_operator
  simp only [Emitter.init, Emitter.put, List.nil_append, zero_acc]
  intro i hi
  repeat' split at hi
  all_goals
    simp only [List.cons_append, List.nil_append, List.mem_cons, List.mem_singleton,
      List.not_mem_nil, or_false] at hi
    rcases hi with rfl | rfl | rfl | rfl | rfl <;> rfl

theorem frame_safe_fixed (opts : CodegenOptions) (name : String) :
    (zero_acc opts).frame_safe = true ∧ (push_acc opts).frame_safe = true ∧
      (pop_left opts).frame_safe = true ∧ (store_acc opts name).frame_safe = true ∧
      (load_acc opts name).frame_safe = true := by
  obtain ⟨arch, os⟩ := opts
  cases arch <;> exact ⟨rfl, rfl, rfl, rfl, rfl⟩

/-- No instruction of the code of a tree names the frame registers. -/
theorem code_frame_safe (opts : CodegenOptions) (node : AstNode) :
    ∀ i ∈ code opts node, i.frame_safe = true := by
  induction node using AstNode_induct with
  | h t args ih =>
    intro i hi
    cases t with
    | LITERAL =>
      rcases code_literal_cases opts args with h | ⟨v, h⟩ | ⟨x, _, h⟩
      · rw [h, List.mem_singleton] at hi
        rw [hi]; exact (frame_safe_fixed opts "").1
      · rw [h, List.mem_singleton] at hi
        rw [hi]
        obtain ⟨arch, os⟩ := opts
        cases arch <;> rfl
      · rw [h, List.mem_singleton] at hi
        rw [hi]; exact (frame_safe_fixed opts x).2.2.2.2
    | PROG =>
      induction args with
      | nil => rw [code_prog_nil] at hi; cases hi
      | cons a rest ihr =>
        have ih' := ihr (fun b hb => ih b (List.mem_cons_of_mem _ hb))
        match a with
        | .mk tk none => rw [code_prog_skip] at hi; exact ih' hi
        | .mk tk (some n) =>
          rw [code_prog_cons opts tk n rest (fun _ _ m _ E' => emit_expr_text opts m E'),
            List.mem_append] at hi
          rcases hi with hi | hi
          · exact ih _ (List.mem_cons_self _ _) n rfl i hi
          · exact ih' hi
    | BINOP =>
      cases hp : binop_parts args with
      | none =>
        rw [code_binop_none opts hp, List.mem_singleton] at hi
        rw [hi]; exact (frame_safe_fixed opts "").1
      | some p =>
        obtain ⟨l, op, r⟩ := p
        obtain ⟨⟨a, ha, hl⟩, ⟨b, hb, hr⟩⟩ := binop_parts_mem hp
        rw [code_binop opts hp] at hi
        simp only [List.mem_append, List.mem_singleton] at hi
        rcases hi with (((hi | hi) | hi) | hi) | hi
        · exact ih a ha l hl i hi
        · rw [hi]; exact (frame_safe_fixed opts "").2.1
        · exact ih b hb r hr i hi
        · rw [hi]; exact (frame_safe_fixed opts "").2.2.1
        · exact frame_safe_operator_code opts op.value i hi
    | ASSIGN =>
      cases hp : assign_parts args with
      | none =>
        rw [code_assign_none opts hp, List.mem_singleton] at hi
        rw [hi]; exact (frame_safe_fixed opts "").1
      | some p =>
        obtain ⟨id, rhs⟩ := p
        obtain ⟨a, ha, hr⟩ := assign_parts_mem hp
        rw [code_assign opts hp] at hi
        simp only [List.mem_append, List.mem_singleton] at hi
        rcases hi with hi | hi
        · exact ih a ha rhs hr i hi
        · rw [hi]; exact (frame_safe_fixed opts id.value).2.2.2.1

theorem PrefixOK_prefix {p l : List Instr} {base : Nat} (hp : p <+: l) (h : PrefixOK base l) :
    PrefixOK base p := by
  intro k
  rw [List.prefix_iff_eq_take.1 hp, List.take_take]
  exact h _

/-- Every initial segment of the body, run from any state, leaves the stack
it was entered with in place below the words it has pushed and not yet
popped, and keeps the frame pointer. -/
theorem body_prefix_stack (opts : CodegenOptions) (node : AstNode) (p : List Instr)
    (m m' : Machine) (hp : p <+: code opts node)
    (h : exec_list (word_bits opts) p m = some m') :
    ∃ pushed, m'.stack = pushed ++ m.stack ∧ pushed.length + count_pop p = count_push p ∧
      m'.rbp = m.rbp := by
  have hsafe : ∀ i ∈ p, i.frame_safe = true :=
    fun i hi => code_frame_safe opts node i (hp.subset hi)
  have hok : PrefixOK 0 p := PrefixOK_prefix hp ((code_balanced opts node).2 0)
  obtain ⟨p', h1, h2, h3⟩ := exec_list_stack (word_bits opts) m.stack p m m' [] hsafe hok rfl h
  exact ⟨p', h1, by simpa using h2, h3⟩

/-- The whole body, if it runs to its end, leaves the stack and the frame
pointer as it found them. -/
theorem body_stack (opts : CodegenOptions) (node : AstNode) (m m' : Machine)
    (h : exec_list (word_bits opts) (code opts node) m = some m') :
    m'.stack = m.stack ∧ m'.rbp = m.rbp := by
  obtain ⟨p', h1, h2, h3⟩ := body_prefix_stack opts node _ m m' (List.prefix_refl _) h
  rw [(code_balanced opts node).1] at h2
  have : p' = [] := List.length_eq_zero.1 (by omega)
  rw [this] at h1
  exact ⟨h1, h3⟩

/-- The routine that `generate_asm` writes, if it runs to its `ret`, returns
with the caller's frame pointer restored and only the return address taken
off the stack. -/
theorem routine_restores_frame (ast : AstNode) (opts : CodegenOptions) (m m' : Machine)
    (h : exec_list (word_bits opts) (code_of (generate_lines ast opts)) m = some m') :
    m'.rbp = m.rbp % 2 ^ word_bits opts ∧ ∃ ret, m.stack = ret :: m'.stack := by
  rw [code_of_generate_lines, List.append_assoc, exec_list_append] at h
  have h0 : exec_list (word_bits opts)
      [Instr.push (.reg (areg opts .rbp)), Instr.mov (.reg (areg opts .rbp)) (.reg (areg opts .rsp))]
      m = some { m with
        stack := (m.rbp % 2 ^ word_bits opts) :: m.stack
        rbp := m.stack.length + 1 } := by
    simp only [exec_list, exec_push_bp, exec_mov_bp_sp, List.length_cons]
  rw [h0] at h
  simp only [] at h
  rw [exec_list_append] at h
  cases hb : exec_list (word_bits opts) (code opts ast)
      { m with stack := (m.rbp % 2 ^ word_bits opts) :: m.stack, rbp := m.stack.length + 1 } with
  | none => rw [hb] at h; cases h
  | some m1 =>
    rw [hb] at h
    simp only [] at h
    have hs := body_stack opts ast _ m1 hb
    simp only [] at hs
    have h1 : exec_instr (word_bits opts) (.mov (.reg (areg opts .rsp)) (.reg (areg opts .rbp)))
        { m1 with rax := m1.rax % 2 ^ 32 } = some { m1 with rax := m1.rax % 2 ^ 32 } := by
      rw [exec_mov_sp_bp opts _ (by simp [hs.1, hs.2])]
      simp [hs.1, hs.2]
    have h2 := exec_pop_bp opts { m1 with rax := m1.rax % 2 ^ 32 }
      (m.rbp % 2 ^ word_bits opts) m.stack hs.1
    simp only [exec_list, exec_mov_eax_eax, h1, h2] at h
    cases hst : m.stack with
    | nil => simp [exec_instr, hst] at h
    | cons ret rest =>
      simp only [exec_instr, hst, Option.some.injEq] at h
      rw [← h]
      exact ⟨by simp, ret, rfl⟩

/-- C20: the emitted body is stack-balanced.  For every tree, well formed or
not, and every configuration, the instruction sequence that `emit_expr`
appends has as many `push` as `pop` instructions, and in every initial
segment of it the pushes are at least as many as the pops.  Hence, run from
any machine state, every initial segment that executes leaves the stack it
was entered with in place, below the words pushed and not yet popped, and
keeps the frame pointer; the whole body leaves the stack and the frame
pointer as it found them; and the routine that `generate_asm` writes, when it
runs to its `ret`, has restored the caller's frame pointer by the `pop rbp`
(`pop ebp`) of its epilogue and taken only the return address off the stack. -/
theorem C20_stack_balanced (opts : CodegenOptions) (node : AstNode) :
    (∀ E : Emitter, (emit_expr opts node E).text = E.text ++ code opts node) ∧
    count_push (code opts node) = count_pop (code opts node) ∧
    (∀ p : List Instr, p <+: code opts node → count_pop p ≤ count_push p) ∧
    (∀ (p : List Instr) (m m' : Machine), p <+: code opts node →
      exec_list (word_bits opts) p m = some m' →
      ∃ pushed, m'.stack = pushed ++ m.stack ∧
        pushed.length + count_pop p = count_push p ∧ m'.rbp = m.rbp) ∧
    (∀ m m' : Machine, exec_list (word_bits opts) (code opts node) m = some m' →
      m'.stack = m.stack ∧ m'.rbp = m.rbp) ∧
    (∀ m m' : Machine,
      exec_list (word_bits opts) (code_of (generate_lines node opts)) m = some m' →
      m'.rbp = m.rbp % 2 ^ word_bits opts ∧ ∃ ret, m.stack = ret :: m'.stack) := by
  refine ⟨emit_expr_text opts node, (code_balanced opts node).1, ?_,
    fun p m m' hp h => body_prefix_stack opts node p m m' hp h,
    fun m m' h => body_stack opts node m m' h,
    fun m m' h => routine_restores_frame node opts m m' h⟩
  intro p hp
  have h := (code_balanced opts node).2 0 p.length
  rw [← List.prefix_iff_eq_take.1 hp] at h
  omega

/-- C20 at the statement `2+3*4`: two pushes and two pops; after the first
four instructions two words are on the stack above the entry stack; the
whole body leaves the entry stack. -/
theorem C20_stack_balanced_witness :
    (code opts64 tree_2_plus_3_times_4).map Instr.render =
      ["mov rax, 2\n", "push rax\n", "mov rax, 3\n", "push rax\n", "mov rax, 4\n", "pop rbx\n",
        "imul rax, rbx\n", "pop rbx\n", "add rax, rbx\n"] ∧
    count_push (code opts64 tree_2_plus_3_times_4) = 2 ∧
    count_pop (code opts64 tree_2_plus_3_times_4) = 2 ∧
    (code opts64 tree_2_plus_3_times_4).take 4 <+: code opts64 tree_2_plus_3_times_4 ∧
    count_pop ((code opts64 tree_2_plus_3_times_4).take 4) ≤
      count_push ((code opts64 tree_2_plus_3_times_4).take 4) ∧
    exec_list (word_bits opts64) (code opts64 tree_2_plus_3_times_4) Machine.start =
      some { Machine.start with rax := 14, rbx := 2 } ∧
    ({ Machine.start with rax := 14, rbx := 2 } : Machine).stack = Machine.start.stack ∧
    ({ Machine.start with rax := 14, rbx := 2 } : Machine).rbp = Machine.start.rbp :=
  ⟨by decide, by decide, by decide, List.take_prefix _ _,
    (C20_stack_balanced opts64 tree_2_plus_3_times_4).2.2.1 _ (List.take_prefix _ _),
    rfl,
    ((C20_stack_balanced opts64 tree_2_plus_3_times_4).2.2.2.2.1 Machine.start
      { Machine.start with rax := 14, rbx := 2 } rfl).1,
    ((C20_stack_balanced opts64 tree_2_plus_3_times_4).2.2.2.2.1 Machine.start
      { Machine.start with rax := 14, rbx := 2 } rfl).2⟩

/-! ## Plain statements have values when their variables have slots -/

/-- With the order of the list of `collect_vars`, the definitions with an order
are the ones without. -/
theorem run_emitter_in_collect_vars (ast : AstNode) (opts : CodegenOptions) :
    run_emitter_in (collect_vars ast []) ast opts = run_emitter ast opts ∧
      generate_lines_in (collect_vars ast []) ast opts = generate_lines ast opts ∧
      generate_asm_in (collect_vars ast []) ast opts = generate_asm ast opts :=
  ⟨rfl, rfl, rfl⟩

theorem declare_var_declared_mem (opts : CodegenOptions) (name x : String) (E : Emitter) :
    x ∈ (declare_var opts name E).declared ↔ x ∈ E.declared ∨ x = name := by
  rw [declare_var_declared]
  split
  · rename_i h
    constructor
    · exact fun hx => Or.inl hx
    · rintro (hx | hx)
      · exact hx
      · rw [hx]; exact h
  · simp

/-- The names declared after emission are determined, as a set, by the names
declared before. -/
theorem emit_expr_declared_mem (opts : CodegenOptions) (node : AstNode) :
    ∀ E1 E2 : Emitter, (∀ x, x ∈ E1.declared ↔ x ∈ E2.declared) →
      ∀ x, x ∈ (emit_expr opts node E1).declared ↔ x ∈ (emit_expr opts node E2).declared := by
  induction node using AstNode_induct with
  | h t args ih =>
    intro E1 E2 hE
    cases t with
    | LITERAL =>
      rw [emit_expr_literal, emit_expr_literal, (emit_literal_decl opts args E1).2,
        (emit_literal_decl opts args E2).2]
      exact hE
    | PROG =>
      rw [emit_expr_prog, emit_expr_prog]
      induction args generalizing E1 E2 with
      | nil => exact hE
      | cons a rest ihr =>
        have ih' := fun E1' E2' h' =>
          ihr (fun b hb => ih b (List.mem_cons_of_mem _ hb)) E1' E2' h'
        match a with
        | .mk _ none => exact ih' E1 E2 hE
        | .mk _ (some n) =>
          simp only [emit_stmts]
          exact ih' _ _ (ih _ (List.mem_cons_self _ _) n rfl E1 E2 hE)
    | BINOP =>
      rw [emit_expr_binop, emit_expr_binop]
      cases hp : binop_parts args with
      | none => exact hE
      | some p =>
        obtain ⟨l, op, r⟩ := p
        obtain ⟨⟨a, ha, hl⟩, ⟨b, hb, hr⟩⟩ := binop_parts_mem hp
        simp only []
        rw [(emit_operator_decl opts op.value _).2, (emit_operator_decl opts op.value _).2]
        exact ih b hb r hr _ _ (ih a ha l hl E1 E2 hE)
    | ASSIGN =>
      rw [emit_expr_assign, emit_expr_assign]
      cases hp : assign_parts args with
      | none => exact hE
      | some p =>
        obtain ⟨id, rhs⟩ := p
        obtain ⟨a, ha, hr⟩ := assign_parts_mem hp
        simp only []
        refine ih a ha rhs hr _ _ ?_
        intro x
        rw [declare_var_declared_mem, declare_var_declared_mem, hE]

/-- The names declared by the loop are those declared before and those of the
loop. -/
theorem declare_all_declared_mem (opts : CodegenOptions) (vars : List String) :
    ∀ (E : Emitter) (x : String),
      x ∈ (declare_all opts vars E).declared ↔ x ∈ E.declared ∨ x ∈ vars := by
  induction vars with
  | nil => intro E x; simp [declare_all]
  | cons v rest ih =>
    intro E x
    simp only [declare_all]
    rw [ih, declare_var_declared_mem, List.mem_cons, or_assoc]

/-- The data stream stays in step with the declared names, in every order of
the eager declarations. -/
theorem run_emitter_in_inv (order : List String) (ast : AstNode) (opts : CodegenOptions) :
    DeclInv opts (run_emitter_in order ast opts) :=
  (emit_expr_decl opts ast _).1 ((declare_all_decl opts _ _).1 (DeclInv_init opts))

/-- The instructions do not depend on the order of the eager declarations. -/
theorem run_emitter_in_text (order : List String) (ast : AstNode) (opts : CodegenOptions) :
    (run_emitter_in order ast opts).text = code opts ast := by
  unfold run_emitter_in
  rw [emit_expr_text, declare_all_text]
  rfl

/-- Two orders with the same names declare the same names, each once. -/
theorem run_emitter_in_declared_perm (o1 o2 : List String) (ast : AstNode)
    (opts : CodegenOptions) (h : ∀ x, x ∈ o1 ↔ x ∈ o2) :
    (run_emitter_in o1 ast opts).declared.Perm (run_emitter_in o2 ast opts).declared := by
  refine (List.perm_ext_iff_of_nodup (run_emitter_in_inv o1 ast opts).2
    (run_emitter_in_inv o2 ast opts).2).2 ?_
  intro x
  refine emit_expr_declared_mem opts ast _ _ ?_ x
  intro y
  rw [declare_all_declared_mem, declare_all_declared_mem, h]

/-- The lines around the streams of an emitter, by sections. -/
theorem lines_of_sections (ast : AstNode) (opts : CodegenOptions) (E : Emitter)
    (hinv : DeclInv opts E) (ht : E.text = code opts ast) :
    lines_of E opts =
      instruction_section ast opts ++
        (if E.declared = [] then []
          else AsmLine.raw "section .bss\n" :: E.bss.map AsmLine.raw) := by
  have hj := join_bss_eq_empty_iff hinv
  have h32 : (TargetArch.X86_32 == TargetArch.X86_64) = false := rfl
  have h64 : (TargetArch.X86_64 == TargetArch.X86_64) = true := rfl
  have hdata : (if (String.join E.bss != "") = true then
        AsmLine.raw "section .bss\n" :: E.bss.map AsmLine.raw else []) =
      (if E.declared = [] then []
        else AsmLine.raw "section .bss\n" :: E.bss.map AsmLine.raw) := by
    by_cases hd : E.declared = []
    · rw [if_pos hd, if_neg]
      simp [hj.2 hd]
    · rw [if_neg hd, if_pos]
      simpa using fun h => hd (hj.1 h)
  obtain ⟨arch, os⟩ := opts
  cases arch
  · simp only [lines_of, hdata, h32, Bool.false_eq_true, if_false, ht]
    simp [instruction_section, areg, is64, Reg.narrow]
  · simp only [lines_of, hdata, h64, if_true, ht]
    simp [instruction_section, areg, is64]

/-- Whatever the order in which `generate_asm` visits the collected names,
provided it visits the same names: the instruction section is the same, line
by line; the slot lines are those of `run_emitter` in some order, one for each
declared name; the data section is present in the one case as in the other;
and the instructions of the unit are the same. -/
theorem generate_lines_in_any_order (order : List String) (ast : AstNode)
    (opts : CodegenOptions) (h : ∀ x, x ∈ order ↔ x ∈ collect_vars ast []) :
    generate_lines_in order ast opts =
        instruction_section ast opts ++
          (if (run_emitter ast opts).declared = [] then []
            else AsmLine.raw "section .bss\n" ::
              (run_emitter_in order ast opts).bss.map AsmLine.raw) ∧
      (run_emitter_in order ast opts).bss.Perm (run_emitter ast opts).bss ∧
      (run_emitter_in order ast opts).declared.Perm (run_emitter ast opts).declared ∧
      (run_emitter_in order ast opts).bss =
        (run_emitter_in order ast opts).declared.map (bss_line opts) ∧
      code_of (generate_lines_in order ast opts) = code_of (generate_lines ast opts) := by
  have hp : (run_emitter_in order ast opts).declared.Perm (run_emitter ast opts).declared :=
    run_emitter_in_declared_perm order (collect_vars ast []) ast opts h
  have hinv := run_emitter_in_inv order ast opts
  have hinv0 := run_emitter_inv ast opts
  have hnil : (run_emitter_in order ast opts).declared = [] ↔
      (run_emitter ast opts).declared = [] :=
    ⟨fun e => List.Perm.eq_nil (e ▸ hp.symm), fun e => List.Perm.eq_nil (e ▸ hp)⟩
  have hl := lines_of_sections ast opts _ hinv (run_emitter_in_text order ast opts)
  have hl0 := lines_of_sections ast opts _ hinv0 (run_emitter_text ast opts)
  have hlines : generate_lines_in order ast opts =
      instruction_section ast opts ++
        (if (run_emitter ast opts).declared = [] then []
          else AsmLine.raw "section .bss\n" ::
            (run_emitter_in order ast opts).bss.map AsmLine.raw) := by
    unfold generate_lines_in
    rw [hl]
    by_cases hd : (run_emitter ast opts).declared = []
    · rw [if_pos hd, if_pos (hnil.2 hd)]
    · rw [if_neg hd, if_neg (fun e => hd (hnil.1 e))]
  refine ⟨hlines, ?_, hp, hinv.1, ?_⟩
  · rw [hinv.1, hinv0.1]
    exact hp.map _
  · have e0 : generate_lines ast opts = lines_of (run_emitter ast opts) opts := rfl
    rw [hlines, e0, hl0, code_of_append, code_of_append]
    congr 1
    by_cases hd : (run_emitter ast opts).declared = []
    · rw [if_pos hd, if_pos hd]
    · rw [if_neg hd, if_neg hd]
      simp only [code_of, code_of_map_raw]

/-- Two programs with two collected names, the names visited in the other
order: the slot lines follow the order of the visit, a name declared by an
assignment alone comes after them, and the instructions are unchanged. -/
theorem run_emitter_in_examples :
    collect_vars (mk_prog [tree_a_eq_b_mod_2]) [] = ["a", "b"] ∧
    (run_emitter_in ["b", "a"] (mk_prog [tree_a_eq_b_mod_2]) opts64).bss =
      ["b: resq 1\n", "a: resq 1\n"] ∧
    (run_emitter_in ["b", "a"] (mk_prog [tree_a_eq_b_mod_2]) opts64).text =
      (run_emitter (mk_prog [tree_a_eq_b_mod_2]) opts64).text ∧
    collect_vars prog_malformed [] = ["b", "c"] ∧
    (run_emitter_in ["c", "b"] prog_malformed opts64).bss =
      ["c: resq 1\n", "b: resq 1\n", "9: resq 1\n"] ∧
    (run_emitter_in ["c", "b"] prog_malformed opts64).text =
      (run_emitter prog_malformed opts64).text :=
  ⟨by decide, by decide, by decide, by decide, by decide, by decide⟩

end BMath
